import Mathlib

/-!
Verification of the Snapshot Diffing & Changelog Merge Engine of the
dod-prohibited repository.

The development shallowly embeds the relevant Python code:
  * `src/changelog.py`  — changelog parsing, merging and rendering
    (`parse_existing_changelog_entries`, `update_persistent_changelog`,
    `merge_changes_for_date`, `generate_changelog_content_for_date`,
    `extract_existing_date_content`, `get_substance_last_modified`),
  * `src/generate_docs.py` — identity-key derivation and snapshot change
    detection inside `main` (lines 513-656), plus
    `get_substance_last_modified` / `get_substance_source_date`.

Python strings are modelled as `List Char`; Python scalar values as the
inductive `PyVal`.  The Python standard-library helpers the code relies on
(`str.strip`, `str.find`, `str.count`, `json.loads`, `ast.literal_eval`,
`json.dumps`, `sorted`) are given executable models below, faithful to
CPython semantics on the value space exercised by this repository (ASCII
whitespace; integer JSON numbers; no float literals).
-/

/-- Python string model: a list of characters. -/
abbrev Str := List Char

/-- Characters stripped by Python `str.strip()` (ASCII whitespace). -/
def isWs (c : Char) : Bool :=
  c = ' ' || c = '\t' || c = '\n' || c = '\r' || c = '\x0b' || c = '\x0c'

/-- Model of Python `str.lstrip()`. -/
def pyLStrip (s : Str) : Str := s.dropWhile isWs

/-- Model of Python `str.rstrip()`. -/
def pyRStrip (s : Str) : Str := (s.reverse.dropWhile isWs).reverse

/-- Model of Python `str.strip()`. -/
def pyStrip (s : Str) : Str := pyRStrip (pyLStrip s)

/-- Model of Python `str.rstrip(":")`: drop trailing colon characters. -/
def rstripColon (s : Str) : Str :=
  (s.reverse.dropWhile (fun c => c = ':')).reverse

/-- Model of Python `str.startswith`. -/
def startsW : Str → Str → Bool
  | [], _ => true
  | _ :: _, [] => false
  | a :: as, b :: bs => a = b && startsW as bs

/-- Substring test (Python `pat in s`). -/
def hasSub (p : Str) : Str → Bool
  | [] => startsW p []
  | s@(_ :: t) => startsW p s || hasSub p t

/-- Index of the first occurrence of `p` in `s` (Python `s.find(p)` when the
result is non-negative; `none` models the `-1` result). -/
def findSub (p : Str) : Str → Option Nat
  | [] => if startsW p [] then some 0 else none
  | s@(_ :: t) =>
    if startsW p s then some 0 else (findSub p t).map (· + 1)

/-- Model of Python `s.find(p, k)` restricted to a non-negative start. -/
def findSubFrom (p s : Str) (k : Nat) : Option Nat :=
  (findSub p (s.drop k)).map (· + k)

/-- Model of Python non-overlapping `s.count("**")`. -/
def countSS : Str → Nat
  | [] => 0
  | [_] => 0
  | c1 :: c2 :: t =>
    if c1 = '*' && c2 = '*' then countSS t + 1 else countSS (c2 :: t)

/-- Model of Python slicing `s[a:b]` for `0 ≤ a, b`. -/
def pySlice (s : Str) (a b : Nat) : Str := (s.take b).drop a

/-- Model of Python `content.split("\n")`. -/
def splitNL : Str → List Str
  | [] => [[]]
  | c :: t =>
    if c = '\n' then [] :: splitNL t
    else
      match splitNL t with
      | [] => [[c]]
      | l :: ls => (c :: l) :: ls

/-- Model of Python `sep.join(parts)`. -/
def joinSep (sep : Str) : List Str → Str
  | [] => []
  | [l] => l
  | l :: ls => l ++ sep ++ joinSep sep ls

/-- Model of Python `"\n".join(parts)`. -/
def joinNL (ls : List Str) : Str := joinSep ['\n'] ls

/-- Lexicographic comparison of strings by code point, as Python `<`. -/
def ltS : Str → Str → Bool
  | [], [] => false
  | [], _ :: _ => true
  | _ :: _, [] => false
  | a :: x, b :: y => if a < b then true else if b < a then false else ltS x y

/-- Insertion step for descending sort (newest-first, Python
`sorted(dates, reverse=True)`). -/
def insDesc (x : Str) : List Str → List Str
  | [] => [x]
  | y :: t => if ltS x y then y :: insDesc x t else x :: y :: t

/-- Model of Python `sorted(dates, reverse=True)` on distinct dates. -/
def sortDesc : List Str → List Str
  | [] => []
  | x :: t => insDesc x (sortDesc t)

/-- Membership of a string in a list of strings. -/
def memS (x : Str) : List Str → Bool
  | [] => false
  | y :: t => decide (y = x) || memS x t

/-- Deduplicate, keeping last occurrences (models collecting a Python set
whose iteration order is irrelevant here because results are sorted
afterwards). -/
def dedupS : List Str → List Str
  | [] => []
  | x :: t => if memS x t then dedupS t else x :: dedupS t

/-- Decimal digit character. -/
def digitChar (n : Nat) : Char := Char.ofNat (48 + n)

/-- Decimal rendering of a natural number (fuel-based). -/
def natToStrFuel : Nat → Nat → Str
  | 0, _ => []
  | fuel + 1, n =>
    if n < 10 then [digitChar n]
    else natToStrFuel fuel (n / 10) ++ [digitChar (n % 10)]

/-- Model of Python `str(n)` for a natural number. -/
def natToStr (n : Nat) : Str := natToStrFuel (n + 1) n

/-- Model of Python `str(i)` for an integer. -/
def intToStr (i : Int) : Str :=
  if i < 0 then '-' :: natToStr i.natAbs else natToStr i.toNat

/-! ## Python value model -/

/-- Scalar/collection values as they occur in this pipeline: strings,
integers, booleans, `None`, lists and string-keyed dicts.  (Floats never
arise on the paths verified here and are not modelled.) -/
inductive PyVal where
  | vstr (s : Str)
  | vint (n : Int)
  | vbool (b : Bool)
  | vnone
  | vlist (xs : List PyVal)
  | vdict (kvs : List (Str × PyVal))

open PyVal

mutual

/-- Structural equality, modelling Python `==` on these values (booleans
compare equal to the integers 0/1, as in Python). -/
def pyBEq : PyVal → PyVal → Bool
  | vstr a, vstr b => a = b
  | vint a, vint b => a = b
  | vbool a, vbool b => a = b
  | vint a, vbool b => a = (if b then 1 else 0)
  | vbool a, vint b => (if a then (1 : Int) else 0) = b
  | vnone, vnone => true
  | vlist a, vlist b => pyBEqList a b
  | vdict a, vdict b => pyBEqKVs a b
  | _, _ => false

def pyBEqList : List PyVal → List PyVal → Bool
  | [], [] => true
  | x :: xs, y :: ys => pyBEq x y && pyBEqList xs ys
  | _, _ => false

def pyBEqKVs : List (Str × PyVal) → List (Str × PyVal) → Bool
  | [], [] => true
  | (k, v) :: xs, (k2, v2) :: ys => decide (k = k2) && pyBEq v v2 && pyBEqKVs xs ys
  | _, _ => false

end

/-- Python truthiness of a value. -/
def truthy : PyVal → Bool
  | vstr s => !s.isEmpty
  | vint n => n ≠ 0
  | vbool b => b
  | vnone => false
  | vlist xs => !xs.isEmpty
  | vdict kvs => !kvs.isEmpty

/-- Single-quote character (for Python repr / literal strings). -/
def squote : Char := Char.ofNat 39

/-- Opening brace character. -/
def copen : Char := Char.ofNat 123

/-- Closing brace character. -/
def cclose : Char := Char.ofNat 125

mutual

/-- Model of Python `repr` for the embedded values (used by `str()` on
lists/dicts); strings are single-quoted. -/
def pyRepr : PyVal → Str
  | vstr s => squote :: s ++ [squote]
  | vint n => intToStr n
  | vbool b => if b then "True".toList else "False".toList
  | vnone => "None".toList
  | vlist xs => '[' :: pyReprList xs ++ [']']
  | vdict kvs => copen :: pyReprKVs kvs ++ [cclose]

def pyReprList : List PyVal → Str
  | [] => []
  | [x] => pyRepr x
  | x :: xs => pyRepr x ++ ", ".toList ++ pyReprList xs

def pyReprKVs : List (Str × PyVal) → Str
  | [] => []
  | [(k, v)] => squote :: k ++ [squote] ++ ": ".toList ++ pyRepr v
  | (k, v) :: kvs =>
    squote :: k ++ [squote] ++ ": ".toList ++ pyRepr v ++ ", ".toList ++ pyReprKVs kvs

end

/-- Model of Python `str(v)`. -/
def pyStr : PyVal → Str
  | vstr s => s
  | vint n => intToStr n
  | vbool b => if b then "True".toList else "False".toList
  | vnone => "None".toList
  | vlist xs => pyRepr (vlist xs)
  | vdict kvs => pyRepr (vdict kvs)

/-- JSON string escaping used by `json.dumps`. -/
def jEscChar (c : Char) : Str :=
  if c = '"' then ['\\', '"']
  else if c = '\\' then ['\\', '\\']
  else if c = '\n' then ['\\', 'n']
  else if c = '\t' then ['\\', 't']
  else if c = '\r' then ['\\', 'r']
  else [c]

mutual

/-- Model of Python `json.dumps(v, ensure_ascii=False)`. -/
def jdumps : PyVal → Str
  | vstr s => '"' :: s.flatMap jEscChar ++ ['"']
  | vint n => intToStr n
  | vbool b => if b then "true".toList else "false".toList
  | vnone => "null".toList
  | vlist xs => '[' :: jdumpsList xs ++ [']']
  | vdict kvs => copen :: jdumpsKVs kvs ++ [cclose]

def jdumpsList : List PyVal → Str
  | [] => []
  | [x] => jdumps x
  | x :: xs => jdumps x ++ ", ".toList ++ jdumpsList xs

def jdumpsKVs : List (Str × PyVal) → Str
  | [] => []
  | [(k, v)] => '"' :: k.flatMap jEscChar ++ ['"'] ++ ": ".toList ++ jdumps v
  | (k, v) :: kvs =>
    '"' :: k.flatMap jEscChar ++ ['"'] ++ ": ".toList ++ jdumps v ++ ", ".toList ++ jdumpsKVs kvs

end

/-! ## Decoding: `json.loads` and `ast.literal_eval` models -/

/-- JSON whitespace. -/
def isJWs (c : Char) : Bool := c = ' ' || c = '\t' || c = '\n' || c = '\r'

/-- Unescape one escaped character inside a quoted literal. -/
def escChar (c : Char) : Char :=
  if c = 'n' then '\n' else if c = 't' then '\t' else if c = 'r' then '\r' else c

/-- Parse a quoted string after its opening quote `q`, up to the closing
quote; returns the decoded content and the rest of the input. -/
def pQuoted (q : Char) : Str → Option (Str × Str)
  | [] => none
  | c :: t =>
    if c = q then some ([], t)
    else if c = '\\' then
      match t with
      | [] => none
      | e :: t2 => (pQuoted q t2).map (fun p => (escChar e :: p.1, p.2))
    else (pQuoted q t).map (fun p => (c :: p.1, p.2))

/-- Digits-to-number. -/
def digitsToNat (ds : Str) : Nat :=
  ds.foldl (fun a c => a * 10 + (c.toNat - 48)) 0

/-- Parse an integer literal (optional leading minus). -/
def pNum : Str → Option (PyVal × Str)
  | '-' :: t =>
    let ds := t.takeWhile Char.isDigit
    if ds.isEmpty then none else some (vint (-(digitsToNat ds : Int)), t.drop ds.length)
  | s =>
    let ds := s.takeWhile Char.isDigit
    if ds.isEmpty then none else some (vint (digitsToNat ds), s.drop ds.length)

/-- Overwrite-insert into an association list (Python dict assignment). -/
def aSet (kvs : List (Str × PyVal)) (k : Str) (v : PyVal) : List (Str × PyVal) :=
  match kvs with
  | [] => [(k, v)]
  | (k2, v2) :: t => if k2 = k then (k2, v) :: t else (k2, v2) :: aSet t k v

/-- Association-list lookup (Python dict indexing / `in`). -/
def aGet (kvs : List (Str × PyVal)) (k : Str) : Option PyVal :=
  match kvs with
  | [] => none
  | (k2, v2) :: t => if k2 = k then some v2 else aGet t k

mutual

/-- Fueled recursive-descent parser covering the JSON grammar (flag
`py = false`) and the Python-literal grammar of `ast.literal_eval`
(`py = true`) on the value space of this repository: strings, integers,
booleans, null/None, lists and string-keyed dicts. -/
def pVal (py : Bool) : Nat → Str → Option (PyVal × Str)
  | 0, _ => none
  | fuel + 1, input =>
    let s := input.dropWhile isJWs
    match s with
    | [] => none
    | c :: t =>
      if c = '"' then (pQuoted '"' t).map (fun p => (vstr p.1, p.2))
      else if py && c = squote then (pQuoted squote t).map (fun p => (vstr p.1, p.2))
      else if c = '[' then pElems py fuel t []
      else if c = copen then pPairs py fuel t []
      else if c.isDigit || c = '-' then pNum s
      else if startsW (if py then "None".toList else "null".toList) s then
        some (vnone, s.drop 4)
      else if startsW (if py then "True".toList else "true".toList) s then
        some (vbool true, s.drop 4)
      else if startsW (if py then "False".toList else "false".toList) s then
        some (vbool false, s.drop 5)
      else none

/-- Parse list elements after `[` (accumulator holds parsed elements in
reverse). -/
def pElems (py : Bool) : Nat → Str → List PyVal → Option (PyVal × Str)
  | 0, _, _ => none
  | fuel + 1, input, acc =>
    let s := input.dropWhile isJWs
    match s with
    | ']' :: t => some (vlist acc.reverse, t)
    | _ =>
      match pVal py fuel s with
      | none => none
      | some (v, rest) =>
        let r := rest.dropWhile isJWs
        match r with
        | ',' :: t => pElems py fuel t (v :: acc)
        | ']' :: t => some (vlist (v :: acc).reverse, t)
        | _ => none

/-- Parse dict pairs after the opening brace. -/
def pPairs (py : Bool) : Nat → Str → List (Str × PyVal) → Option (PyVal × Str)
  | 0, _, _ => none
  | fuel + 1, input, acc =>
    let s := input.dropWhile isJWs
    match s with
    | [] => none
    | c :: t =>
      if c = cclose then some (vdict acc, t)
      else
        match
          (if c = '"' then pQuoted '"' t
           else if py && c = squote then pQuoted squote t
           else none) with
        | none => none
        | some (k, rest) =>
          let r := rest.dropWhile isJWs
          match r with
          | ':' :: t2 =>
            match pVal py fuel t2 with
            | none => none
            | some (v, rest2) =>
              let r2 := rest2.dropWhile isJWs
              match r2 with
              | ',' :: t3 => pPairs py fuel t3 (aSet acc k v)
              | c2 :: t3 => if c2 = cclose then some (vdict (aSet acc k v), t3) else none
              | [] => none
          | _ => none

end

/-- Model of Python `json.loads` on this value space (`None` models any
raised `JSONDecodeError`). -/
def jsonLoads (s : Str) : Option PyVal :=
  match pVal false (s.length + 2) s with
  | some (v, rest) => if (rest.dropWhile isJWs).isEmpty then some v else none
  | none => none

/-- Model of Python `ast.literal_eval` on this value space (`None` models
any raised `ValueError`/`SyntaxError`). -/
def literalEval (s : Str) : Option PyVal :=
  match pVal true (s.length + 2) s with
  | some (v, rest) => if (rest.dropWhile isJWs).isEmpty then some v else none
  | none => none

mutual

/-- Model of Python `a > b`: `some r` for a successful comparison,
`none` for a raised `TypeError` (mixed incomparable types). -/
def pyGtO : PyVal → PyVal → Option Bool
  | vint a, vint b => some (b < a)
  | vint a, vbool b => some ((if b then (1 : Int) else 0) < a)
  | vbool a, vint b => some (b < (if a then (1 : Int) else 0))
  | vbool a, vbool b => some ((if b then (1 : Int) else 0) < (if a then 1 else 0))
  | vstr a, vstr b => some (ltS b a)
  | vlist a, vlist b => pyGtList a b
  | _, _ => none

/-- Python list comparison: first non-equal elements decide. -/
def pyGtList : List PyVal → List PyVal → Option Bool
  | [], [] => some false
  | [], _ :: _ => some false
  | _ :: _, [] => some true
  | x :: xs, y :: ys => if pyBEq x y then pyGtList xs ys else pyGtO x y

end

/-! ## Records and timestamp extraction (`get_substance_last_modified`,
`get_substance_source_date`) -/

/-- Shorthand for string literals as `Str`. -/
def lit (s : String) : Str := s.toList

/-- A record / Python dict from field name to value.  Later pairs shadow
earlier ones, matching Python dict assignment order. -/
abbrev Record := List (Str × PyVal)

/-- Python `dict.get(k)`: the last binding of `k` wins. -/
def dGet : Record → Str → Option PyVal
  | [], _ => none
  | (k2, v) :: t, k =>
    match dGet t k with
    | some w => some w
    | none => if k2 = k then some v else none

/-- Python `dict.get(k, default)`. -/
def dGetD (r : Record) (k : Str) (dflt : PyVal) : PyVal := (dGet r k).getD dflt

/-- Python `k in dict`. -/
def dHasKey (r : Record) (k : Str) : Bool := (dGet r k).isSome

/-- Model of `get_substance_last_modified` (`src/changelog.py` lines
472-482, duplicated verbatim in `src/generate_docs.py` lines 356-367).
The function itself never raises: every decode failure is caught and
yields 0; a successful decode returns whatever value sits under
`"_seconds"`. -/
def getSubstanceLastModified (r : Record) : PyVal :=
  let u := dGetD r (lit "updated") (vstr [])
  match u with
  | vstr s =>
    if (pyStrip s).isEmpty then vint 0
    else
      match jsonLoads s with
      | some (vdict kvs) =>
        match aGet kvs (lit "_seconds") with
        | some v => v
        | none => vint 0
      | some _ => vint 0
      | none => vint 0
  | _ => vint 0

/-- Zero-padded decimal rendering (width 4). -/
def pad4 (n : Nat) : Str :=
  let s := natToStr n
  List.replicate (4 - s.length) '0' ++ s

/-- Zero-padded decimal rendering (width 2). -/
def pad2 (n : Nat) : Str :=
  let s := natToStr n
  List.replicate (2 - s.length) '0' ++ s

/-- Model of `datetime.fromtimestamp(ts).strftime("%Y-%m-%d")` (taken at
UTC; the civil-from-days algorithm). -/
def epochToDateStr (ts : Int) : Str :=
  let days : Int := Int.fdiv ts 86400
  let z : Int := days + 719468
  let era : Int := Int.fdiv z 146097
  let doe : Nat := (z - era * 146097).toNat
  let yoe : Nat := (doe - doe / 1460 + doe / 36524 - doe / 146096) / 365
  let doy : Nat := doe - (365 * yoe + yoe / 4 - yoe / 100)
  let mp : Nat := (5 * doy + 2) / 153
  let d : Nat := doy - (153 * mp + 2) / 5 + 1
  let m : Nat := if mp < 10 then mp + 3 else mp - 9
  let y : Int := (yoe : Int) + era * 400 + (if m ≤ 2 then 1 else 0)
  pad4 y.toNat ++ ['-'] ++ pad2 m ++ ['-'] ++ pad2 d

/-- Fallback scan over date-like fields in `get_substance_source_date`. -/
def dateFieldFallback : List Str → Record → Option Str
  | [], _ => none
  | f :: rest, r =>
    if dHasKey r f && truthy (dGetD r f vnone) then
      let ds := pyStr (dGetD r f vnone)
      if 10 ≤ ds.length then some (ds.take 10) else none
    else dateFieldFallback rest r

/-- Model of `get_substance_source_date` (`src/changelog.py` lines 446-469,
duplicated in `src/generate_docs.py`).  The surrounding `try` catches any
exception and returns `None`; a `TypeError` from comparing a non-numeric
timestamp with 0 is therefore modelled as `none`. -/
def getSubstanceSourceDate (r : Record) : Option Str :=
  let ts := getSubstanceLastModified r
  match pyGtO ts (vint 0) with
  | none => none
  | some true =>
    match ts with
    | vint n => some (epochToDateStr n)
    | vbool _ => some (epochToDateStr 1)
    | _ => none
  | some false =>
    dateFieldFallback [lit "date_added", lit "created", lit "modified_date", lit "last_updated"] r

/-! ## Identity-key derivation and change detection
(`src/generate_docs.py`, `main`, lines 513-656) -/

/-- Serialization applied to each row value before keying/storing
(`json.dumps` for lists and dicts, `generate_docs.py` lines 517-522). -/
def serializeVal : PyVal → PyVal
  | vlist xs => vstr (jdumps (vlist xs))
  | vdict kvs => vstr (jdumps (vdict kvs))
  | v => v

/-- The `current_row_dict = dict(zip(columns, values))` of the main loop,
with values serialized. -/
def rowDict (columns : List Str) (row : Record) : Record :=
  columns.zip (columns.map (fun c => serializeVal (dGetD row c vnone)))

/-- Truthiness-based `a or b` on values (Python `or`). -/
def pyOr (a b : PyVal) : PyVal := if truthy a then a else b

/-- Model of the identity-key derivation of `generate_docs.main`
(lines 524-548): guid, then Name, then searchable_name, then a composite
of up to two non-empty meaningful columns, then a composite of the first
three non-empty non-trivial values, and finally `row_<index>`. -/
def guidVal (rd : Record) : PyVal :=
  pyOr (dGetD rd (lit "guid") vnone) (dGetD rd (lit "Guid") vnone)

/-- The per-step guard `value and str(value).strip()`: a truthy value whose
string rendering is not all-whitespace. -/
def nonBlankStr (v : PyVal) : Bool := truthy v && !(pyStrip (pyStr v)).isEmpty

/-- The available "meaningful" columns of the fourth fallback step
(lines 541-542). -/
def availCols (rd : Record) : List Str :=
  [lit "Name", lit "searchable_name", lit "Reason", lit "guid"].filter
    (fun c => dHasKey rd c && !(pyStrip (pyStr (dGetD rd c vnone))).isEmpty)

/-- The non-empty, non-trivial serialized values of the last-resort step
(line 547). -/
def nonEmptyVals (values : List PyVal) : List Str :=
  values.filterMap (fun v =>
    let s := pyStr v
    if truthy v && !(pyStrip s).isEmpty &&
        !(decide (s = lit "[]") || decide (s = [copen, cclose]) || decide (s = lit "nan")) then
      some s
    else none)

def deriveKey (columns : List Str) (row : Record) (idx : Nat) : Str :=
  let rd := rowDict columns row
  if nonBlankStr (guidVal rd) then
    lit "guid:" ++ pyStr (guidVal rd)
  else if nonBlankStr (dGetD rd (lit "Name") vnone) then
    lit "name:" ++ pyStr (dGetD rd (lit "Name") vnone)
  else if nonBlankStr (dGetD rd (lit "searchable_name") vnone) then
    lit "search:" ++ pyStr (dGetD rd (lit "searchable_name") vnone)
  else if !(availCols rd).isEmpty then
    joinSep (lit "|") (((availCols rd).take 2).map (fun c => pyStr (dGetD rd c (vstr []))))
  else if !(nonEmptyVals (rd.map Prod.snd)).isEmpty then
    joinSep (lit "|") ((nonEmptyVals (rd.map Prod.snd)).take 3)
  else lit "row_" ++ natToStr idx

/-- The guard of the final fallback of `deriveKey`: the only branch whose
result depends on the row position rather than the field contents. -/
def usesRowIndexFallback (columns : List Str) (row : Record) : Bool :=
  let rd := rowDict columns row
  !nonBlankStr (guidVal rd) && !nonBlankStr (dGetD rd (lit "Name") vnone) &&
    !nonBlankStr (dGetD rd (lit "searchable_name") vnone) &&
    (availCols rd).isEmpty && (nonEmptyVals (rd.map Prod.snd)).isEmpty

/-- Model of `substance_name = row.get('Name') or row.get('ingredient') or
row.get('name') or substance_key` (line 550); the chosen value is rendered
to a string where the source later interpolates it. -/
def substanceName (row : Record) (key : Str) : Str :=
  let a := dGetD row (lit "Name") vnone
  if truthy a then pyStr a
  else
    let b := dGetD row (lit "ingredient") vnone
    if truthy b then pyStr b
    else
      let c := dGetD row (lit "name") vnone
      if truthy c then pyStr c else key

/-- Change-type tags (the `ChangeType` enum of `src/changelog.py`). -/
inductive CType where
  | added
  | updated
  | removed
deriving DecidableEq, Repr

/-- The string value of a change type (`ChangeType.value`). -/
def ctStr : CType → Str
  | .added => lit "added"
  | .updated => lit "updated"
  | .removed => lit "removed"

/-- A detected change (the `SubstanceChange` dataclass of
`src/changelog.py` / the legacy change dicts of `generate_docs.main`). -/
structure SChange where
  name : Str
  ctype : CType
  key : Option Str
  fields : List Str
  sourceDate : Option Str
  detectionDate : Option Str
deriving DecidableEq, Repr

/-- Fields excluded from comparison (`generate_docs.main` line 601). -/
def ignoreFields : List Str :=
  [lit "added", lit "updated", lit "guid", lit "More_info_URL", lit "SourceOf"]

/-- The `curr_parsed = ast.literal_eval(current_val) if current_val else
None` step (line 615): an empty string becomes `None` without parsing. -/
def evalO (s : Str) : Option PyVal :=
  if s.isEmpty then some vnone else literalEval s

/-- Field comparison of `generate_docs.main` lines 610-623: raw inequality,
refined by literal-eval on pairs of strings, with any parse failure
falling back to raw inequality. -/
def fieldDiffers (cur prv : PyVal) : Bool :=
  if pyBEq cur prv then false
  else
    match cur, prv with
    | vstr s, vstr t =>
      match evalO s, evalO t with
      | some v1, some v2 => !pyBEq v1 v2
      | _, _ => true
    | _, _ => true

/-- The changed-field scan of lines 603-623. -/
def changedFields (columns : List Str) (rd pr : Record) : List Str :=
  columns.foldl
    (fun acc c =>
      if memS c ignoreFields then acc
      else if fieldDiffers (dGetD rd c vnone) (dGetD pr c vnone) then acc ++ [c]
      else acc)
    []

/-- Python dict lookup in the previous-snapshot map (last binding wins). -/
def pDictGet : List (Str × Record) → Str → Option Record
  | [], _ => none
  | (k2, v) :: t, k =>
    match pDictGet t k with
    | some w => some w
    | none => if k2 = k then some v else none

/-- First-occurrence deduplication (Python dict key order). -/
def dedupFirstGo : List Str → List Str → List Str
  | _, [] => []
  | seen, x :: t =>
    if memS x seen then dedupFirstGo seen t
    else x :: dedupFirstGo (x :: seen) t

/-- Accumulator of the main detection loop: emitted changes and the set of
current keys. -/
structure DetectAcc where
  changes : List SChange
  keys : List Str
deriving Repr

/-- One pass of the per-row detection loop of `generate_docs.main`
(lines 516-633).  Returns `none` when Python would raise a `TypeError`
comparing incomparable timestamp values (line 598 is outside any
`try`). -/
def detectFold (columns : List Str) (previous : Option (List (Str × Record))) (today : Str) :
    List (Nat × Record) → DetectAcc → Option DetectAcc
  | [], acc => some acc
  | (idx, row) :: rest, acc =>
    let k := deriveKey columns row idx
    let nm := substanceName row k
    let keys2 := acc.keys ++ [k]
    match previous with
    | none => detectFold columns previous today rest ⟨acc.changes, keys2⟩
    | some prev =>
      let rd := rowDict columns row
      match pDictGet prev k with
      | none =>
        let sd :=
          match getSubstanceSourceDate rd with
          | some s => if s.isEmpty then none else some s
          | none => none
        detectFold columns previous today rest
          ⟨acc.changes ++
            [{ name := nm, ctype := .added, key := some k, fields := [],
               sourceDate := sd, detectionDate := none }], keys2⟩
      | some pr =>
        match pyGtO (getSubstanceLastModified rd) (getSubstanceLastModified pr) with
        | none => none
        | some false => detectFold columns previous today rest ⟨acc.changes, keys2⟩
        | some true =>
          let cf := changedFields columns rd pr
          if cf.isEmpty then detectFold columns previous today rest ⟨acc.changes, keys2⟩
          else
            detectFold columns previous today rest
              ⟨acc.changes ++
                [{ name := nm, ctype := .updated, key := some k, fields := cf,
                   sourceDate := none, detectionDate := some today }], keys2⟩

/-- Model of the change detection of `generate_docs.main` (lines 513-649):
the per-row loop followed by the removed-key pass.  `none` models a run
that raises; the removed-key iteration order follows dict key order (the
source iterates a set, whose order is unspecified and never relied on). -/
def detectChanges (columns : List Str) (rows : List Record)
    (previous : Option (List (Str × Record))) (today : Str) : Option (List SChange) :=
  match detectFold columns previous today rows.enum ⟨[], []⟩ with
  | none => none
  | some acc =>
    match previous with
    | none => some acc.changes
    | some prev =>
      let removedKeys :=
        (dedupFirstGo [] (prev.map Prod.fst)).filter (fun k => !memS k acc.keys)
      some (acc.changes ++ removedKeys.map (fun rk =>
        let pr0 := (pDictGet prev rk).getD []
        { name := substanceName pr0 rk, ctype := .removed, key := some rk,
          fields := [], sourceDate := none, detectionDate := some today }))

/-! ## Changelog parsing (`parse_existing_changelog_entries`,
`src/changelog.py` lines 91-141) -/

/-- The three per-date name sets of `ParsedChanges.changes_by_date[date]`.
Python sets are modelled as insertion-ordered duplicate-free lists; only
membership is semantically relevant. -/
structure SectNames where
  added : List Str
  updated : List Str
  removed : List Str
deriving DecidableEq, Repr

/-- The empty section record created on first touch of a date. -/
def emptySect : SectNames := ⟨[], [], []⟩

/-- Select the set for a change type. -/
def getSect (s : SectNames) : CType → List Str
  | .added => s.added
  | .updated => s.updated
  | .removed => s.removed

/-- Python `set.add`. -/
def insedName (ns : List Str) (n : Str) : List Str :=
  if memS n ns then ns else ns ++ [n]

/-- Add a name to the set for a change type. -/
def setAdd (s : SectNames) (t : CType) (n : Str) : SectNames :=
  match t with
  | .added => { s with added := insedName s.added n }
  | .updated => { s with updated := insedName s.updated n }
  | .removed => { s with removed := insedName s.removed n }

/-- `ParsedChanges.changes_by_date`, an insertion-ordered dict from date to
section sets (keys are unique by construction). -/
abbrev ParsedChanges := List (Str × SectNames)

/-- Dict lookup on parsed changes. -/
def pcFind : ParsedChanges → Str → Option SectNames
  | [], _ => none
  | (d, s) :: t, k => if d = k then some s else pcFind t k

/-- Model of `ParsedChanges.add_substance`. -/
def addSub : ParsedChanges → Str → CType → Str → ParsedChanges
  | [], d, t, n => [(d, setAdd emptySect t n)]
  | (d2, s) :: rest, d, t, n =>
    if d2 = d then (d2, setAdd s t n) :: rest
    else (d2, s) :: addSub rest d t n

/-- Model of `ParsedChanges.has_substance`. -/
def hasSubst (p : ParsedChanges) (d : Str) (t : CType) (n : Str) : Bool :=
  match pcFind p d with
  | some s => memS n (getSect s t)
  | none => false

/-- Parser state: current date, current section, accumulated entries. -/
structure PState where
  curDate : Option Str
  curSect : Option CType
  acc : ParsedChanges
deriving Repr

/-- Truthiness of the `current_date` variable (a non-empty string). -/
def dateTruthy : Option Str → Bool
  | some d => !d.isEmpty
  | none => false

/-- One line of `parse_existing_changelog_entries`. -/
def parseStep (st : PState) (line : Str) : PState :=
  let ls := pyStrip line
  if startsW (lit "## ") ls && 3 < ls.length then
    let dp := pyStrip (ls.drop 3)
    if !dp.isEmpty && !startsW (lit "#") dp then
      { st with curDate := some dp }
    else st
  else if startsW (lit "### ") ls then
    if hasSub (lit "New Substances Added") ls then { st with curSect := some .added }
    else if hasSub (lit "Substances Modified") ls then { st with curSect := some .updated }
    else if hasSub (lit "Substances Removed") ls then { st with curSect := some .removed }
    else { st with curSect := none }
  else if startsW (lit "- **") ls && dateTruthy st.curDate && st.curSect.isSome then
    if 2 ≤ countSS ls then
      match findSub (lit "**") ls with
      | none => st
      | some f =>
        let start := f + 2
        match findSubFrom (lit "**") ls start with
        | none => st
        | some e =>
          if start < e then
            let n := pyStrip (rstripColon (pyStrip (pySlice ls start e)))
            if n.isEmpty then st
            else
              { st with acc := addSub st.acc (st.curDate.getD []) (st.curSect.getD .added) n }
          else st
    else st
  else st

/-- Run the parser from a given state over a list of lines. -/
def parseLinesFrom (st : PState) (lines : List Str) : PState :=
  lines.foldl parseStep st

/-- Model of `parse_existing_changelog_entries` (`src/changelog.py` lines
91-141). -/
def parseDoc (content : Str) : ParsedChanges :=
  (parseLinesFrom ⟨none, none, []⟩ (splitNL content)).acc

/-! ## Changelog rendering and merging (`src/changelog.py` lines 157-424) -/

/-- The `DateChanges` container of `src/changelog.py`. -/
structure DateChanges where
  added : List SChange
  updated : List SChange
  removed : List SChange
deriving DecidableEq, Repr

/-- Empty `DateChanges()`. -/
def emptyDC : DateChanges := ⟨[], [], []⟩

/-- Model of `DateChanges.add_change`. -/
def addChange (dc : DateChanges) (c : SChange) : DateChanges :=
  match c.ctype with
  | .added => { dc with added := dc.added ++ [c] }
  | .updated => { dc with updated := dc.updated ++ [c] }
  | .removed => { dc with removed := dc.removed ++ [c] }

/-- Model of `DateChanges.has_changes`. -/
def hasChangesDC (dc : DateChanges) : Bool :=
  !dc.added.isEmpty || !dc.updated.isEmpty || !dc.removed.isEmpty

/-- Singular/plural word choice used by the renderer. -/
def substanceWord (n : Nat) : Str :=
  if n = 1 then lit "substance" else lit "substances"

/-- An added-entry bullet (`generate_changelog_content_for_date`,
lines 382-389). -/
def addedBullet (dateKey : Str) (c : SChange) : Str :=
  lit "    - **" ++ c.name ++ lit "**" ++
    (match c.sourceDate with
     | some sd => if !sd.isEmpty && sd ≠ dateKey then lit " (source date: " ++ sd ++ lit ")" else []
     | none => [])

/-- An updated-entry bullet (lines 402-407). -/
def updatedBullet (c : SChange) : Str :=
  if !c.fields.isEmpty then
    lit "    - **" ++ c.name ++ lit ":** Updated " ++
      joinSep (lit ", ") (c.fields.map (fun f => '`' :: f ++ ['`']))
  else lit "    - **" ++ c.name ++ lit ":** Updated"

/-- A removed-entry bullet (line 421). -/
def removedBullet (c : SChange) : Str := lit "    - **" ++ c.name ++ lit "**"

/-- The content parts accumulated by `generate_changelog_content_for_date`
(lines 368-424), in order. -/
def generateParts (dateKey : Str) (dc : DateChanges) : List Str :=
  (if !dc.added.isEmpty then
    [lit "### New Substances Added", [],
     lit "    " ++ natToStr dc.added.length ++ [' '] ++ lit "new " ++ substanceWord dc.added.length, [],
     lit "???+ info \"Show details\"", []] ++
    dc.added.map (addedBullet dateKey) ++ [[]]
   else []) ++
  (if !dc.updated.isEmpty then
    [lit "### Substances Modified", [],
     '*' :: natToStr dc.updated.length ++ [' '] ++ substanceWord dc.updated.length ++
       lit " modified, detected through data comparison*", [],
     lit "???+ info \"Show details\"", []] ++
    dc.updated.map updatedBullet ++ [[]]
   else []) ++
  (if !dc.removed.isEmpty then
    [lit "### Substances Removed", [],
     '*' :: natToStr dc.removed.length ++ [' '] ++ substanceWord dc.removed.length ++
       lit " removals, detected through data comparison*", [],
     lit "???+ info \"Show details\"", []] ++
    dc.removed.map removedBullet ++ [[]]
   else [])

/-- Model of `generate_changelog_content_for_date`: the parts joined by
blank lines, right-stripped. -/
def generateContent (dateKey : Str) (dc : DateChanges) : Str :=
  pyRStrip (joinSep (lit "\n\n") (generateParts dateKey dc))

/-- A content-free placeholder change for an already-recorded entry
(`merge_changes_for_date`, lines 345-356). -/
def placeholderChange (n : Str) (t : CType) : SChange :=
  { name := n, ctype := t, key := none, fields := [], sourceDate := none,
    detectionDate := none }

/-- Dict lookup in the new-changes-by-date map. -/
def pcFind2 : List (Str × DateChanges) → Str → Option DateChanges
  | [], _ => none
  | (d, dc) :: t, k => if d = k then some dc else pcFind2 t k

/-- Advance past the first line whose stripped form is exactly
`## <date>` (phase one of `extract_existing_date_content`). -/
def dropToAfterHeader : List Str → Str → List Str
  | [], _ => []
  | l :: t, dateKey =>
    if pyStrip l = lit "## " ++ dateKey then t else dropToAfterHeader t dateKey

/-- Model of `merge_changes_for_date` (lines 341-365): existing recorded
names as placeholders, then the new changes for the date. -/
def mergeChangesForDate (dateKey : Str) (existing : ParsedChanges)
    (buckets : List (Str × DateChanges)) : DateChanges :=
  let base :=
    match pcFind existing dateKey with
    | some s =>
      { added := s.added.map (fun n => placeholderChange n .added),
        updated := s.updated.map (fun n => placeholderChange n .updated),
        removed := s.removed.map (fun n => placeholderChange n .removed) : DateChanges }
    | none => emptyDC
  match pcFind2 buckets dateKey with
  | some dc =>
    { added := base.added ++ dc.added, updated := base.updated ++ dc.updated,
      removed := base.removed ++ dc.removed }
  | none => base

/-- Model of `extract_existing_date_content` (lines 315-338): the block of
non-blank lines following the exact `## <date>` header, right-stripped,
up to the next date-like header. -/
def extractContent (lines : List Str) (dateKey : Str) : Str :=
  let rest := dropToAfterHeader lines dateKey
  let block := rest.takeWhile (fun l => !startsW (lit "## ") (pyStrip l))
  joinNL (block.filterMap (fun l => if (pyRStrip l).isEmpty then none else some (pyRStrip l)))

/-! ## The merge/rewrite cycle (`update_persistent_changelog`,
`src/changelog.py` lines 157-312) -/

/-- Truthiness of `change.source_date`. -/
def sourceDateTruthy (c : SChange) : Bool :=
  match c.sourceDate with
  | some s => !s.isEmpty
  | none => false

/-- Accumulator of the grouping loop (lines 183-219): buckets keyed by
date (insertion-ordered) and the computed-changes list. -/
structure GroupAcc where
  buckets : List (Str × DateChanges)
  computed : List SChange
deriving Repr

/-- Ensure a date bucket exists (`if date_key not in changes_by_date`). -/
def bEnsure (bs : List (Str × DateChanges)) (d : Str) : List (Str × DateChanges) :=
  if memS d (bs.map Prod.fst) then bs else bs ++ [(d, emptyDC)]

/-- Append a change to the bucket of a date
(`changes_by_date[date_key].add_change(change)`). -/
def bAdd : List (Str × DateChanges) → Str → SChange → List (Str × DateChanges)
  | [], _, _ => []
  | (dk, dc) :: t, d, c =>
    if dk = d then (dk, addChange dc c) :: t else (dk, dc) :: bAdd t d c

/-- The grouping loop of `update_persistent_changelog` (lines 187-219):
added changes with a truthy source date are bucketed under it (after the
duplicate check), updated/removed changes are deferred to the computed
list, remaining added changes are bucketed under today. -/
def groupFold (ex : ParsedChanges) (today : Str) :
    List SChange → GroupAcc → GroupAcc
  | [], acc => acc
  | c :: rest, acc =>
    if c.ctype = .added && sourceDateTruthy c then
      let dk := c.sourceDate.getD []
      let bs1 := bEnsure acc.buckets dk
      if hasSubst ex dk .added c.name then
        groupFold ex today rest { acc with buckets := bs1 }
      else
        groupFold ex today rest { acc with buckets := bAdd bs1 dk c }
    else if c.ctype = .removed || c.ctype = .updated then
      groupFold ex today rest { acc with computed := acc.computed ++ [c] }
    else
      let bs1 := bEnsure acc.buckets today
      if hasSubst ex today c.ctype c.name then
        groupFold ex today rest { acc with buckets := bs1 }
      else
        groupFold ex today rest { acc with buckets := bAdd bs1 today c }

/-- The computed-changes pass (lines 221-235): bucket the deferred
updated/removed changes under the resolved detection date, with the same
duplicate check. -/
def computedFold (ex : ParsedChanges) (dd : Str) :
    List SChange → List (Str × DateChanges) → List (Str × DateChanges)
  | [], bs => bs
  | c :: rest, bs =>
    if hasSubst ex dd c.ctype c.name then computedFold ex dd rest bs
    else computedFold ex dd rest (bAdd bs dd c)

/-- The resolved detection date (`detection_date = detection_date or
today`, line 222). -/
def resolveDetection (detectionDate : Option Str) (today : Str) : Str :=
  match detectionDate with
  | some d => if d.isEmpty then today else d
  | none => today

/-- Group the incoming changes into per-date buckets, mirroring lines
183-242 (including pruning of empty buckets). -/
def buildBuckets (changes : List SChange) (ex : ParsedChanges)
    (today : Str) (detectionDate : Option Str) : List (Str × DateChanges) :=
  let acc := groupFold ex today changes ⟨[], []⟩
  let dd := resolveDetection detectionDate today
  let bs2 :=
    if !acc.computed.isEmpty then computedFold ex dd acc.computed (bEnsure acc.buckets dd)
    else acc.buckets
  bs2.filter (fun p => hasChangesDC p.2)

/-- The header-copy loop (lines 255-263): lines of the existing document up
to the first date header. -/
def headerLines (lines : List Str) : List Str :=
  lines.takeWhile (fun l => !(startsW (lit "## ") (pyStrip l) && 3 < (pyStrip l).length))

/-- The per-date body construction (lines 278-300): a `## <date>` header, a
blank line, then either freshly generated merged content or the existing
content copied over, followed by a blank separator when non-empty. -/
def dateSectionLines (pruned : List (Str × DateChanges)) (ex : ParsedChanges)
    (lines : List Str) (d : Str) : List Str :=
  [lit "## " ++ d, []] ++
    (let content :=
      if memS d (pruned.map Prod.fst) then
        generateContent d (mergeChangesForDate d ex pruned)
      else extractContent lines d
     if (pyStrip content).isEmpty then []
     else (splitNL content).filter (fun l => !(pyStrip l).isEmpty) ++ [[]])

/-- Model of `update_persistent_changelog` (`src/changelog.py` lines
157-312) as a function from the existing document text to the rewritten
text; `none` models the no-write early return of lines 244-246.  (The
file-creation branch for a missing document, lines 167-173, is the
caller's concern: pass `defaultHeader` as the existing text.) -/
def updatePersistentChangelog (changes : List SChange) (today : Str)
    (detectionDate : Option Str) (existing : Str) : Option Str :=
  let ex := parseDoc existing
  let pruned := buildBuckets changes ex today detectionDate
  if pruned.isEmpty then none
  else
    let lines := splitNL existing
    let hdr := headerLines lines
    let allDates := sortDesc (dedupS (pruned.map Prod.fst ++ ex.map Prod.fst))
    some (joinNL (hdr ++ allDates.flatMap (dateSectionLines pruned ex lines)))

/-- The fresh-file header written when `CHANGELOG.md` does not exist
(lines 167-173). -/
def defaultHeader : Str :=
  lit "# Changelog\n\nAll notable changes to the DoD prohibited substances list will be documented in this file.\n\n"

/-! ## Value normalization of `src/substance.py` (`_parse_list_field`) -/

/-- Unwrap a decoded bracket-delimited value (always a list for the
bracket-delimited inputs that reach it). -/
def pyToList : PyVal → List PyVal
  | vlist xs => xs
  | w => [w]

/-- Does the stripped string end with the given character
(Python `s.endswith`)? -/
def lastIs (s : Str) (c : Char) : Bool :=
  match s.getLast? with
  | some c2 => c2 = c
  | none => false

/-- Model of `_parse_list_field` (`src/substance.py` lines 33-55): falsy
values give `[]`, lists pass through, bracket-delimited strings are decoded
by `json.loads` then `ast.literal_eval` with the raw string as final
fallback, any other string is wrapped, and other values give `[]`. -/
def parseListField (v : PyVal) : List PyVal :=
  if !truthy v then []
  else
    match v with
    | vlist xs => xs
    | vstr s =>
      if startsW (lit "[") (pyStrip s) && lastIs (pyStrip s) ']' then
        match jsonLoads s with
        | some w => pyToList w
        | none =>
          match literalEval s with
          | some w => pyToList w
          | none => [vstr s]
      else [vstr s]
    | _ => []

/-! ## Derived notions used by the claims -/

/-- The date under which `update_persistent_changelog` files a change:
source date for added changes carrying a truthy one, the resolved
detection date for updated/removed changes, today otherwise. -/
def fileDate (c : SChange) (today dd : Str) : Str :=
  if c.ctype = .added && sourceDateTruthy c then c.sourceDate.getD []
  else if c.ctype = .updated || c.ctype = .removed then dd
  else today

/-- Membership of a change in a date bucket. -/
def memDC (c : SChange) (dc : DateChanges) : Bool :=
  decide (c ∈ dc.added) || decide (c ∈ dc.updated) || decide (c ∈ dc.removed)

/-- No newline character. -/
def noNL (s : Str) : Bool := s.all (fun c => decide (c ≠ '\n'))

/-- Neither end of the string is whitespace. -/
def edgeClean (s : Str) : Bool :=
  (match s.head? with
   | some c => !isWs c
   | none => true) &&
  (match s.getLast? with
   | some c => !isWs c
   | none => true)

/-- A substance name that survives the render/parse round-trip: non-empty,
single-line, stripped, free of the bold marker `**`, and not ending in
`*` or `:` (the parser strips a trailing colon and stops at the first
`**`). -/
def goodName (n : Str) : Bool :=
  !n.isEmpty && noNL n && edgeClean n && !hasSub (lit "**") n &&
    !lastIs n '*' && !lastIs n ':'

/-- A date string that round-trips through a `## <date>` header: non-empty,
single-line, stripped, not starting with `#`. -/
def goodDate (d : Str) : Bool :=
  !d.isEmpty && noNL d && edgeClean d && !startsW (lit "#") d

/-- A well-formed incoming change: good name, single-line field names, and
a well-formed source date when present. -/
def goodChange (c : SChange) : Bool :=
  goodName c.name && c.fields.all noNL &&
    (match c.sourceDate with
     | some s => goodDate s
     | none => true)

/-- All names recorded in a parsed changelog end in neither `:` nor `*`
(the two shapes the bullet renderer cannot reproduce verbatim). -/
def renderableNames (p : ParsedChanges) : Bool :=
  p.all (fun e =>
    (e.2.added ++ e.2.updated ++ e.2.removed).all
      (fun n => !lastIs n ':' && !lastIs n '*'))

/-- Parse of the isolated section block that
`extract_existing_date_content` would extract for a date. -/
def blockParse (lines : List Str) (d : Str) : ParsedChanges :=
  (parseLinesFrom ⟨none, none, []⟩
    ((lit "## " ++ d) :: splitNL (extractContent lines d))).acc

/-- Every entry recorded by the parser is recoverable from its own
extracted date block: this is what the merger's verbatim-copy path
(`extract_existing_date_content`) preserves for dates without new
changes. -/
def selfContained (content : Str) : Bool :=
  (parseDoc content).all (fun e =>
    e.2.added.all (fun n => hasSubst (blockParse (splitNL content) e.1) e.1 .added n) &&
    e.2.updated.all (fun n => hasSubst (blockParse (splitNL content) e.1) e.1 .updated n) &&
    e.2.removed.all (fun n => hasSubst (blockParse (splitNL content) e.1) e.1 .removed n))

/-- The date headers of a document, as recognized by the changelog
parser's date-header branch, in document order. -/
def dateHeadersOf (doc : Str) : List Str :=
  (splitNL doc).filterMap (fun l =>
    let ls := pyStrip l
    if startsW (lit "## ") ls && 3 < ls.length then
      let dp := pyStrip (ls.drop 3)
      if !dp.isEmpty && !startsW (lit "#") dp then some dp else none
    else none)

/-- Triple-set inclusion between two parsed changelogs. -/
def pcSub (p q : ParsedChanges) : Bool :=
  p.all (fun e =>
    e.2.added.all (fun n => hasSubst q e.1 .added n) &&
    e.2.updated.all (fun n => hasSubst q e.1 .updated n) &&
    e.2.removed.all (fun n => hasSubst q e.1 .removed n))

/-- Triple-set equality between two parsed changelogs. -/
def pcTripleEq (p q : ParsedChanges) : Bool := pcSub p q && pcSub q p

/-- Render the buckets recovered by the parser back into a document, the
way `update_persistent_changelog` renders a date with new changes (all
entries as placeholders via `merge_changes_for_date`, dates newest
first). -/
def renderParsedDocument (p : ParsedChanges) : Str :=
  joinNL ((sortDesc (dedupS (p.map Prod.fst))).flatMap (fun d =>
    [lit "## " ++ d, []] ++
      (let content := generateContent d (mergeChangesForDate d p [])
       if (pyStrip content).isEmpty then []
       else (splitNL content).filter (fun l => !(pyStrip l).isEmpty) ++ [[]])))

/-- Model of the claim's reading of `get_substance_last_modified`, stated
from its specification: an absent `updated` field, a non-string value, a
failed JSON decode, or a decoded value that is not an object carrying
`"_seconds"` all produce 0; otherwise the value under `"_seconds"` is
returned as-is. -/
def lastModifiedClaimSpec (r : Record) : PyVal :=
  match dGet r (lit "updated") with
  | some (vstr s) =>
    match jsonLoads s with
    | some (vdict kvs) =>
      match aGet kvs (lit "_seconds") with
      | some v => v
      | none => vint 0
    | some _ => vint 0
    | none => vint 0
  | _ => vint 0

/-! ## Concrete scenarios used by counterexamples and witnesses -/

/-- Column list of the concrete detection scenarios. -/
def sCols : List Str := [lit "Name", lit "Reason", lit "updated"]

/-- Current record of the C2 scenario (resolvable timestamp 200). -/
def c2row : Record :=
  [(lit "Name", vstr (lit "X")), (lit "Reason", vstr (lit "new reason")),
   (lit "updated", vstr (lit "\x7b\"_seconds\": 200\x7d"))]

/-- Previous record of the C2 scenario: its `updated` field does not decode
(`garbage`), so its timestamp is unresolvable and resolves to 0. -/
def c2prevRec : Record :=
  [(lit "Name", vstr (lit "X")), (lit "Reason", vstr (lit "old")),
   (lit "updated", vstr (lit "garbage"))]

/-- The Updated change the detector emits in the C2 scenario. -/
def c2out : SChange :=
  { name := lit "X", ctype := .updated, key := some (lit "name:X"),
    fields := [lit "Reason"], sourceDate := none,
    detectionDate := some (lit "2026-01-02") }

/-- Current record of the C6 scenario: `Reason` is the empty string. -/
def c6row : Record :=
  [(lit "Name", vstr (lit "X")), (lit "Reason", vstr []),
   (lit "updated", vstr (lit "\x7b\"_seconds\": 200\x7d"))]

/-- Previous record of the C6 scenario: `Reason` is the serialized empty
list `"[]"`. -/
def c6prevRec : Record :=
  [(lit "Name", vstr (lit "X")), (lit "Reason", vstr (lit "[]")),
   (lit "updated", vstr (lit "\x7b\"_seconds\": 100\x7d"))]

/-- Current record of the C8 witness scenario. -/
def c8row : Record :=
  [(lit "Name", vstr (lit "W")), (lit "Reason", vstr (lit "A")),
   (lit "updated", vstr (lit "\x7b\"_seconds\": 2\x7d"))]

/-- Previous record of the C8 witness scenario. -/
def c8prevRec : Record :=
  [(lit "Name", vstr (lit "W")), (lit "Reason", vstr (lit "B")),
   (lit "updated", vstr (lit "\x7b\"_seconds\": 1\x7d"))]

/-- The Updated change of the C8 witness scenario. -/
def c8out : SChange :=
  { name := lit "W", ctype := .updated, key := some (lit "name:W"),
    fields := [lit "Reason"], sourceDate := none,
    detectionDate := some (lit "2026-01-03") }

/-- A record whose only field renders to an all-empty string: the identity
key falls back to the row position. -/
def c7row : Record := [(lit "Name", vstr [])]

/-- An added change whose name ends in a colon: the bullet renderer writes
`- **Foo:**` but the parser strips the trailing colon back to `Foo`. -/
def c1BadChange : SChange :=
  { name := lit "Foo:", ctype := .added, key := none, fields := [],
    sourceDate := none, detectionDate := none }

/-- A well-formed added change. -/
def c1GoodChange : SChange :=
  { name := lit "Foo", ctype := .added, key := none, fields := [],
    sourceDate := none, detectionDate := none }

/-- The document produced by merging `c1BadChange` into a fresh changelog
on 2026-01-02. -/
def c1BadDoc1 : Str :=
  lit "# Changelog\n\nAll notable changes to the DoD prohibited substances list will be documented in this file.\n\n\n## 2026-01-02\n\n### New Substances Added\n    1 new substance\n???+ info \"Show details\"\n    - **Foo:**\n"

/-- The document produced by merging `c1GoodChange` into a fresh changelog
on 2026-01-02. -/
def c1GoodDoc1 : Str :=
  lit "# Changelog\n\nAll notable changes to the DoD prohibited substances list will be documented in this file.\n\n\n## 2026-01-02\n\n### New Substances Added\n    1 new substance\n???+ info \"Show details\"\n    - **Foo**\n"

/-- A changelog whose recorded name `a:` (ending in a colon) cannot survive
a render/parse round trip. -/
def c4BadDoc : Str := lit "## 2020-01-01\n### New Substances Added\n- **a: :**"

/-- A round-trippable changelog document. -/
def c4OkDoc : Str := lit "## 2020-01-01\n### New Substances Added\n- **Foo**\n"

/-- An added change whose name embeds a newline followed by a date-header
line. -/
def c9BadChange : SChange :=
  { name := lit "x\n## 9999-99-99", ctype := .added, key := none, fields := [],
    sourceDate := none, detectionDate := none }

/-- An added change with a truthy self-reported source date of 2022-01-01. -/
def c5chg : SChange :=
  { name := lit "Foo", ctype := .added, key := none, fields := [],
    sourceDate := some (lit "2022-01-01"), detectionDate := none }

/-- A change is present in the bucket that `changes_by_date` holds for a
date. -/
def bucketsMem (bs : List (Str × DateChanges)) (d : Str) (c : SChange) : Bool :=
  match pcFind2 bs d with
  | some dc => memDC c dc
  | none => false

/-- The substance list of a section of a `DateChanges` value. -/
def getSectDC (dc : DateChanges) : CType → List SChange
  | .added => dc.added
  | .updated => dc.updated
  | .removed => dc.removed

/-- Fold `ParsedChanges.add_substance` over a list of names for one date
and section. -/
def addSubFold (q : ParsedChanges) (d : Str) (t : CType) (ns : List Str) : ParsedChanges :=
  ns.foldl (fun q2 n => addSub q2 d t n) q

/-- The parsed-changes contribution of one rendered date block: all added
names, then all updated names, then all removed names. -/
def blockAcc (q : ParsedChanges) (d : Str) (dc : DateChanges) : ParsedChanges :=
  addSubFold (addSubFold (addSubFold q d .added (dc.added.map SChange.name))
    d .updated (dc.updated.map SChange.name)) d .removed (dc.removed.map SChange.name)

/-- The lines `update_persistent_changelog` writes for a date with freshly
generated content (lines 278-300 of `src/changelog.py`). -/
def genBlockLines (d : Str) (dc : DateChanges) : List Str :=
  [lit "## " ++ d, []] ++
    (let content := generateContent d dc
     if (pyStrip content).isEmpty then []
     else (splitNL content).filter (fun l => !(pyStrip l).isEmpty) ++ [[]])

/-- The lines `update_persistent_changelog` writes for a date whose content
is copied over from the existing document. -/
def extBlockLines (lines : List Str) (d : Str) : List Str :=
  [lit "## " ++ d, []] ++
    (let content := extractContent lines d
     if (pyStrip content).isEmpty then []
     else (splitNL content).filter (fun l => !(pyStrip l).isEmpty) ++ [[]])

/-- The first line list is what `splitNL` yields on a prefix of the string
whose `splitNL` is the second: same leading lines, with the final line cut
back to a prefix. -/
inductive LinePre : List Str → List Str → Prop where
  | single (l l0 : Str) (ls : List Str) : l <+: l0 → LinePre [l] (l0 :: ls)
  | cons (l : Str) (ls ls2 : List Str) : LinePre ls ls2 → LinePre (l :: ls) (l :: ls2)

/-- Shape of every name the changelog parser records: non-empty,
newline-free, whitespace-clean at both ends, and free of the bold
marker. -/
def parsedNameOk (n : Str) : Bool :=
  !n.isEmpty && noNL n && edgeClean n && !hasSub (lit "**") n

/-- All strings the renderer interpolates for a date bucket are
newline-free (names, update field names, source dates). -/
def dcNoNL (dc : DateChanges) : Bool :=
  dc.added.all (fun c => noNL c.name &&
    (match c.sourceDate with | some sd => noNL sd | none => true)) &&
  dc.updated.all (fun c => noNL c.name && c.fields.all noNL) &&
  dc.removed.all (fun c => noNL c.name)

/-- All names of a date bucket survive the bullet round trip. -/
def dcGoodNames (dc : DateChanges) : Bool :=
  (dc.added ++ dc.updated ++ dc.removed).all (fun c => goodName c.name)

/-- Changes stored in each section of a bucket carry the section's type. -/
def dcTyped (dc : DateChanges) : Prop :=
  (∀ c ∈ dc.added, c.ctype = CType.added) ∧
  (∀ c ∈ dc.updated, c.ctype = CType.updated) ∧
  (∀ c ∈ dc.removed, c.ctype = CType.removed)

/-- An added change self-reported for 2022-01-01, used to exercise the
two-date ordering of a rewritten document. -/
def c9chg1 : SChange :=
  { name := lit "Bar", ctype := .added, key := none, fields := [],
    sourceDate := some (lit "2022-01-01"), detectionDate := none }

/-- An added change without a source date, filed under the run date. -/
def c9chg2 : SChange :=
  { name := lit "Baz", ctype := .added, key := none, fields := [],
    sourceDate := none, detectionDate := none }

/-- The document produced by merging `c9chg1` and `c9chg2` into a fresh
changelog on 2026-01-02: two date sections, newest first. -/
def c9GoodDoc1 : Str :=
  lit "# Changelog\n\nAll notable changes to the DoD prohibited substances list will be documented in this file.\n\n\n## 2026-01-02\n\n### New Substances Added\n    1 new substance\n???+ info \"Show details\"\n    - **Baz**\n\n## 2022-01-01\n\n### New Substances Added\n    1 new substance\n???+ info \"Show details\"\n    - **Bar**\n"

/-- The document produced by re-merging `c1BadChange` into `c1BadDoc1`:
the colon-named bullet is duplicated rather than skipped. -/
def c1BadDoc2 : Str :=
  lit "# Changelog\n\nAll notable changes to the DoD prohibited substances list will be documented in this file.\n\n\n## 2026-01-02\n\n### New Substances Added\n    2 new substances\n???+ info \"Show details\"\n    - **Foo**\n    - **Foo:**\n"

/-- The date-header recognizer applied to one line (the lambda of
`dateHeadersOf`). -/
def headerDate (l : Str) : Option Str :=
  let ls := pyStrip l
  if startsW (lit "## ") ls && 3 < ls.length then
    let dp := pyStrip (ls.drop 3)
    if !dp.isEmpty && !startsW (lit "#") dp then some dp else none
  else none

/-! # Theorems -/

/-- The detection loop with no previous snapshot leaves the change list
untouched and only accumulates keys. -/
theorem detectFold_none_prev (cols : List Str) (today : Str) :
    ∀ (l : List (Nat × Record)) (acc : DetectAcc),
      detectFold cols none today l acc =
        some ⟨acc.changes, acc.keys ++ l.map (fun p => deriveKey cols p.2 p.1)⟩ := by
  intro l
  induction l with
  | nil => intro acc; simp [detectFold]
  | cons hd tl ih =>
    intro acc
    cases hd with
    | mk i row => simp [detectFold, ih]

/-- Claim C3: when no previous snapshot is available (`previous_data is
None`), the change detector emits no Added, Updated or Removed change at
all, for every current dataset. -/
theorem c3_no_previous_no_changes (columns : List Str) (rows : List Record) (today : Str) :
    detectChanges columns rows none today = some [] := by
  simp [detectChanges, detectFold_none_prev]

/-- The head of a non-trivial `dropWhile` result fails the predicate. -/
theorem dropWhile_head_false {p : Char → Bool} :
    ∀ {l r : Str} {c : Char}, l.dropWhile p = c :: r → p c = false := by
  intro l
  induction l with
  | nil => intro r c h; simp [List.dropWhile] at h
  | cons a t ih =>
    intro r c h
    by_cases ha : p a
    · exact ih (by simpa [List.dropWhile, ha] using h)
    · simp [List.dropWhile, ha] at h
      simp [← h.1, ha]

/-- Members of a `dropWhile` result are members of the original list. -/
theorem mem_of_mem_dropWhile {p : Char → Bool} :
    ∀ {l : Str} {c : Char}, c ∈ l.dropWhile p → c ∈ l := by
  intro l
  induction l with
  | nil => intro c h; simp [List.dropWhile] at h
  | cons a t ih =>
    intro c h
    by_cases ha : p a
    · simp [List.dropWhile, ha] at h
      exact List.mem_cons_of_mem a (ih h)
    · simpa [List.dropWhile, ha] using h

/-- A string whose `strip()` is empty consists of whitespace only. -/
theorem all_ws_of_pyStrip_empty {s : Str} (h : pyStrip s = []) :
    ∀ c ∈ s, isWs c = true := by
  intro c hc
  have h2 : (pyLStrip s).reverse.dropWhile isWs = [] := by
    have := congrArg List.reverse h
    simpa [pyStrip, pyRStrip] using this
  have hall : ∀ a ∈ pyLStrip s, isWs a = true := by
    intro a ha
    have := (List.dropWhile_eq_nil_iff).1 h2 a (List.mem_reverse.2 ha)
    exact this
  rcases List.mem_append.1 (by
      rw [List.takeWhile_append_dropWhile (p := isWs) (l := s)]; exact hc :
      c ∈ s.takeWhile isWs ++ s.dropWhile isWs) with h1 | h1
  · exact List.mem_takeWhile_imp h1
  · exact hall c h1

/-- `json.loads` fails on all-whitespace input. -/
theorem jsonLoads_of_all_ws {s : Str} (h : ∀ c ∈ s, isWs c = true) :
    jsonLoads s = none := by
  have hfuel : s.length + 2 = (s.length + 1) + 1 := rfl
  unfold jsonLoads
  rw [hfuel]
  cases hdrop : s.dropWhile isJWs with
  | nil => simp [pVal, hdrop]
  | cons c t =>
    have hcs : c ∈ s := mem_of_mem_dropWhile (by rw [hdrop]; exact List.mem_cons_self c t)
    have hcw : isWs c = true := h c hcs
    have hcj : isJWs c = false := dropWhile_head_false hdrop
    have hcc : c = '\x0b' ∨ c = '\x0c' := by
      simp [isWs] at hcw
      simp [isJWs] at hcj
      tauto
    rcases hcc with h1 | h1 <;> subst h1 <;>
      simp [pVal, hdrop, startsW, lit, squote] <;>
      rw [if_neg (by decide)]

set_option synthInstance.maxHeartbeats 400000 in
/-- Claim C10: `get_substance_last_modified` is total on dict inputs (the
embedding is a plain function, mirroring the source's catch-all `except`)
and agrees everywhere with the claim's case analysis: 0 whenever the
`updated` field is absent, not a non-empty string, undecodable, or not an
object carrying `"_seconds"`; otherwise exactly the value stored under
`"_seconds"`. -/
theorem c10_last_modified_total_spec (r : Record) :
    getSubstanceLastModified r = lastModifiedClaimSpec r := by
  cases hget : dGet r (lit "updated") with
  | none =>
    simp [getSubstanceLastModified, lastModifiedClaimSpec, dGetD, hget,
      show pyStrip ([] : Str) = [] from rfl]
  | some v =>
    cases v with
    | vstr s =>
      by_cases hs : (pyStrip s).isEmpty
      · have hj : jsonLoads s = none :=
          jsonLoads_of_all_ws (all_ws_of_pyStrip_empty (by simpa using hs))
        simp [getSubstanceLastModified, lastModifiedClaimSpec, dGetD, hget, hs, hj]
      · simp [getSubstanceLastModified, lastModifiedClaimSpec, dGetD, hget, hs]
    | vint n => simp [getSubstanceLastModified, lastModifiedClaimSpec, dGetD, hget]
    | vbool b => simp [getSubstanceLastModified, lastModifiedClaimSpec, dGetD, hget]
    | vnone => simp [getSubstanceLastModified, lastModifiedClaimSpec, dGetD, hget]
    | vlist xs => simp [getSubstanceLastModified, lastModifiedClaimSpec, dGetD, hget]
    | vdict kvs => simp [getSubstanceLastModified, lastModifiedClaimSpec, dGetD, hget]

/-- The per-row detection loop preserves the invariant that every emitted
Updated change carries a non-empty field list. -/
theorem detectFold_updated_nonempty (cols : List Str) (prev : Option (List (Str × Record)))
    (today : Str) :
    ∀ (l : List (Nat × Record)) (acc res : DetectAcc),
      detectFold cols prev today l acc = some res →
      (∀ c ∈ acc.changes, c.ctype = .updated → c.fields ≠ []) →
      (∀ c ∈ res.changes, c.ctype = .updated → c.fields ≠ []) := by
  intro l
  induction l with
  | nil =>
    intro acc res h hbase
    simp [detectFold] at h
    exact h ▸ hbase
  | cons hd tl ih =>
    intro acc res h hbase
    obtain ⟨i, row⟩ := hd
    cases prev with
    | none =>
      simp only [detectFold] at h
      exact ih _ _ h hbase
    | some p =>
      simp only [detectFold] at h
      cases hg : pDictGet p (deriveKey cols row i) with
      | none =>
        rw [hg] at h
        refine ih _ _ h ?_
        intro c hc hct
        rcases List.mem_append.1 hc with h1 | h1
        · exact hbase c h1 hct
        · simp at h1
          rw [h1] at hct
          cases hct
      | some pr =>
        rw [hg] at h
        dsimp only at h
        cases hgt : pyGtO (getSubstanceLastModified (rowDict cols row))
            (getSubstanceLastModified pr) with
        | none => rw [hgt] at h; cases h
        | some b =>
          rw [hgt] at h
          cases b with
          | false => exact ih _ _ h hbase
          | true =>
            by_cases hcf : (changedFields cols (rowDict cols row) pr).isEmpty
            · rw [if_pos hcf] at h
              exact ih _ _ h hbase
            · rw [if_neg hcf] at h
              refine ih _ _ h ?_
              intro c hc hct
              rcases List.mem_append.1 hc with h1 | h1
              · exact hbase c h1 hct
              · simp at h1
                rw [h1]
                simpa using hcf

/-- Claim C8: every Updated change emitted by the change detector has a
non-empty field list. -/
theorem c8_updated_fields_nonempty (columns : List Str) (rows : List Record)
    (previous : Option (List (Str × Record))) (today : Str) (out : List SChange)
    (h : detectChanges columns rows previous today = some out) :
    ∀ c ∈ out, c.ctype = .updated → c.fields ≠ [] := by
  unfold detectChanges at h
  cases hf : detectFold columns previous today rows.enum ⟨[], []⟩ with
  | none => rw [hf] at h; cases h
  | some acc =>
    rw [hf] at h
    have hacc := detectFold_updated_nonempty columns previous today rows.enum ⟨[], []⟩ acc hf
      (by intro c hc; simp at hc)
    cases previous with
    | none =>
      dsimp only at h
      injection h with h2
      subst h2
      exact hacc
    | some prev =>
      dsimp only at h
      injection h with h2
      subst h2
      intro c hc hct
      rcases List.mem_append.1 hc with h1 | h1
      · exact hacc c h1 hct
      · rcases List.mem_map.1 h1 with ⟨k, hk, hck⟩
        rw [← hck] at hct
        cases hct

/-- Witness for C8 at a concrete scenario. -/
theorem c8_witness : c8out.fields ≠ [] :=
  c8_updated_fields_nonempty sCols [c8row] (some [(lit "name:W", c8prevRec)])
    (lit "2026-01-03") [c8out] (by decide) c8out (by simp) (by decide)

/-- Claim C2 (divergence witness): with an unresolvable previous timestamp
(`updated = "garbage"`, resolving to 0) and a resolvable current timestamp
(200), the detector does emit an Updated change for the key, contrary to
the claim that either unresolvable timestamp suppresses Updated. -/
theorem c2_unresolvable_previous_emits_updated :
    detectChanges sCols [c2row] (some [(lit "name:X", c2prevRec)]) (lit "2026-01-02") =
      some [c2out] := by decide

/-- Claim C6 (counterexample): with both timestamps resolvable, the empty
string and the serialized empty list `"[]"` in the `Reason` field are
reported as a field difference, so the four "absent" spellings are not
normalization-equivalent in the comparison. -/
theorem c6_empty_vs_list_reported :
    detectChanges sCols [c6row] (some [(lit "name:X", c6prevRec)]) (lit "2026-01-02") =
      some [{ name := lit "X", ctype := .updated, key := some (lit "name:X"),
              fields := [lit "Reason"], sourceDate := none,
              detectionDate := some (lit "2026-01-02") }] := by decide

/-- Claim C6 (amended): the comparison used for field diffs distinguishes
every pair among None, `""`, `"[]"`, `"null"`; its only normalization is
literal-eval equality on parseable non-empty strings (so `"[]"` and
`"[ ]"` do compare equal); separately, the list-field normalizer
`_parse_list_field` maps None, `""` and `"[]"` (but not `"null"`, which
becomes `["null"]`) to the same empty list. -/
theorem c6_amended_no_normalization_equivalence :
    (fieldDiffers vnone (vstr []) = true ∧
     fieldDiffers vnone (vstr (lit "[]")) = true ∧
     fieldDiffers vnone (vstr (lit "null")) = true ∧
     fieldDiffers (vstr []) (vstr (lit "[]")) = true ∧
     fieldDiffers (vstr []) (vstr (lit "null")) = true ∧
     fieldDiffers (vstr (lit "[]")) (vstr (lit "null")) = true) ∧
    fieldDiffers (vstr (lit "[]")) (vstr (lit "[ ]")) = false ∧
    (pyBEqList (parseListField vnone) [] = true ∧
     pyBEqList (parseListField (vstr [])) [] = true ∧
     pyBEqList (parseListField (vstr (lit "[]"))) [] = true ∧
     pyBEqList (parseListField (vstr (lit "null"))) [vstr (lit "null")] = true) := by decide

/-- Claim C7 (counterexample): two records with identical field contents
(`Name` mapped to the empty string) receive different identity keys within
one run, because the last-resort branch keys on the row position. -/
theorem c7_identical_rows_different_keys :
    deriveKey [lit "Name"] c7row 0 = lit "row_0" ∧
    deriveKey [lit "Name"] c7row 1 = lit "row_1" ∧
    (lit "row_0" : Str) ≠ lit "row_1" := by decide

/-- Claim C7 (amended): the identity key follows the five-step priority
chain exactly as claimed — guid, then Name, then searchable_name, then a
composite of up to two non-empty meaningful columns, then a composite of
the first non-empty non-trivial values — and is independent of the row
position (hence deterministic on field contents) in every branch except
the final empty-record fallback, which keys on the row position. -/
theorem c7_priority_chain_and_determinism :
    (∀ (columns : List Str) (row : Record) (idx : Nat),
      nonBlankStr (guidVal (rowDict columns row)) = true →
      deriveKey columns row idx = lit "guid:" ++ pyStr (guidVal (rowDict columns row))) ∧
    (∀ (columns : List Str) (row : Record) (idx : Nat),
      nonBlankStr (guidVal (rowDict columns row)) = false →
      nonBlankStr (dGetD (rowDict columns row) (lit "Name") vnone) = true →
      deriveKey columns row idx =
        lit "name:" ++ pyStr (dGetD (rowDict columns row) (lit "Name") vnone)) ∧
    (∀ (columns : List Str) (row : Record) (idx : Nat),
      nonBlankStr (guidVal (rowDict columns row)) = false →
      nonBlankStr (dGetD (rowDict columns row) (lit "Name") vnone) = false →
      nonBlankStr (dGetD (rowDict columns row) (lit "searchable_name") vnone) = true →
      deriveKey columns row idx =
        lit "search:" ++ pyStr (dGetD (rowDict columns row) (lit "searchable_name") vnone)) ∧
    (∀ (columns : List Str) (row : Record) (idx : Nat),
      nonBlankStr (guidVal (rowDict columns row)) = false →
      nonBlankStr (dGetD (rowDict columns row) (lit "Name") vnone) = false →
      nonBlankStr (dGetD (rowDict columns row) (lit "searchable_name") vnone) = false →
      (availCols (rowDict columns row)).isEmpty = false →
      deriveKey columns row idx =
        joinSep (lit "|") (((availCols (rowDict columns row)).take 2).map
          (fun c => pyStr (dGetD (rowDict columns row) c (vstr []))))) ∧
    (∀ (columns : List Str) (row : Record) (idx : Nat),
      nonBlankStr (guidVal (rowDict columns row)) = false →
      nonBlankStr (dGetD (rowDict columns row) (lit "Name") vnone) = false →
      nonBlankStr (dGetD (rowDict columns row) (lit "searchable_name") vnone) = false →
      (availCols (rowDict columns row)).isEmpty = true →
      (nonEmptyVals ((rowDict columns row).map Prod.snd)).isEmpty = false →
      deriveKey columns row idx =
        joinSep (lit "|") ((nonEmptyVals ((rowDict columns row).map Prod.snd)).take 3)) ∧
    (∀ (columns : List Str) (row : Record) (i j : Nat),
      usesRowIndexFallback columns row = false →
      deriveKey columns row i = deriveKey columns row j) ∧
    (∀ (columns : List Str) (row : Record) (idx : Nat),
      usesRowIndexFallback columns row = true →
      deriveKey columns row idx = lit "row_" ++ natToStr idx) := by
  refine ⟨?_, ?_, ?_, ?_, ?_, ?_, ?_⟩
  · intro columns row idx h1
    simp [deriveKey, h1]
  · intro columns row idx h1 h2
    simp [deriveKey, h1, h2]
  · intro columns row idx h1 h2 h3
    simp [deriveKey, h1, h2, h3]
  · intro columns row idx h1 h2 h3 h4
    simp [deriveKey, h1, h2, h3, h4]
  · intro columns row idx h1 h2 h3 h4 h5
    simp [deriveKey, h1, h2, h3, h4, h5]
  · intro columns row i j h
    by_cases h1 : nonBlankStr (guidVal (rowDict columns row))
    · simp [deriveKey, h1]
    · by_cases h2 : nonBlankStr (dGetD (rowDict columns row) (lit "Name") vnone)
      · simp [deriveKey, h1, h2]
      · by_cases h3 : nonBlankStr (dGetD (rowDict columns row) (lit "searchable_name") vnone)
        · simp [deriveKey, h1, h2, h3]
        · by_cases h4 : (availCols (rowDict columns row)).isEmpty
          · by_cases h5 : (nonEmptyVals ((rowDict columns row).map Prod.snd)).isEmpty
            · exfalso
              simp [usesRowIndexFallback, h1, h2, h3, h4, h5] at h
            · simp [deriveKey, h1, h2, h3, h4, h5]
          · simp [deriveKey, h1, h2, h3, h4]
  · intro columns row idx h
    simp only [usesRowIndexFallback, Bool.and_eq_true, Bool.not_eq_true'] at h
    obtain ⟨⟨⟨⟨h1, h2⟩, h3⟩, h4⟩, h5⟩ := h
    simp [deriveKey, h1, h2, h3, h4, h5]

/-- Witness for C7 (amended) at a concrete record: the Name branch fires
and the key is independent of the row position. -/
theorem c7_witness :
    deriveKey sCols [(lit "Name", vstr (lit "X"))] 3 =
      deriveKey sCols [(lit "Name", vstr (lit "X"))] 7 :=
  c7_priority_chain_and_determinism.2.2.2.2.2.1 sCols [(lit "Name", vstr (lit "X"))] 3 7
    (by decide)

/-- Membership in a bucket after `add_change`: the old members plus the
added change. -/
theorem memDC_addChange (c c2 : SChange) (dc : DateChanges) :
    memDC c (addChange dc c2) = (memDC c dc || decide (c = c2)) := by
  cases h2 : c2.ctype <;>
    simp [addChange, h2, memDC, List.mem_append, or_assoc] <;>
    by_cases hc : c = c2 <;> simp [hc]

/-- Appending a fresh empty bucket never changes membership. -/
theorem bucketsMem_append_empty (bs : List (Str × DateChanges)) (d2 d : Str) (c : SChange) :
    bucketsMem (bs ++ [(d2, emptyDC)]) d c = bucketsMem bs d c := by
  induction bs with
  | nil =>
    by_cases hd : d2 = d <;> simp [bucketsMem, pcFind2, hd, memDC, emptyDC]
  | cons hd_ tl ih =>
    obtain ⟨dk, dc0⟩ := hd_
    by_cases hdd : dk = d
    · simp [bucketsMem, pcFind2, hdd]
    · simpa [bucketsMem, pcFind2, hdd] using ih

/-- `bEnsure` never changes bucket membership (the fresh bucket is
empty). -/
theorem bucketsMem_bEnsure (bs : List (Str × DateChanges)) (d2 d : Str) (c : SChange) :
    bucketsMem (bEnsure bs d2) d c = bucketsMem bs d c := by
  unfold bEnsure
  by_cases hmem : memS d2 (bs.map Prod.fst)
  · simp [hmem]
  · simp only [hmem, Bool.false_eq_true, if_false]
    exact bucketsMem_append_empty bs d2 d c

/-- Lookup after `bAdd`. -/
theorem pcFind2_bAdd (bs : List (Str × DateChanges)) (d2 d : Str) (c2 : SChange) :
    pcFind2 (bAdd bs d2 c2) d =
      (pcFind2 bs d).map (fun dc => if d = d2 then addChange dc c2 else dc) := by
  induction bs with
  | nil => simp [bAdd, pcFind2]
  | cons hd tl ih =>
    obtain ⟨dk, dc0⟩ := hd
    by_cases hd2 : dk = d2
    · subst hd2
      by_cases hdd : dk = d
      · subst hdd
        simp [bAdd, pcFind2]
      · have hdd2 : ¬(d = dk) := fun h => hdd h.symm
        cases hf : pcFind2 tl d <;> simp [bAdd, pcFind2, hdd, hdd2, hf]
    · by_cases hdd : dk = d
      · subst hdd
        simp [bAdd, pcFind2, hd2, ih]
      · simp [bAdd, pcFind2, hd2, hdd, ih]

/-- Membership after `bAdd`. -/
theorem bucketsMem_bAdd (bs : List (Str × DateChanges)) (d2 d : Str) (c c2 : SChange) :
    bucketsMem (bAdd bs d2 c2) d c =
      (bucketsMem bs d c ||
        (decide (d = d2) && decide (c = c2) && (pcFind2 bs d).isSome)) := by
  unfold bucketsMem
  rw [pcFind2_bAdd]
  cases hfind : pcFind2 bs d with
  | none => simp
  | some dc =>
    by_cases hd : d = d2
    · simp [hd, memDC_addChange]
    · simp [hd]

/-- `memS` agrees with list membership. -/
theorem memS_iff_mem (x : Str) : ∀ l : List Str, memS x l = true ↔ x ∈ l := by
  intro l
  induction l with
  | nil => simp [memS]
  | cons y t ih =>
    simp only [memS, Bool.or_eq_true, decide_eq_true_eq, ih, List.mem_cons]
    constructor
    · rintro (h | h)
      · exact Or.inl h.symm
      · exact Or.inr h
    · rintro (h | h)
      · exact Or.inl h.symm
      · exact Or.inr h

/-- `memS` distributes over append. -/
theorem memS_append (x : Str) (a b : List Str) :
    memS x (a ++ b) = (memS x a || memS x b) := by
  induction a with
  | nil => simp [memS]
  | cons y t ih => simp [memS, ih, Bool.or_assoc]

/-- `bAdd` does not change the key list. -/
theorem keys_bAdd (d : Str) (c : SChange) :
    ∀ bs : List (Str × DateChanges), (bAdd bs d c).map Prod.fst = bs.map Prod.fst := by
  intro bs
  induction bs with
  | nil => simp [bAdd]
  | cons hd tl ih =>
    obtain ⟨dk, dc0⟩ := hd
    by_cases hdd : dk = d <;> simp [bAdd, hdd, ih]

/-- The keys after `bEnsure` are the old keys, possibly with the new date
appended. -/
theorem keys_bEnsure (d2 : Str) (bs : List (Str × DateChanges)) :
    (bEnsure bs d2).map Prod.fst = bs.map Prod.fst ∨
      (bEnsure bs d2).map Prod.fst = bs.map Prod.fst ++ [d2] := by
  unfold bEnsure
  by_cases hmem : memS d2 (bs.map Prod.fst) <;> simp [hmem]

/-- The date passed to `bEnsure` has a bucket afterwards. -/
theorem pcFind2_bEnsure_self (bs : List (Str × DateChanges)) (d : Str) :
    (pcFind2 (bEnsure bs d) d).isSome = true := by
  unfold bEnsure
  by_cases hmem : memS d (bs.map Prod.fst)
  · simp only [hmem, if_true]
    induction bs with
    | nil => simp [memS] at hmem
    | cons hd tl ih =>
      obtain ⟨dk, dc0⟩ := hd
      by_cases hdd : dk = d
      · simp [pcFind2, hdd]
      · simp only [List.map_cons, memS] at hmem
        simp [pcFind2, hdd]
        exact ih (by simpa [hdd] using hmem)
  · simp only [hmem, Bool.false_eq_true, if_false]
    induction bs with
    | nil => simp [pcFind2]
    | cons hd tl ih =>
      obtain ⟨dk, dc0⟩ := hd
      by_cases hdd : dk = d
      · simp [pcFind2, hdd]
      · simp only [List.map_cons, memS] at hmem
        simp [pcFind2, hdd]
        exact ih (by simpa [hdd] using hmem)

/-- A found date is a member of the key list. -/
theorem pcFind2_isSome_memS (d : Str) :
    ∀ bs : List (Str × DateChanges), (pcFind2 bs d).isSome = true →
      memS d (bs.map Prod.fst) = true := by
  intro bs
  induction bs with
  | nil => simp [pcFind2]
  | cons hd tl ih =>
    obtain ⟨dk, dc0⟩ := hd
    by_cases hdd : dk = d
    · simp [pcFind2, hdd, memS]
    · simp [pcFind2, hdd, memS]
      exact ih

/-- Bucket membership only grows along the grouping loop. -/
theorem bucketsMem_groupFold_mono (ex : ParsedChanges) (today : Str) :
    ∀ (cs : List SChange) (acc : GroupAcc) (d : Str) (c : SChange),
      bucketsMem acc.buckets d c = true →
      bucketsMem (groupFold ex today cs acc).buckets d c = true := by
  intro cs
  induction cs with
  | nil => intro acc d c h; simpa [groupFold] using h
  | cons c0 rest ih =>
    intro acc d c h
    simp only [groupFold]
    split
    · split
      · exact ih _ _ _ (by simpa [bucketsMem_bEnsure] using h)
      · refine ih _ _ _ ?_
        simp only [bucketsMem_bAdd, bucketsMem_bEnsure, h, Bool.true_or]
    · split
      · exact ih _ _ _ h
      · split
        · exact ih _ _ _ (by simpa [bucketsMem_bEnsure] using h)
        · refine ih _ _ _ ?_
          simp only [bucketsMem_bAdd, bucketsMem_bEnsure, h, Bool.true_or]

/-- Key membership only grows along the grouping loop. -/
theorem keysMem_groupFold_mono (ex : ParsedChanges) (today : Str) :
    ∀ (cs : List SChange) (acc : GroupAcc) (d : Str),
      memS d (acc.buckets.map Prod.fst) = true →
      memS d ((groupFold ex today cs acc).buckets.map Prod.fst) = true := by
  intro cs
  induction cs with
  | nil => intro acc d h; simpa [groupFold] using h
  | cons c0 rest ih =>
    intro acc d h
    have hens : ∀ d2, memS d ((bEnsure acc.buckets d2).map Prod.fst) = true := by
      intro d2
      rcases keys_bEnsure d2 acc.buckets with he | he <;> rw [he]
      · exact h
      · rw [memS_append, h]; rfl
    simp only [groupFold]
    split
    · split
      · exact ih _ _ (hens _)
      · exact ih _ _ (by rw [keys_bAdd]; exact hens _)
    · split
      · exact ih _ _ h
      · split
        · exact ih _ _ (hens _)
        · exact ih _ _ (by rw [keys_bAdd]; exact hens _)

/-- Bucket membership only grows along the computed-changes loop. -/
theorem bucketsMem_computedFold_mono (ex : ParsedChanges) (dd : Str) :
    ∀ (cs : List SChange) (bs : List (Str × DateChanges)) (d : Str) (c : SChange),
      bucketsMem bs d c = true →
      bucketsMem (computedFold ex dd cs bs) d c = true := by
  intro cs
  induction cs with
  | nil => intro bs d c h; simpa [computedFold] using h
  | cons c0 rest ih =>
    intro bs d c h
    simp only [computedFold]
    split
    · exact ih _ _ _ h
    · refine ih _ _ _ ?_
      simp only [bucketsMem_bAdd, h, Bool.true_or]

/-- A present key has a bucket. -/
theorem memS_imp_pcFind2_isSome (d : Str) :
    ∀ bs : List (Str × DateChanges), memS d (bs.map Prod.fst) = true →
      (pcFind2 bs d).isSome = true := by
  intro bs
  induction bs with
  | nil => simp [memS]
  | cons hd tl ih =>
    obtain ⟨dk, dc0⟩ := hd
    by_cases hdd : dk = d
    · simp [pcFind2, hdd]
    · simp only [List.map_cons, memS]
      intro h
      simp only [pcFind2, hdd, if_false]
      exact ih (by simpa [hdd] using h)

/-- Characterization of bucket membership after the grouping loop: either
already present, or an added change from the processed list filed under
its source date (when truthy) or under today. -/
theorem groupFold_buckets_char (ex : ParsedChanges) (today : Str) :
    ∀ (cs : List SChange) (acc : GroupAcc) (d : Str) (c : SChange),
      bucketsMem (groupFold ex today cs acc).buckets d c = true →
      bucketsMem acc.buckets d c = true ∨
        (c ∈ cs ∧ c.ctype = .added ∧
          ((sourceDateTruthy c = true ∧ d = c.sourceDate.getD []) ∨
           (sourceDateTruthy c = false ∧ d = today))) := by
  intro cs
  induction cs with
  | nil => intro acc d c h; exact Or.inl (by simpa [groupFold] using h)
  | cons c0 rest ih =>
    intro acc d c h
    simp only [groupFold] at h
    split at h
    case isTrue h1 =>
      split at h
      case isTrue h2 =>
        rcases ih _ _ _ h with h3 | h3
        · exact Or.inl (by simpa [bucketsMem_bEnsure] using h3)
        · exact Or.inr ⟨List.mem_cons_of_mem _ h3.1, h3.2⟩
      case isFalse h2 =>
        rcases ih _ _ _ h with h3 | h3
        · rw [bucketsMem_bAdd] at h3
          simp only [Bool.or_eq_true, Bool.and_eq_true, decide_eq_true_eq] at h3
          rcases h3 with h3 | ⟨⟨hd, hc⟩, _⟩
          · exact Or.inl (by simpa [bucketsMem_bEnsure] using h3)
          · subst hc
            simp only [Bool.and_eq_true, decide_eq_true_eq] at h1
            exact Or.inr ⟨List.mem_cons_self _ _, h1.1, Or.inl ⟨h1.2, hd⟩⟩
        · exact Or.inr ⟨List.mem_cons_of_mem _ h3.1, h3.2⟩
    case isFalse h1 =>
      split at h
      case isTrue h2 =>
        rcases ih _ _ _ h with h3 | h3
        · exact Or.inl h3
        · exact Or.inr ⟨List.mem_cons_of_mem _ h3.1, h3.2⟩
      case isFalse h2 =>
        have hadd : c0.ctype = .added := by
          cases hct : c0.ctype
          · rfl
          · exact absurd (by simp [hct]) h2
          · exact absurd (by simp [hct]) h2
        have hsrc : sourceDateTruthy c0 = false := by
          by_contra hs
          rw [Bool.not_eq_false] at hs
          exact h1 (by simp [hadd, hs])
        split at h
        case isTrue h3 =>
          rcases ih _ _ _ h with h4 | h4
          · exact Or.inl (by simpa [bucketsMem_bEnsure] using h4)
          · exact Or.inr ⟨List.mem_cons_of_mem _ h4.1, h4.2⟩
        case isFalse h3 =>
          rcases ih _ _ _ h with h4 | h4
          · rw [bucketsMem_bAdd] at h4
            simp only [Bool.or_eq_true, Bool.and_eq_true, decide_eq_true_eq] at h4
            rcases h4 with h4 | ⟨⟨hd, hc⟩, _⟩
            · exact Or.inl (by simpa [bucketsMem_bEnsure] using h4)
            · subst hc
              exact Or.inr ⟨List.mem_cons_self _ _, hadd, Or.inr ⟨hsrc, hd⟩⟩
          · exact Or.inr ⟨List.mem_cons_of_mem _ h4.1, h4.2⟩

/-- Characterization of the computed list after the grouping loop. -/
theorem groupFold_computed_char (ex : ParsedChanges) (today : Str) :
    ∀ (cs : List SChange) (acc : GroupAcc) (c : SChange),
      c ∈ (groupFold ex today cs acc).computed →
      c ∈ acc.computed ∨ (c ∈ cs ∧ (c.ctype = .updated ∨ c.ctype = .removed)) := by
  intro cs
  induction cs with
  | nil => intro acc c h; exact Or.inl (by simpa [groupFold] using h)
  | cons c0 rest ih =>
    intro acc c h
    simp only [groupFold] at h
    split at h
    case isTrue h1 =>
      split at h <;>
        · rcases ih _ _ h with h3 | h3
          · exact Or.inl h3
          · exact Or.inr ⟨List.mem_cons_of_mem _ h3.1, h3.2⟩
    case isFalse h1 =>
      split at h
      case isTrue h2 =>
        rcases ih _ _ h with h3 | h3
        · rcases List.mem_append.1 h3 with h4 | h4
          · exact Or.inl h4
          · simp only [List.mem_singleton] at h4
            subst h4
            simp only [Bool.or_eq_true, decide_eq_true_eq] at h2
            exact Or.inr ⟨List.mem_cons_self _ _, h2.symm.imp id id⟩
        · exact Or.inr ⟨List.mem_cons_of_mem _ h3.1, h3.2⟩
      case isFalse h2 =>
        split at h <;>
          · rcases ih _ _ h with h3 | h3
            · exact Or.inl h3
            · exact Or.inr ⟨List.mem_cons_of_mem _ h3.1, h3.2⟩

/-- Characterization of bucket membership after the computed-changes
loop. -/
theorem computedFold_buckets_char (ex : ParsedChanges) (dd : Str) :
    ∀ (cs : List SChange) (bs : List (Str × DateChanges)) (d : Str) (c : SChange),
      bucketsMem (computedFold ex dd cs bs) d c = true →
      bucketsMem bs d c = true ∨ (c ∈ cs ∧ d = dd) := by
  intro cs
  induction cs with
  | nil => intro bs d c h; exact Or.inl (by simpa [computedFold] using h)
  | cons c0 rest ih =>
    intro bs d c h
    simp only [computedFold] at h
    split at h
    case isTrue h1 =>
      rcases ih _ _ _ h with h3 | h3
      · exact Or.inl h3
      · exact Or.inr ⟨List.mem_cons_of_mem _ h3.1, h3.2⟩
    case isFalse h1 =>
      rcases ih _ _ _ h with h3 | h3
      · rw [bucketsMem_bAdd] at h3
        simp only [Bool.or_eq_true, Bool.and_eq_true, decide_eq_true_eq] at h3
        rcases h3 with h3 | ⟨⟨hd, hc⟩, _⟩
        · exact Or.inl h3
        · subst hc
          exact Or.inr ⟨List.mem_cons_self _ _, hd⟩
      · exact Or.inr ⟨List.mem_cons_of_mem _ h3.1, h3.2⟩

/-- An added change of the incoming list whose (date, added, name) triple
is not yet recorded ends up in the bucket of its filing date. -/
theorem groupFold_files_added (ex : ParsedChanges) (today : Str) :
    ∀ (cs : List SChange) (acc : GroupAcc) (c : SChange),
      c ∈ cs → c.ctype = .added →
      hasSubst ex (if sourceDateTruthy c then c.sourceDate.getD [] else today)
        .added c.name = false →
      bucketsMem (groupFold ex today cs acc).buckets
        (if sourceDateTruthy c then c.sourceDate.getD [] else today) c = true := by
  intro cs
  induction cs with
  | nil => intro acc c h; cases h
  | cons c0 rest ih =>
    intro acc c hmem hadd hdup
    rcases List.mem_cons.1 hmem with hc0 | htail
    · subst hc0
      cases hsrc : sourceDateTruthy c with
      | false =>
        have hfd : (if sourceDateTruthy c = true then c.sourceDate.getD [] else today) = today := by
          rw [hsrc]; simp
        rw [hfd] at hdup
        rw [if_neg (by simp : ¬(false = true))]
        simp only [groupFold, hadd]
        rw [if_neg (by simp [hsrc])]
        rw [if_neg (by simp)]
        rw [if_neg (by simp [hdup])]
        exact bucketsMem_groupFold_mono ex today rest _ _ _
          (by rw [bucketsMem_bAdd]; simp [pcFind2_bEnsure_self])
      | true =>
        have hfd : (if sourceDateTruthy c = true then c.sourceDate.getD [] else today) =
            c.sourceDate.getD [] := by
          rw [hsrc]; simp
        rw [hfd] at hdup
        rw [if_pos rfl]
        simp only [groupFold, hadd]
        rw [if_pos (by simp [hsrc])]
        rw [if_neg (by simp [hdup])]
        exact bucketsMem_groupFold_mono ex today rest _ _ _
          (by rw [bucketsMem_bAdd]; simp [pcFind2_bEnsure_self])
    · simp only [groupFold]
      split
      · split <;> exact ih _ _ htail hadd hdup
      · split
        · exact ih _ _ htail hadd hdup
        · split <;> exact ih _ _ htail hadd hdup

/-- A computed change whose (detection date, type, name) triple is not yet
recorded ends up in the detection-date bucket. -/
theorem computedFold_files (ex : ParsedChanges) (dd : Str) :
    ∀ (cs : List SChange) (bs : List (Str × DateChanges)) (c : SChange),
      memS dd (bs.map Prod.fst) = true → c ∈ cs →
      hasSubst ex dd c.ctype c.name = false →
      bucketsMem (computedFold ex dd cs bs) dd c = true := by
  intro cs
  induction cs with
  | nil => intro bs c _ h; cases h
  | cons c0 rest ih =>
    intro bs c hkey hmem hdup
    rcases List.mem_cons.1 hmem with hc0 | htail
    · subst hc0
      simp only [computedFold]
      rw [if_neg (by simp [hdup])]
      refine bucketsMem_computedFold_mono ex dd rest _ _ _ ?_
      rw [bucketsMem_bAdd]
      simp [memS_imp_pcFind2_isSome dd bs hkey]
    · simp only [computedFold]
      split
      · exact ih _ _ hkey htail hdup
      · exact ih _ _ (by rw [keys_bAdd]; exact hkey) htail hdup

/-- An updated/removed change of the incoming list reaches the computed
list of the grouping loop. -/
theorem groupFold_computed_files (ex : ParsedChanges) (today : Str) :
    ∀ (cs : List SChange) (acc : GroupAcc) (c : SChange),
      c ∈ cs → (c.ctype = .updated ∨ c.ctype = .removed) →
      c ∈ (groupFold ex today cs acc).computed := by
  intro cs
  induction cs with
  | nil => intro acc c h; cases h
  | cons c0 rest ih =>
    intro acc c hmem hty
    have hcomputed_mono : ∀ (cs2 : List SChange) (acc2 : GroupAcc),
        c ∈ acc2.computed → c ∈ (groupFold ex today cs2 acc2).computed := by
      intro cs2
      induction cs2 with
      | nil => intro acc2 h; simpa [groupFold] using h
      | cons c1 rest1 ih1 =>
        intro acc2 h
        simp only [groupFold]
        split
        · split <;> exact ih1 _ h
        · split
          · exact ih1 _ (List.mem_append.2 (Or.inl h))
          · split <;> exact ih1 _ h
    rcases List.mem_cons.1 hmem with hc0 | htail
    · subst hc0
      simp only [groupFold]
      rw [if_neg (by rcases hty with h | h <;> simp [h])]
      rw [if_pos (by rcases hty with h | h <;> simp [h])]
      exact hcomputed_mono rest _ (List.mem_append.2 (Or.inr (List.mem_singleton.2 rfl)))
    · simp only [groupFold]
      split
      · split <;> exact ih _ _ htail hty
      · split
        · exact ih _ _ htail hty
        · split <;> exact ih _ _ htail hty

/-- A non-empty bucket satisfies `has_changes`. -/
theorem memDC_hasChanges (c : SChange) (dc : DateChanges) (h : memDC c dc = true) :
    hasChangesDC dc = true := by
  simp only [memDC, Bool.or_eq_true, decide_eq_true_eq] at h
  have h1 : ∀ (l : List SChange) (x : SChange), x ∈ l → l.isEmpty = false := by
    intro l x hx
    cases l
    · cases hx
    · rfl
  rcases h with (h | h) | h <;> simp [hasChangesDC, h1 _ _ h]

/-- `bEnsure` leaves its date in the key list. -/
theorem memS_bEnsure_self (bs : List (Str × DateChanges)) (d : Str) :
    memS d ((bEnsure bs d).map Prod.fst) = true := by
  unfold bEnsure
  by_cases hmem : memS d (bs.map Prod.fst)
  · simp [hmem]
  · simp only [hmem, Bool.false_eq_true, if_false, List.map_append]
    rw [memS_append]
    simp [memS]

/-- `bEnsure` preserves distinctness of dates. -/
theorem keys_nodup_bEnsure (bs : List (Str × DateChanges)) (d : Str)
    (h : (bs.map Prod.fst).Nodup) : ((bEnsure bs d).map Prod.fst).Nodup := by
  unfold bEnsure
  by_cases hmem : memS d (bs.map Prod.fst)
  · simpa [hmem]
  · simp only [hmem, Bool.false_eq_true, if_false, List.map_append]
    rw [List.nodup_append]
    refine ⟨h, List.nodup_singleton d, ?_⟩
    intro x hx hx2
    simp only [List.map_cons, List.map_nil, List.mem_singleton] at hx2
    subst hx2
    exact hmem ((memS_iff_mem x _).2 hx)

/-- The grouping loop preserves distinctness of bucket dates. -/
theorem keys_nodup_groupFold (ex : ParsedChanges) (today : Str) :
    ∀ (cs : List SChange) (acc : GroupAcc),
      (acc.buckets.map Prod.fst).Nodup →
      ((groupFold ex today cs acc).buckets.map Prod.fst).Nodup := by
  intro cs
  induction cs with
  | nil => intro acc h; exact h
  | cons c0 rest ih =>
    intro acc h
    simp only [groupFold]
    split
    · split
      · exact ih _ (keys_nodup_bEnsure _ _ h)
      · exact ih _ (by rw [keys_bAdd]; exact keys_nodup_bEnsure _ _ h)
    · split
      · exact ih _ h
      · split
        · exact ih _ (keys_nodup_bEnsure _ _ h)
        · exact ih _ (by rw [keys_bAdd]; exact keys_nodup_bEnsure _ _ h)

/-- The computed-changes loop does not change the key list. -/
theorem keys_computedFold_eq (ex : ParsedChanges) (dd : Str) :
    ∀ (cs : List SChange) (bs : List (Str × DateChanges)),
      (computedFold ex dd cs bs).map Prod.fst = bs.map Prod.fst := by
  intro cs
  induction cs with
  | nil => intro bs; simp [computedFold]
  | cons c0 rest ih =>
    intro bs
    simp only [computedFold]
    split
    · exact ih _
    · rw [ih, keys_bAdd]

/-- Looking up a date in the pruned bucket list finds the same bucket as
in the unpruned list, provided dates are distinct. -/
theorem pcFind2_filter_some :
    ∀ (bs : List (Str × DateChanges)), (bs.map Prod.fst).Nodup →
      ∀ (d : Str) (dc : DateChanges),
        pcFind2 (bs.filter (fun p => hasChangesDC p.2)) d = some dc →
        pcFind2 bs d = some dc := by
  intro bs
  induction bs with
  | nil => intro _ d dc h; simp [pcFind2] at h
  | cons hd tl ih =>
    intro hnd d dc h
    obtain ⟨dk, dc0⟩ := hd
    simp only [List.map_cons, List.nodup_cons] at hnd
    by_cases hP : hasChangesDC dc0
    · rw [List.filter_cons_of_pos (by simpa using hP)] at h
      by_cases hdd : dk = d
      · simpa [pcFind2, hdd] using h
      · rw [pcFind2] at h ⊢
        simp only [hdd, if_false] at h ⊢
        exact ih hnd.2 d dc h
    · rw [List.filter_cons_of_neg (by simpa using hP)] at h
      have h2 := ih hnd.2 d dc h
      by_cases hdd : dk = d
      · exfalso
        subst hdd
        exact hnd.1 ((memS_iff_mem dk _).1
          (pcFind2_isSome_memS dk tl (by rw [h2]; rfl)))
      · simpa [pcFind2, hdd] using h2

/-- A bucket that keeps at least one change survives pruning at the same
date. -/
theorem pcFind2_filter_kept :
    ∀ (bs : List (Str × DateChanges)) (d : Str) (dc : DateChanges),
      pcFind2 bs d = some dc → hasChangesDC dc = true →
      pcFind2 (bs.filter (fun p => hasChangesDC p.2)) d = some dc := by
  intro bs
  induction bs with
  | nil => intro d dc h; simp [pcFind2] at h
  | cons hd tl ih =>
    intro d dc h hP
    obtain ⟨dk, dc0⟩ := hd
    by_cases hdd : dk = d
    · rw [pcFind2] at h
      simp only [hdd, if_true] at h
      injection h with h2
      subst h2
      rw [List.filter_cons_of_pos (by simpa using hP)]
      simp [pcFind2, hdd]
    · rw [pcFind2] at h
      simp only [hdd, if_false] at h
      by_cases hP0 : hasChangesDC dc0
      · rw [List.filter_cons_of_pos (by simpa using hP0)]
        rw [pcFind2]
        simp only [hdd, if_false]
        exact ih d dc h hP
      · rw [List.filter_cons_of_neg (by simpa using hP0)]
        exact ih d dc h hP

/-- Pruning empty buckets preserves membership. -/
theorem bucketsMem_filter_kept (bs : List (Str × DateChanges)) (d : Str) (c : SChange)
    (h : bucketsMem bs d c = true) :
    bucketsMem (bs.filter (fun p => hasChangesDC p.2)) d c = true := by
  unfold bucketsMem at h ⊢
  cases hf : pcFind2 bs d with
  | none => rw [hf] at h; cases h
  | some dcx =>
    rw [hf] at h
    rw [pcFind2_filter_kept bs d dcx hf (memDC_hasChanges c dcx h)]
    exact h

/-- Claim C5: with the detection date resolving to today (as in `main`),
the merger files an Added change carrying a truthy source date under that
source date, every Updated and Removed change under the detection date,
and an Added change without a source date under today — and nothing is
ever filed under any other date; a change whose (date, type, name) triple
is not yet recorded is actually filed. -/
theorem c5_date_filing :
    (∀ (C : List SChange) (ex : ParsedChanges) (today : Str) (ddOpt : Option Str)
        (c : SChange) (d : Str) (dc : DateChanges),
        resolveDetection ddOpt today = today →
        pcFind2 (buildBuckets C ex today ddOpt) d = some dc →
        memDC c dc = true →
        d = fileDate c today today) ∧
    (∀ (C : List SChange) (ex : ParsedChanges) (today : Str) (ddOpt : Option Str)
        (c : SChange),
        resolveDetection ddOpt today = today →
        c ∈ C →
        hasSubst ex (fileDate c today today) c.ctype c.name = false →
        bucketsMem (buildBuckets C ex today ddOpt) (fileDate c today today) c = true) := by
  constructor
  · intro C ex today ddOpt c d dc hdd hfind hmem
    simp only [buildBuckets, hdd] at hfind
    set acc := groupFold ex today C ⟨[], []⟩ with hacc
    have hnodup0 : ((⟨[], []⟩ : GroupAcc).buckets.map Prod.fst).Nodup := by simp
    have hnodupacc := keys_nodup_groupFold ex today C _ hnodup0
    rw [← hacc] at hnodupacc
    by_cases hcomp : acc.computed.isEmpty
    · rw [if_neg (by simp [hcomp])] at hfind
      have hb : bucketsMem acc.buckets d c = true := by
        unfold bucketsMem
        rw [pcFind2_filter_some acc.buckets hnodupacc d dc hfind]
        exact hmem
      rcases groupFold_buckets_char ex today C _ d c (by rw [← hacc]; exact hb) with h | h
      · simp [bucketsMem, pcFind2] at h
      · rcases h.2.2 with ⟨hs, hd2⟩ | ⟨hs, hd2⟩ <;>
          simp [fileDate, h.2.1, hs, hd2]
    · rw [if_pos (by simp [hcomp])] at hfind
      have hnodup2 : ((computedFold ex today acc.computed
          (bEnsure acc.buckets today)).map Prod.fst).Nodup := by
        rw [keys_computedFold_eq]
        exact keys_nodup_bEnsure _ _ hnodupacc
      have hb : bucketsMem (computedFold ex today acc.computed
          (bEnsure acc.buckets today)) d c = true := by
        unfold bucketsMem
        rw [pcFind2_filter_some _ hnodup2 d dc hfind]
        exact hmem
      rcases computedFold_buckets_char ex today acc.computed _ d c hb with h | h
      · rw [bucketsMem_bEnsure] at h
        rcases groupFold_buckets_char ex today C _ d c (by rw [← hacc]; exact h) with h2 | h2
        · simp [bucketsMem, pcFind2] at h2
        · rcases h2.2.2 with ⟨hs, hd2⟩ | ⟨hs, hd2⟩ <;>
            simp [fileDate, h2.2.1, hs, hd2]
      · rcases groupFold_computed_char ex today C _ c (by rw [← hacc]; exact h.1) with h2 | h2
        · cases h2
        · rcases h2.2 with hty | hty <;> simp [fileDate, hty, h.2]
  · intro C ex today ddOpt c hdd hC hdup
    simp only [buildBuckets, hdd]
    set acc := groupFold ex today C ⟨[], []⟩ with hacc
    cases hct : c.ctype with
    | added =>
      have hfd : fileDate c today today =
          (if sourceDateTruthy c = true then c.sourceDate.getD [] else today) := by
        cases hsrc : sourceDateTruthy c <;> simp [fileDate, hct, hsrc]
      rw [hfd] at hdup ⊢
      rw [hct] at hdup
      have hbase := groupFold_files_added ex today C ⟨[], []⟩ c hC hct hdup
      rw [← hacc] at hbase
      apply bucketsMem_filter_kept
      by_cases hcomp : acc.computed.isEmpty
      · rw [if_neg (by simp [hcomp])]
        exact hbase
      · rw [if_pos (by simp [hcomp])]
        refine bucketsMem_computedFold_mono ex today acc.computed _ _ _ ?_
        rw [bucketsMem_bEnsure]
        exact hbase
    | updated =>
      have hfd : fileDate c today today = today := by simp [fileDate, hct]
      rw [hfd] at hdup ⊢
      have hcmem := groupFold_computed_files ex today C ⟨[], []⟩ c hC (Or.inl hct)
      rw [← hacc] at hcmem
      have hcomp : acc.computed.isEmpty = false := by
        cases hl : acc.computed
        · rw [hl] at hcmem; cases hcmem
        · rfl
      rw [if_pos (by simp [hcomp])]
      apply bucketsMem_filter_kept
      exact computedFold_files ex today acc.computed _ c
        (memS_bEnsure_self _ _) hcmem hdup
    | removed =>
      have hfd : fileDate c today today = today := by simp [fileDate, hct]
      rw [hfd] at hdup ⊢
      have hcmem := groupFold_computed_files ex today C ⟨[], []⟩ c hC (Or.inr hct)
      rw [← hacc] at hcmem
      have hcomp : acc.computed.isEmpty = false := by
        cases hl : acc.computed
        · rw [hl] at hcmem; cases hcmem
        · rfl
      rw [if_pos (by simp [hcomp])]
      apply bucketsMem_filter_kept
      exact computedFold_files ex today acc.computed _ c
        (memS_bEnsure_self _ _) hcmem hdup

/-- Witness for C5 at a concrete scenario: an Added change self-reported
for 2022-01-01 is filed under 2022-01-01 even though the run executes on
2026-01-02. -/
theorem c5_witness :
    bucketsMem (buildBuckets [c5chg] (parseDoc (lit "")) (lit "2026-01-02")
      (some (lit "2026-01-02"))) (lit "2022-01-01") c5chg = true := by
  have h := c5_date_filing.2 [c5chg] (parseDoc (lit "")) (lit "2026-01-02")
    (some (lit "2026-01-02")) c5chg (by decide) (by simp) (by decide)
  have hfd : fileDate c5chg (lit "2026-01-02") (lit "2026-01-02") = lit "2022-01-01" := by
    decide
  rw [hfd] at h
  exact h

/-! ## String-level infrastructure: split/join, strip, substring search -/

/-- `splitNL` never returns the empty list. -/
theorem splitNL_ne_nil : ∀ s : Str, splitNL s ≠ [] := by
  intro s
  induction s with
  | nil => simp [splitNL]
  | cons c t ih =>
    simp only [splitNL]
    split
    · simp
    · cases hsp : splitNL t with
      | nil => exact absurd hsp ih
      | cons l ls => simp

/-- Lines produced by `splitNL` carry no newline. -/
theorem noNL_mem_splitNL : ∀ (s : Str) (l : Str), l ∈ splitNL s → noNL l = true := by
  intro s
  induction s with
  | nil => intro l hl; simp [splitNL] at hl; simp [hl, noNL]
  | cons c t ih =>
    intro l hl
    simp only [splitNL] at hl
    split at hl
    · rcases List.mem_cons.1 hl with h | h
      · simp [h, noNL]
      · exact ih l h
    · rename_i hc
      cases hsp : splitNL t with
      | nil => exact absurd hsp (splitNL_ne_nil t)
      | cons l0 ls0 =>
        rw [hsp] at hl
        rcases List.mem_cons.1 hl with h | h
        · subst h
          have h0 : noNL l0 = true := ih l0 (by rw [hsp]; exact List.mem_cons_self _ _)
          simp only [noNL, List.all_cons, Bool.and_eq_true, decide_eq_true_eq]
          exact ⟨hc, h0⟩
        · exact ih l (by rw [hsp]; exact List.mem_cons_of_mem _ h)

/-- A newline-free string splits into itself. -/
theorem splitNL_noNL : ∀ s : Str, noNL s = true → splitNL s = [s] := by
  intro s
  induction s with
  | nil => intro _; rfl
  | cons c t ih =>
    intro h
    simp only [noNL, List.all_cons, Bool.and_eq_true, decide_eq_true_eq] at h
    have ht : splitNL t = [t] := ih h.2
    simp only [splitNL, ht]
    rw [if_neg h.1]

/-- `splitNL` distributes over a newline separator. -/
theorem splitNL_append_cons :
    ∀ (a b : Str), splitNL (a ++ '\n' :: b) = splitNL a ++ splitNL b := by
  intro a b
  induction a with
  | nil => simp [splitNL]
  | cons c t ih =>
    by_cases hc : c = '\n'
    · subst hc
      simp [splitNL, ih]
    · cases hsp : splitNL t with
      | nil => exact absurd hsp (splitNL_ne_nil t)
      | cons l ls =>
        simp only [List.cons_append, splitNL, if_neg hc, List.append_eq]
        rw [ih, hsp]
        simp

/-- Splitting the join of newline-free lines recovers the lines. -/
theorem splitNL_joinNL :
    ∀ L : List Str, (∀ l ∈ L, noNL l = true) → L ≠ [] → splitNL (joinNL L) = L := by
  intro L
  induction L with
  | nil => intro _ h; exact absurd rfl h
  | cons l ls ih =>
    intro hall _
    cases ls with
    | nil => exact splitNL_noNL l (hall l (List.mem_cons_self _ _))
    | cons l2 ls2 =>
      have h1 : joinNL (l :: l2 :: ls2) = l ++ '\n' :: joinNL (l2 :: ls2) := by
        simp [joinNL, joinSep]
      rw [h1, splitNL_append_cons, splitNL_noNL l (hall l (List.mem_cons_self _ _))]
      rw [ih (fun x hx => hall x (List.mem_cons_of_mem _ hx)) (by simp)]
      rfl

/-- `pyRStrip` yields a prefix of its input. -/
theorem pyRStrip_prefix_self (l : Str) : pyRStrip l <+: l := by
  have h := List.dropWhile_suffix (l := l.reverse) isWs
  have h2 := List.reverse_prefix.2 h
  simpa [pyRStrip] using h2

/-- The head survives `pyRStrip` or the result is empty. -/
theorem head?_pyRStrip (l : Str) :
    (pyRStrip l).head? = none ∨ (pyRStrip l).head? = l.head? := by
  cases hr : pyRStrip l with
  | nil => exact Or.inl rfl
  | cons c t =>
    right
    have hp : pyRStrip l <+: l := pyRStrip_prefix_self l
    rw [hr] at hp
    obtain ⟨r, hr2⟩ := hp
    rw [← hr2]
    rfl

/-- The last character of a `pyRStrip` result is not whitespace. -/
theorem getLast?_pyRStrip_not_ws (l : Str) (c : Char)
    (h : (pyRStrip l).getLast? = some c) : isWs c = false := by
  rw [← List.head?_reverse] at h
  simp only [pyRStrip, List.reverse_reverse] at h
  cases hd : l.reverse.dropWhile isWs with
  | nil => rw [hd] at h; cases h
  | cons c2 t =>
    rw [hd] at h
    injection h with h2
    subst h2
    exact dropWhile_head_false hd

/-- The head of a `pyLStrip` result is not whitespace. -/
theorem head?_pyLStrip_not_ws (l : Str) (c : Char)
    (h : (pyLStrip l).head? = some c) : isWs c = false := by
  cases hd : pyLStrip l with
  | nil => rw [hd] at h; cases h
  | cons c2 t =>
    rw [hd] at h
    injection h with h2
    subst h2
    exact dropWhile_head_false hd

/-- A strip result has clean edges. -/
theorem edgeClean_pyStrip (s : Str) : edgeClean (pyStrip s) = true := by
  unfold edgeClean
  rw [Bool.and_eq_true]
  constructor
  · cases hh : (pyStrip s).head? with
    | none => rfl
    | some c =>
      unfold pyStrip at hh
      rcases head?_pyRStrip (pyLStrip s) with h | h
      · rw [hh] at h; cases h
      · rw [hh] at h
        simp [head?_pyLStrip_not_ws s c h.symm]
  · cases hh : (pyStrip s).getLast? with
    | none => rfl
    | some c => simp [getLast?_pyRStrip_not_ws (pyLStrip s) c hh]

/-- A string with clean edges is unchanged by `pyLStrip`. -/
theorem pyLStrip_eq_self (s : Str)
    (h : ∀ c, s.head? = some c → isWs c = false) : pyLStrip s = s := by
  cases s with
  | nil => rfl
  | cons c t =>
    unfold pyLStrip
    rw [List.dropWhile_cons_of_neg]
    simp [h c rfl]

/-- A string with clean edges is unchanged by `pyRStrip`. -/
theorem pyRStrip_eq_self (s : Str)
    (h : ∀ c, s.getLast? = some c → isWs c = false) : pyRStrip s = s := by
  unfold pyRStrip
  cases hr : s.reverse with
  | nil =>
    have : s = [] := by simpa using congrArg List.reverse hr
    simp [this]
  | cons c t =>
    rw [List.dropWhile_cons_of_neg]
    · rw [← hr, List.reverse_reverse]
    · have : s.getLast? = some c := by rw [← List.head?_reverse, hr]; rfl
      simp [h c this]

/-- A string with clean edges strips to itself. -/
theorem pyStrip_eq_self (s : Str) (h : edgeClean s = true) : pyStrip s = s := by
  simp only [edgeClean, Bool.and_eq_true] at h
  have h1 : pyLStrip s = s := by
    apply pyLStrip_eq_self
    intro c hc
    rcases h with ⟨hh, _⟩
    rw [hc] at hh
    simpa using hh
  unfold pyStrip
  rw [h1]
  apply pyRStrip_eq_self
  intro c hc
  rcases h with ⟨_, hl⟩
  rw [hc] at hl
  simpa using hl

/-- Membership-based transfer of the no-newline property. -/
theorem noNL_subset {t s : Str} (h : ∀ c, c ∈ t → c ∈ s) (hs : noNL s = true) :
    noNL t = true := by
  simp only [noNL, List.all_eq_true, decide_eq_true_eq] at *
  exact fun c hc => hs c (h c hc)

/-- `pyStrip` keeps characters of the input. -/
theorem mem_pyStrip {c : Char} {s : Str} (h : c ∈ pyStrip s) : c ∈ s := by
  unfold pyStrip pyLStrip at h
  have h1 := (pyRStrip_prefix_self (s.dropWhile isWs)).subset h
  exact mem_of_mem_dropWhile h1

/-- Stripping from the right with only whitespace appended. -/
theorem pyRStrip_append_ws (x w : Str) (h : ∀ c ∈ w, isWs c = true) :
    pyRStrip (x ++ w) = pyRStrip x := by
  unfold pyRStrip
  rw [List.reverse_append, List.dropWhile_append]
  have hw : w.reverse.dropWhile isWs = [] :=
    List.dropWhile_eq_nil_iff.2 (fun a ha => h a (List.mem_reverse.1 ha))
  simp [hw]

/-- An all-whitespace string right-strips to nothing. -/
theorem pyRStrip_all_ws (y : Str) (h : ∀ c ∈ y, isWs c = true) : pyRStrip y = [] := by
  unfold pyRStrip
  have hw : y.reverse.dropWhile isWs = [] :=
    List.dropWhile_eq_nil_iff.2 (fun a ha => h a (List.mem_reverse.1 ha))
  simp [hw]

/-- `startsW` is the prefix relation. -/
theorem startsW_prefix_iff : ∀ p s : Str, startsW p s = true ↔ p <+: s := by
  intro p
  induction p with
  | nil => intro s; simp [startsW]
  | cons a as ih =>
    intro s
    cases s with
    | nil => simp [startsW]
    | cons b bs =>
      simp only [startsW, Bool.and_eq_true, decide_eq_true_eq, ih, List.cons_prefix_cons]

/-- `hasSub` is the infix relation. -/
theorem hasSub_infix_iff : ∀ (p s : Str), hasSub p s = true ↔ p <:+: s := by
  intro p s
  induction s with
  | nil =>
    simp [hasSub, startsW_prefix_iff]
  | cons b bs ih =>
    rw [show hasSub p (b :: bs) = (startsW p (b :: bs) || hasSub p bs) from rfl]
    simp [startsW_prefix_iff, ih, List.infix_cons_iff]

/-- Minimality of `findSub`: a hit at the index, no hit before. -/
theorem findSub_some_min (p : Str) :
    ∀ (s : Str) (i : Nat), findSub p s = some i →
      startsW p (s.drop i) = true ∧ ∀ j < i, startsW p (s.drop j) = false := by
  intro s
  induction s with
  | nil =>
    intro i h
    unfold findSub at h
    split at h
    · injection h with h2
      subst h2
      constructor
      · assumption
      · intro j hj; cases hj
    · cases h
  | cons b bs ih =>
    intro i h
    rw [show findSub p (b :: bs) =
      (if startsW p (b :: bs) then some 0 else (findSub p bs).map (· + 1)) from rfl] at h
    split at h
    · injection h with h2
      subst h2
      constructor
      · assumption
      · intro j hj; cases hj
    · rename_i hns
      cases hf : findSub p bs with
      | none => rw [hf] at h; cases h
      | some i0 =>
        rw [hf] at h
        have h2 : i = i0 + 1 := by simpa using h.symm
        subst h2
        obtain ⟨h1, h2⟩ := ih i0 hf
        constructor
        · simpa using h1
        · intro j hj
          cases j with
          | zero => simpa using hns
          | succ j0 =>
            have : j0 < i0 := by omega
            simpa using h2 j0 this

/-- An infix occurs at some drop offset. -/
theorem infix_imp_exists_drop {t s : Str} (h : t <:+: s) : ∃ j, t <+: s.drop j := by
  obtain ⟨a, b, hab⟩ := h
  refine ⟨a.length, ?_⟩
  rw [← hab, List.append_assoc, List.drop_left]
  exact ⟨b, rfl⟩

/-- No occurrence of the pattern strictly before the first hit. -/
theorem hasSub_take_false (p z : Str) (k : Nat) (hp : p ≠ [])
    (hfind : findSub p z = some k) : hasSub p (z.take k) = false := by
  by_contra hcon
  rw [Bool.not_eq_false, hasSub_infix_iff] at hcon
  obtain ⟨j, hj⟩ := infix_imp_exists_drop hcon
  by_cases hjk : j < k
  · have h2 := (findSub_some_min p z k hfind).2 j hjk
    rw [List.drop_take] at hj
    have h3 : p <+: z.drop j := hj.trans (List.take_prefix _ _)
    rw [(startsW_prefix_iff p (z.drop j)).2 h3] at h2
    cases h2
  · have : (z.take k).drop j = [] := by
      apply List.drop_eq_nil_of_le
      have := List.length_take_le k z
      omega
    rw [this] at hj
    cases p with
    | nil => exact hp rfl
    | cons c cs => simp at hj

/-- `rstripColon` yields a prefix of its input. -/
theorem rstripColon_prefix_self (l : Str) : rstripColon l <+: l := by
  have h := List.dropWhile_suffix (l := l.reverse) (p := fun c => decide (c = ':'))
  have h2 := List.reverse_prefix.2 h
  simpa [rstripColon] using h2

/-- A string not ending in a colon is unchanged by `rstripColon`. -/
theorem rstripColon_eq_self (s : Str) (h : lastIs s ':' = false) : rstripColon s = s := by
  unfold rstripColon
  cases hr : s.reverse with
  | nil =>
    have hs : s = [] := by simpa using congrArg List.reverse hr
    simp [hs]
  | cons c t =>
    rw [List.dropWhile_cons_of_neg]
    · rw [← hr, List.reverse_reverse]
    · have hl : s.getLast? = some c := by rw [← List.head?_reverse, hr]; rfl
      simp only [lastIs, hl] at h
      simpa using h

/-- Dropping the trailing colon appended to a string not ending in one. -/
theorem rstripColon_append_colon (n : Str) (h : lastIs n ':' = false) :
    rstripColon (n ++ [':']) = n := by
  unfold rstripColon
  rw [List.reverse_append]
  simp only [List.reverse_cons, List.reverse_nil, List.nil_append, List.singleton_append]
  rw [List.dropWhile_cons_of_pos (by simp)]
  cases hr : n.reverse with
  | nil =>
    have hn : n = [] := by simpa using congrArg List.reverse hr
    simp [hn]
  | cons c t =>
    rw [List.dropWhile_cons_of_neg]
    · rw [← hr, List.reverse_reverse]
    · have hl : n.getLast? = some c := by rw [← List.head?_reverse, hr]; rfl
      simp only [lastIs, hl] at h
      simpa using h

/-- `pyRStrip` of an extension extends `pyRStrip`. -/
theorem pyRStrip_prefix_append (y w : Str) : pyRStrip y <+: pyRStrip (y ++ w) := by
  unfold pyRStrip
  rw [List.reverse_append, List.dropWhile_append]
  by_cases hW : (w.reverse.dropWhile isWs).isEmpty
  · rw [if_pos hW]
  · rw [if_neg hW, List.reverse_append, List.reverse_reverse]
    exact (pyRStrip_prefix_self y).trans (List.prefix_append _ _)

/-- A prefix strips to a prefix. -/
theorem pyStrip_prefix_mono {l p : Str} (h : l <+: p) : pyStrip l <+: pyStrip p := by
  obtain ⟨w, hw⟩ := h
  cases hls : pyLStrip l with
  | nil => simp [pyStrip, hls, pyRStrip]
  | cons c cs =>
    have hp : pyLStrip p = (c :: cs) ++ w := by
      rw [← hw]
      unfold pyLStrip at hls ⊢
      rw [List.dropWhile_append, hls]
      simp
    unfold pyStrip
    rw [hls, hp]
    exact pyRStrip_prefix_append _ _

/-- Splitting after appending one non-newline character extends the last
line. -/
theorem splitNL_snoc (c : Char) (hc : ¬c = '\n') :
    ∀ z : Str, ∃ Ls L, splitNL z = Ls ++ [L] ∧ splitNL (z ++ [c]) = Ls ++ [L ++ [c]] := by
  intro z
  induction z with
  | nil =>
    refine ⟨[], [], rfl, ?_⟩
    simp [splitNL, hc]
  | cons d t ih =>
    obtain ⟨Ls, L, h1, h2⟩ := ih
    by_cases hd : d = '\n'
    · subst hd
      refine ⟨[] :: Ls, L, ?_, ?_⟩
      · simp [splitNL, h1]
      · simp [splitNL, h2]
    · cases Ls with
      | nil =>
        refine ⟨[], d :: L, ?_, ?_⟩
        · simp [splitNL, hd, h1]
        · simp [splitNL, hd, h2]
      | cons M Ms =>
        refine ⟨(d :: M) :: Ms, L, ?_, ?_⟩
        · simp [splitNL, hd, h1]
        · simp [splitNL, hd, h2]

/-- `parseStep` is a function of the stripped line. -/
theorem parseStep_congr (st : PState) (l1 l2 : Str) (h : pyStrip l1 = pyStrip l2) :
    parseStep st l1 = parseStep st l2 := by
  simp only [parseStep, h]

/-- A line that strips to nothing leaves the parser state unchanged. -/
theorem parseStep_blank (st : PState) (l : Str) (h : pyStrip l = []) :
    parseStep st l = st := by
  have h1 : startsW (lit "## ") ([] : Str) = false := by decide
  have h2 : startsW (lit "### ") ([] : Str) = false := by decide
  have h3 : startsW (lit "- **") ([] : Str) = false := by decide
  simp only [parseStep, h, h1, h2, h3, Bool.false_and, Bool.and_false]
  simp

/-- Folding the parser over an append splits. -/
theorem parseLinesFrom_append (st : PState) (a b : List Str) :
    parseLinesFrom st (a ++ b) = parseLinesFrom (parseLinesFrom st a) b := by
  simp [parseLinesFrom, List.foldl_append]

/-- Blank lines may be dropped before parsing. -/
theorem parse_filter_blank :
    ∀ (ls : List Str) (st : PState),
      parseLinesFrom st (ls.filter (fun l => !(pyStrip l).isEmpty)) = parseLinesFrom st ls := by
  intro ls
  induction ls with
  | nil => intro st; rfl
  | cons l t ih =>
    intro st
    by_cases hb : (pyStrip l).isEmpty = true
    · rw [List.filter_cons_of_neg (by simpa using hb)]
      have hst : parseStep st l = st := parseStep_blank st l (by simpa [List.isEmpty_iff] using hb)
      simp only [parseLinesFrom, List.foldl_cons, hst]
      exact ih st
    · rw [List.filter_cons_of_pos (by simpa using hb)]
      simp only [parseLinesFrom, List.foldl_cons]
      exact ih _

/-- Characters of a split line come from the string. -/
theorem mem_splitNL_char :
    ∀ (s l : Str), l ∈ splitNL s → ∀ c ∈ l, c ∈ s := by
  intro s
  induction s with
  | nil =>
    intro l hl c hc
    simp [splitNL] at hl
    subst hl
    cases hc
  | cons d t ih =>
    intro l hl c hc
    simp only [splitNL] at hl
    split at hl
    · rcases List.mem_cons.1 hl with h | h
      · subst h; cases hc
      · exact List.mem_cons_of_mem _ (ih l h c hc)
    · cases hsp : splitNL t with
      | nil => exact absurd hsp (splitNL_ne_nil t)
      | cons l0 ls0 =>
        rw [hsp] at hl
        rcases List.mem_cons.1 hl with h | h
        · subst h
          rcases List.mem_cons.1 hc with h2 | h2
          · subst h2; exact List.mem_cons_self _ _
          · exact List.mem_cons_of_mem _
              (ih l0 (by rw [hsp]; exact List.mem_cons_self _ _) c h2)
        · exact List.mem_cons_of_mem _
            (ih l (by rw [hsp]; exact List.mem_cons_of_mem _ h) c hc)

/-- Decomposition of a string into its right-strip and trailing
whitespace. -/
theorem exists_pyRStrip_append (x : Str) :
    ∃ w, x = pyRStrip x ++ w ∧ ∀ c ∈ w, isWs c = true := by
  refine ⟨(x.reverse.takeWhile isWs).reverse, ?_, ?_⟩
  · unfold pyRStrip
    rw [← List.reverse_append, List.takeWhile_append_dropWhile, List.reverse_reverse]
  · intro c hc
    exact List.mem_takeWhile_imp (List.mem_reverse.1 hc)

/-- Stripping ignores appended whitespace. -/
theorem pyStrip_append_ws (x w : Str) (h : ∀ c ∈ w, isWs c = true) :
    pyStrip (x ++ w) = pyStrip x := by
  unfold pyStrip pyLStrip
  rw [List.dropWhile_append]
  by_cases hx : (x.dropWhile isWs).isEmpty
  · rw [if_pos hx]
    have h1 : List.dropWhile isWs w = [] := List.dropWhile_eq_nil_iff.2 h
    have hx2 : x.dropWhile isWs = [] := by simpa [List.isEmpty_iff] using hx
    rw [h1, hx2]
  · rw [if_neg hx]
    exact pyRStrip_append_ws _ _ h

/-- Appending whitespace does not change how the lines parse. -/
theorem parse_splitNL_append_ws :
    ∀ (w : Str), (∀ c ∈ w, isWs c = true) →
      ∀ (y : Str) (st : PState),
        parseLinesFrom st (splitNL (y ++ w)) = parseLinesFrom st (splitNL y) := by
  intro w
  induction w using List.reverseRecOn with
  | nil => intro _ y st; simp
  | append_singleton w0 c ih =>
    intro hws y st
    have hc : isWs c = true := hws c (by simp)
    have hw0 : ∀ c2 ∈ w0, isWs c2 = true := fun c2 h2 => hws c2 (by simp [h2])
    rw [show y ++ (w0 ++ [c]) = (y ++ w0) ++ [c] by simp]
    by_cases hnl : c = '\n'
    · subst hnl
      rw [show (y ++ w0) ++ ['\n'] = (y ++ w0) ++ '\n' :: [] from rfl, splitNL_append_cons]
      rw [parseLinesFrom_append]
      rw [show parseLinesFrom (parseLinesFrom st (splitNL (y ++ w0))) (splitNL []) =
        parseStep (parseLinesFrom st (splitNL (y ++ w0))) [] from rfl]
      rw [parseStep_blank _ [] (by decide)]
      exact ih hw0 y st
    · obtain ⟨Ls, L, h1, h2⟩ := splitNL_snoc c hnl (y ++ w0)
      rw [h2]
      have h3 : parseStep (parseLinesFrom st Ls) (L ++ [c]) =
          parseStep (parseLinesFrom st Ls) L := by
        apply parseStep_congr
        apply pyStrip_append_ws
        intro c2 hc2
        simp only [List.mem_singleton] at hc2
        subst hc2
        exact hc
      calc parseLinesFrom st (Ls ++ [L ++ [c]])
          = parseStep (parseLinesFrom st Ls) (L ++ [c]) := by rw [parseLinesFrom_append]; rfl
        _ = parseStep (parseLinesFrom st Ls) L := h3
        _ = parseLinesFrom st (Ls ++ [L]) := by rw [parseLinesFrom_append]; rfl
        _ = parseLinesFrom st (splitNL (y ++ w0)) := by rw [← h1]
        _ = parseLinesFrom st (splitNL y) := ih hw0 y st

/-- Right-stripping the content does not change how it parses. -/
theorem parse_splitNL_pyRStrip (x : Str) (st : PState) :
    parseLinesFrom st (splitNL (pyRStrip x)) = parseLinesFrom st (splitNL x) := by
  obtain ⟨w, hx, hw⟩ := exists_pyRStrip_append x
  conv_rhs => rw [hx]
  exact (parse_splitNL_append_ws w hw (pyRStrip x) st).symm

/-- Parsing the blank-joined parts is parsing the parts as lines. -/
theorem parse_splitNL_joinSep :
    ∀ (parts : List Str), parts ≠ [] → (∀ p ∈ parts, noNL p = true) →
      ∀ st : PState,
        parseLinesFrom st (splitNL (joinSep (lit "\n\n") parts)) = parseLinesFrom st parts := by
  intro parts
  induction parts with
  | nil => intro h; exact absurd rfl h
  | cons p ps ih =>
    intro _ hall st
    cases ps with
    | nil =>
      rw [show joinSep (lit "\n\n") [p] = p from rfl]
      rw [splitNL_noNL p (hall p (by simp))]
    | cons q rest =>
      have hsep : lit "\n\n" = '\n' :: '\n' :: [] := by decide
      have hjoin : joinSep (lit "\n\n") (p :: q :: rest) =
          p ++ '\n' :: ('\n' :: joinSep (lit "\n\n") (q :: rest)) := by
        show (p ++ lit "\n\n") ++ joinSep (lit "\n\n") (q :: rest) = _
        rw [hsep]
        simp
      rw [hjoin, splitNL_append_cons]
      rw [show splitNL ('\n' :: joinSep (lit "\n\n") (q :: rest)) =
        [] :: splitNL (joinSep (lit "\n\n") (q :: rest)) from by simp [splitNL]]
      rw [splitNL_noNL p (hall p (by simp))]
      rw [parseLinesFrom_append]
      rw [show parseLinesFrom st [p] = parseStep st p from rfl]
      rw [show ∀ (st2 : PState) (ls2 : List Str),
        parseLinesFrom st2 ([] :: ls2) = parseLinesFrom (parseStep st2 []) ls2 from
        fun _ _ => rfl]
      rw [parseStep_blank _ [] (by decide)]
      rw [ih (by simp) (fun x hx => hall x (by simp [hx])) (parseStep st p)]
      rfl

/-- Parsing the generated content is parsing its parts. -/
theorem parse_generateContent (d : Str) (dc : DateChanges) (st : PState)
    (hne : generateParts d dc ≠ [])
    (hnl : ∀ p ∈ generateParts d dc, noNL p = true) :
    parseLinesFrom st (splitNL (generateContent d dc)) =
      parseLinesFrom st (generateParts d dc) := by
  unfold generateContent
  rw [parse_splitNL_pyRStrip]
  exact parse_splitNL_joinSep _ hne hnl st

/-- Head mismatch refutes a prefix test. -/
theorem startsW_head_false (a : Char) (as : Str) (c : Char) (cs : Str) (h : ¬a = c) :
    startsW (a :: as) (c :: cs) = false := by
  simp [startsW, h]

/-- A prefix test on an extension of the pattern succeeds. -/
theorem startsW_append_self (p r : Str) : startsW p (p ++ r) = true :=
  (startsW_prefix_iff p (p ++ r)).2 (List.prefix_append p r)

/-- `hasSub` is monotone under the infix relation. -/
theorem hasSub_of_infix {t s : Str} (p : Str) (h : t <:+: s) (h2 : hasSub p t = true) :
    hasSub p s = true := by
  rw [hasSub_infix_iff] at h2 ⊢
  exact h2.trans h

/-- `pyStrip` yields an infix. -/
theorem pyStrip_infix_self (s : Str) : pyStrip s <:+: s := by
  unfold pyStrip pyLStrip
  exact (pyRStrip_prefix_self _).isInfix.trans (List.dropWhile_suffix isWs).isInfix

/-- The bold marker occurs right after a marker-free chunk. -/
theorem hasSub_marker (m r : Str) : hasSub (lit "**") (m ++ '*' :: '*' :: r) = true := by
  rw [hasSub_infix_iff]
  exact ⟨m, r, by rw [show lit "**" = ['*', '*'] from by decide]; simp⟩

/-- A string containing the bold marker has a positive marker count. -/
theorem countSS_pos_of_hasSub :
    ∀ s : Str, hasSub (lit "**") s = true → 1 ≤ countSS s := by
  have hlit : lit "**" = ['*', '*'] := by decide
  intro s
  induction s with
  | nil => intro h; rw [show hasSub (lit "**") [] = false from by decide] at h; cases h
  | cons c1 t ih =>
    intro h
    cases t with
    | nil =>
      rw [hlit] at h
      simp [hasSub, startsW] at h
    | cons c2 t2 =>
      by_cases h1 : c1 = '*'
      · by_cases h2 : c2 = '*'
        · subst h1; subst h2
          rw [show countSS ('*' :: '*' :: t2) = countSS t2 + 1 from by simp [countSS]]
          omega
        · subst h1
          have h2' : ¬('*' = c2) := fun he => h2 he.symm
          have hc : countSS ('*' :: c2 :: t2) = countSS (c2 :: t2) := by
            simp [countSS, h2]
          rw [hc]
          apply ih
          rw [hlit] at h ⊢
          simpa [hasSub, startsW, h2'] using h
      · have h1' : ¬('*' = c1) := fun he => h1 he.symm
        have hc : countSS (c1 :: c2 :: t2) = countSS (c2 :: t2) := by
          simp [countSS, h1]
        rw [hc]
        apply ih
        rw [hlit] at h ⊢
        simpa [hasSub, startsW, h1'] using h

/-- Position of the closing marker after a marker-free chunk. -/
theorem findSub_marker :
    ∀ (m : Str), hasSub (lit "**") m = false → lastIs m '*' = false →
      ∀ r : Str, findSub (lit "**") (m ++ '*' :: '*' :: r) = some m.length := by
  have hlit : lit "**" = ['*', '*'] := by decide
  intro m
  induction m with
  | nil =>
    intro _ _ r
    simp only [List.nil_append, List.length_nil]
    rw [hlit]
    simp [findSub, startsW]
  | cons a as ih =>
    intro hsub hlast r
    have hsub2 : hasSub (lit "**") as = false := by
      rw [show hasSub (lit "**") (a :: as) =
        (startsW (lit "**") (a :: as) || hasSub (lit "**") as) from rfl] at hsub
      exact (Bool.or_eq_false_iff.1 hsub).2
    have hns : startsW (lit "**") ((a :: as) ++ '*' :: '*' :: r) = false := by
      rw [hlit]
      cases as with
      | nil =>
        have ha : ¬('*' = a) := by
          intro he
          rw [show lastIs [a] '*' = decide (a = '*') from by simp [lastIs]] at hlast
          rw [← he] at hlast
          simp at hlast
        simp [startsW, ha]
      | cons b bs =>
        by_cases hab : '*' = a ∧ '*' = b
        · exfalso
          obtain ⟨ha, hb⟩ := hab
          rw [hlit] at hsub
          rw [← ha, ← hb] at hsub
          simp [hasSub, startsW] at hsub
        · rw [show ((a :: b :: bs) ++ '*' :: '*' :: r) =
            a :: b :: (bs ++ '*' :: '*' :: r) from rfl]
          rcases not_and_or.1 hab with h | h
          · simp [startsW, h]
          · simp [startsW, h]
    rw [show ((a :: as) ++ '*' :: '*' :: r) = a :: (as ++ '*' :: '*' :: r) from rfl]
    rw [show findSub (lit "**") (a :: (as ++ '*' :: '*' :: r)) =
      (if startsW (lit "**") (a :: (as ++ '*' :: '*' :: r)) = true then some 0
       else (findSub (lit "**") (as ++ '*' :: '*' :: r)).map (· + 1)) from rfl]
    rw [show (a :: (as ++ '*' :: '*' :: r)) = ((a :: as) ++ '*' :: '*' :: r) from rfl, hns]
    rw [if_neg (by simp)]
    have hlast2 : lastIs as '*' = false := by
      cases as with
      | nil => rfl
      | cons b bs => simpa [lastIs, List.getLast?_cons_cons] using hlast
    rw [ih hsub2 hlast2 r]
    simp

/-- `noNL` distributes over append. -/
theorem noNL_append (a b : Str) : noNL (a ++ b) = (noNL a && noNL b) := by
  simp [noNL, List.all_append]

/-- Decimal rendering with fuel is never empty. -/
theorem natToStrFuel_ne_nil : ∀ (f n : Nat), natToStrFuel (f + 1) n ≠ [] := by
  intro f
  induction f with
  | zero =>
    intro n
    rw [show natToStrFuel 1 n = if n < 10 then [digitChar n]
      else natToStrFuel 0 (n / 10) ++ [digitChar (n % 10)] from rfl]
    split <;> simp [natToStrFuel]
  | succ f0 ih =>
    intro n
    rw [show natToStrFuel (f0 + 1 + 1) n = if n < 10 then [digitChar n]
      else natToStrFuel (f0 + 1) (n / 10) ++ [digitChar (n % 10)] from rfl]
    split <;> simp

/-- The first character of a decimal rendering is a digit. -/
theorem natToStrFuel_head :
    ∀ (f n : Nat), ∃ i, i < 10 ∧ (natToStrFuel (f + 1) n).head? = some (digitChar i) := by
  intro f
  induction f with
  | zero =>
    intro n
    by_cases h : n < 10
    · exact ⟨n, h, by simp [natToStrFuel, h]⟩
    · refine ⟨n % 10, Nat.mod_lt _ (by omega), ?_⟩
      simp [natToStrFuel, h]
  | succ f0 ih =>
    intro n
    by_cases h : n < 10
    · refine ⟨n, h, ?_⟩
      rw [show natToStrFuel (f0 + 1 + 1) n = if n < 10 then [digitChar n]
        else natToStrFuel (f0 + 1) (n / 10) ++ [digitChar (n % 10)] from rfl, if_pos h]
      rfl
    · obtain ⟨i, hi, hhead⟩ := ih (n / 10)
      refine ⟨i, hi, ?_⟩
      rw [show natToStrFuel (f0 + 1 + 1) n = if n < 10 then [digitChar n]
        else natToStrFuel (f0 + 1) (n / 10) ++ [digitChar (n % 10)] from rfl, if_neg h]
      cases hx : natToStrFuel (f0 + 1) (n / 10) with
      | nil => exact absurd hx (natToStrFuel_ne_nil _ _)
      | cons x xs =>
        rw [hx] at hhead
        simpa using hhead

/-- Digits are not whitespace. -/
theorem digitChar_not_ws (i : Nat) (h : i < 10) : isWs (digitChar i) = false := by
  interval_cases i <;> decide

/-- Digits are not the hash character. -/
theorem digitChar_ne_hash (i : Nat) (h : i < 10) : (digitChar i = '#') = false := by
  interval_cases i <;> decide

/-- Digits are not the dash character. -/
theorem digitChar_ne_dash (i : Nat) (h : i < 10) : (digitChar i = '-') = false := by
  interval_cases i <;> decide

/-- Digits are not newlines. -/
theorem digitChar_ne_nl (i : Nat) (h : i < 10) : (digitChar i = '\n') = false := by
  interval_cases i <;> decide

/-- Decimal renderings contain no newline. -/
theorem natToStrFuel_noNL : ∀ (f n : Nat), noNL (natToStrFuel f n) = true := by
  intro f
  induction f with
  | zero => intro n; rfl
  | succ f0 ih =>
    intro n
    rw [show natToStrFuel (f0 + 1) n = if n < 10 then [digitChar n]
      else natToStrFuel f0 (n / 10) ++ [digitChar (n % 10)] from rfl]
    split
    · rename_i h
      have := digitChar_ne_nl n h
      simp only [noNL, List.all_cons, List.all_nil, Bool.and_true, decide_eq_true_eq]
      intro he
      rw [he] at this
      simp at this
    · rw [noNL_append, ih]
      have := digitChar_ne_nl (n % 10) (Nat.mod_lt _ (by omega))
      simp only [noNL, List.all_cons, List.all_nil, Bool.and_true, decide_eq_true_eq,
        Bool.true_and]
      intro he
      rw [he] at this
      simp at this

/-- A line whose stripped head is neither a hash nor a dash leaves the
parser state unchanged. -/
theorem parseStep_inert (st : PState) (l : Str)
    (h : ∀ c, (pyStrip l).head? = some c → ((c = '#') = false ∧ (c = '-') = false)) :
    parseStep st l = st := by
  cases hps : pyStrip l with
  | nil => exact parseStep_blank st l hps
  | cons c cs =>
    obtain ⟨h1, h2⟩ := h c (by rw [hps]; rfl)
    have hh : ¬('#' = c) := fun he => by rw [← he] at h1; simp at h1
    have hd : ¬('-' = c) := fun he => by rw [← he] at h2; simp at h2
    have hs1 : startsW (lit "## ") (c :: cs) = false := by
      rw [show lit "## " = '#' :: lit "# " from by decide]
      exact startsW_head_false _ _ _ _ hh
    have hs2 : startsW (lit "### ") (c :: cs) = false := by
      rw [show lit "### " = '#' :: lit "## " from by decide]
      exact startsW_head_false _ _ _ _ hh
    have hs3 : startsW (lit "- **") (c :: cs) = false := by
      rw [show lit "- **" = '-' :: lit " **" from by decide]
      exact startsW_head_false _ _ _ _ hd
    simp only [parseStep, hps, hs1, hs2, hs3, Bool.false_and]
    simp

/-- A well-formed date header sets the parser's current date. -/
theorem parseStep_dateHeader (st : PState) (d : Str) (hd : goodDate d = true) :
    parseStep st (lit "## " ++ d) = { st with curDate := some d } := by
  have hcomp : d.isEmpty = false ∧ noNL d = true ∧ edgeClean d = true ∧
      startsW (lit "#") d = false := by
    simp only [goodDate, Bool.and_eq_true, Bool.not_eq_true'] at hd
    tauto
  obtain ⟨hne, hnl, hec, hsh⟩ := hcomp
  have hdn : d ≠ [] := by
    intro he
    rw [he] at hne
    simp at hne
  have hec2 : edgeClean (lit "## " ++ d) = true := by
    unfold edgeClean at hec ⊢
    rw [Bool.and_eq_true] at hec ⊢
    constructor
    · rw [show (lit "## " ++ d).head? = some '#' from by
        rw [show lit "## " = '#' :: lit "# " from by decide]; rfl]
      decide
    · rw [List.getLast?_append_of_ne_nil _ hdn]
      exact hec.2
  have hps : pyStrip (lit "## " ++ d) = lit "## " ++ d := pyStrip_eq_self _ hec2
  have hcond1 : startsW (lit "## ") (lit "## " ++ d) = true := startsW_append_self _ _
  have hlen : 3 < (lit "## " ++ d).length := by
    rw [List.length_append, show (lit "## ").length = 3 from by decide]
    have : 0 < d.length := List.length_pos.2 hdn
    omega
  have hdrop : (lit "## " ++ d).drop 3 = d := by
    rw [show lit "## " ++ d = '#' :: '#' :: ' ' :: d from by
      rw [show lit "## " = ['#', '#', ' '] from by decide]; rfl]
    rfl
  simp only [parseStep, hps]
  rw [if_pos (by rw [hcond1]; simp only [Bool.true_and, decide_eq_true_eq]; exact hlen)]
  rw [hdrop, pyStrip_eq_self d hec]
  rw [if_pos (by simp [hne, hsh])]

/-- The added-section header selects the added section. -/
theorem parseStep_sectAdded (st : PState) :
    parseStep st (lit "### New Substances Added") =
      { st with curSect := some CType.added } := by
  have h0 : pyStrip (lit "### New Substances Added") = lit "### New Substances Added" := by
    decide
  simp only [parseStep, h0]
  rw [if_neg (by decide), if_pos (by decide), if_pos (by decide)]

/-- The modified-section header selects the updated section. -/
theorem parseStep_sectUpdated (st : PState) :
    parseStep st (lit "### Substances Modified") =
      { st with curSect := some CType.updated } := by
  have h0 : pyStrip (lit "### Substances Modified") = lit "### Substances Modified" := by
    decide
  simp only [parseStep, h0]
  rw [if_neg (by decide), if_pos (by decide), if_neg (by decide), if_pos (by decide)]

/-- The removed-section header selects the removed section. -/
theorem parseStep_sectRemoved (st : PState) :
    parseStep st (lit "### Substances Removed") =
      { st with curSect := some CType.removed } := by
  have h0 : pyStrip (lit "### Substances Removed") = lit "### Substances Removed" := by
    decide
  simp only [parseStep, h0]
  rw [if_neg (by decide), if_pos (by decide), if_neg (by decide), if_neg (by decide),
    if_pos (by decide)]

/-- The bullet branch of the parser on a line of the rendered shape:
the chunk between the first two bold markers, stripped and colon-cleaned,
is recorded under the current date and section. -/
theorem parseStep_bullet (st : PState) (d m : Str) (t : CType) (line r : Str)
    (hd : st.curDate = some d) (hdne : d.isEmpty = false) (hs : st.curSect = some t)
    (hline : pyStrip line = lit "- **" ++ (m ++ '*' :: '*' :: r))
    (hm : hasSub (lit "**") m = false) (hlast : lastIs m '*' = false)
    (hmne : m ≠ [])
    (hname : pyStrip (rstripColon (pyStrip m)) ≠ []) :
    parseStep st line = { st with
      acc := addSub st.acc d t (pyStrip (rstripColon (pyStrip m))) } := by
  have hlen0 : 0 < m.length := List.length_pos.2 hmne
  have hSapp : lit "- **" ++ (m ++ '*' :: '*' :: r) =
      (['-', ' ', '*', '*'] : Str) ++ (m ++ '*' :: '*' :: r) := by
    rw [show lit "- **" = ['-', ' ', '*', '*'] from by decide]
  have hScons : lit "- **" ++ (m ++ '*' :: '*' :: r) =
      '-' :: ' ' :: '*' :: '*' :: (m ++ '*' :: '*' :: r) := by
    rw [hSapp]; rfl
  have hs1 : startsW (lit "## ") (lit "- **" ++ (m ++ '*' :: '*' :: r)) = false := by
    rw [hScons, show lit "## " = '#' :: lit "# " from by decide]
    exact startsW_head_false _ _ _ _ (by decide)
  have hs2 : startsW (lit "### ") (lit "- **" ++ (m ++ '*' :: '*' :: r)) = false := by
    rw [hScons, show lit "### " = '#' :: lit "## " from by decide]
    exact startsW_head_false _ _ _ _ (by decide)
  have hs3 : startsW (lit "- **") (lit "- **" ++ (m ++ '*' :: '*' :: r)) = true :=
    startsW_append_self _ _
  have hcnt : countSS (lit "- **" ++ (m ++ '*' :: '*' :: r)) =
      countSS (m ++ '*' :: '*' :: r) + 1 := by
    rw [hScons]
    simp [countSS]
  have hcount : 2 ≤ countSS (lit "- **" ++ (m ++ '*' :: '*' :: r)) := by
    rw [hcnt]
    have := countSS_pos_of_hasSub _ (hasSub_marker m r)
    omega
  have hf1 : startsW (lit "**") ('-' :: ' ' :: '*' :: '*' :: (m ++ '*' :: '*' :: r)) = false := by
    rw [show lit "**" = '*' :: ['*'] from by decide]
    exact startsW_head_false _ _ _ _ (by decide)
  have hf2 : startsW (lit "**") (' ' :: '*' :: '*' :: (m ++ '*' :: '*' :: r)) = false := by
    rw [show lit "**" = '*' :: ['*'] from by decide]
    exact startsW_head_false _ _ _ _ (by decide)
  have hf3 : startsW (lit "**") ('*' :: '*' :: (m ++ '*' :: '*' :: r)) = true := by
    rw [show ('*' :: '*' :: (m ++ '*' :: '*' :: r) : Str) =
      lit "**" ++ (m ++ '*' :: '*' :: r) from by
        rw [show lit "**" = ['*', '*'] from by decide]; rfl]
    exact startsW_append_self _ _
  have hfind : findSub (lit "**") (lit "- **" ++ (m ++ '*' :: '*' :: r)) = some 2 := by
    rw [hScons]
    rw [show findSub (lit "**") ('-' :: ' ' :: '*' :: '*' :: (m ++ '*' :: '*' :: r)) =
      (if startsW (lit "**") ('-' :: ' ' :: '*' :: '*' :: (m ++ '*' :: '*' :: r)) = true
       then some 0
       else (findSub (lit "**") (' ' :: '*' :: '*' :: (m ++ '*' :: '*' :: r))).map (· + 1))
      from rfl]
    rw [hf1, if_neg (by simp)]
    rw [show findSub (lit "**") (' ' :: '*' :: '*' :: (m ++ '*' :: '*' :: r)) =
      (if startsW (lit "**") (' ' :: '*' :: '*' :: (m ++ '*' :: '*' :: r)) = true
       then some 0
       else (findSub (lit "**") ('*' :: '*' :: (m ++ '*' :: '*' :: r))).map (· + 1))
      from rfl]
    rw [hf2, if_neg (by simp)]
    rw [show findSub (lit "**") ('*' :: '*' :: (m ++ '*' :: '*' :: r)) =
      (if startsW (lit "**") ('*' :: '*' :: (m ++ '*' :: '*' :: r)) = true
       then some 0
       else (findSub (lit "**") ('*' :: (m ++ '*' :: '*' :: r))).map (· + 1))
      from rfl]
    rw [hf3, if_pos rfl]
    rfl
  have hdrop4 : (lit "- **" ++ (m ++ '*' :: '*' :: r)).drop (2 + 2) = m ++ '*' :: '*' :: r := by
    rw [hScons]
    rfl
  have hfrom : findSubFrom (lit "**") (lit "- **" ++ (m ++ '*' :: '*' :: r)) (2 + 2) =
      some (m.length + (2 + 2)) := by
    unfold findSubFrom
    rw [hdrop4, findSub_marker m hm hlast r]
    rfl
  have htake : (lit "- **" ++ (m ++ '*' :: '*' :: r)).take (m.length + (2 + 2)) =
      (['-', ' ', '*', '*'] : Str) ++ m := by
    rw [hSapp]
    rw [show m.length + (2 + 2) = (['-', ' ', '*', '*'] : Str).length + m.length from by
      simp; omega]
    rw [List.take_append]
    rw [List.take_left]
  have hslice : pySlice (lit "- **" ++ (m ++ '*' :: '*' :: r)) (2 + 2) (m.length + (2 + 2)) = m := by
    unfold pySlice
    rw [htake]
    rfl
  simp only [parseStep, hline]
  rw [if_neg (by simp [hs1]), if_neg (by simp [hs2])]
  rw [if_pos (by rw [hs3, hd, hs]; simp [dateTruthy, hdne])]
  rw [if_pos hcount]
  rw [hfind]
  dsimp only
  rw [hfrom]
  dsimp only
  rw [if_pos (by omega)]
  rw [hslice]
  rw [if_neg (by simpa [List.isEmpty_iff] using hname)]
  rw [hd, hs]
  rfl

/-- Stripping a rendered bullet line. -/
theorem pyStrip_bullet_line (x : Str) (hx : x ≠ []) (c : Char)
    (hlast : x.getLast? = some c) (hc : isWs c = false) :
    pyStrip (lit "    - **" ++ x) = lit "- **" ++ x := by
  have hform : lit "    - **" ++ x = (lit "    " : Str) ++ (lit "- **" ++ x) := by
    rw [show lit "    - **" = lit "    " ++ lit "- **" from by decide]
    simp
  rw [hform]
  unfold pyStrip pyLStrip
  rw [List.dropWhile_append]
  rw [show (List.dropWhile isWs (lit "    ")).isEmpty = true from by decide]
  rw [if_pos rfl]
  rw [show lit "- **" ++ x = '-' :: (lit " **" ++ x) from by
    rw [show lit "- **" = '-' :: lit " **" from by decide]; rfl]
  rw [List.dropWhile_cons_of_neg (by decide)]
  apply pyRStrip_eq_self
  intro c2 hc2
  rw [show ('-' :: (lit " **" ++ x) : Str) = ('-' :: lit " **") ++ x from by simp] at hc2
  rw [List.getLast?_append_of_ne_nil _ hx] at hc2
  rw [hlast] at hc2
  injection hc2 with he
  subst he
  exact hc

/-- Appending a colon to a marker-free string keeps it marker-free. -/
theorem hasSub_append_colon :
    ∀ n : Str, hasSub (lit "**") n = false → lastIs n '*' = false →
      hasSub (lit "**") (n ++ [':']) = false := by
  have hlit : lit "**" = ['*', '*'] := by decide
  intro n
  induction n with
  | nil => intro _ _; decide
  | cons a as ih =>
    intro hsub hlast
    have hsub2 : hasSub (lit "**") as = false := by
      rw [show hasSub (lit "**") (a :: as) =
        (startsW (lit "**") (a :: as) || hasSub (lit "**") as) from rfl] at hsub
      exact (Bool.or_eq_false_iff.1 hsub).2
    rw [show (a :: as) ++ [':'] = a :: (as ++ [':']) from rfl]
    rw [show hasSub (lit "**") (a :: (as ++ [':'])) =
      (startsW (lit "**") (a :: (as ++ [':'])) || hasSub (lit "**") (as ++ [':'])) from rfl]
    have hright : hasSub (lit "**") (as ++ [':']) = false := by
      cases has : as with
      | nil => decide
      | cons b bs =>
        rw [← has]
        apply ih hsub2
        rw [has]
        rw [has] at hlast
        simpa [lastIs, List.getLast?_cons_cons] using hlast
    have hleft : startsW (lit "**") (a :: (as ++ [':'])) = false := by
      rw [hlit]
      cases as with
      | nil =>
        have ha : ¬('*' = a) := by
          intro he
          rw [show lastIs [a] '*' = decide (a = '*') from by simp [lastIs]] at hlast
          rw [← he] at hlast
          simp at hlast
        simp [startsW, ha]
      | cons b bs =>
        by_cases hab : '*' = a ∧ '*' = b
        · exfalso
          obtain ⟨ha, hb⟩ := hab
          rw [hlit] at hsub
          rw [← ha, ← hb] at hsub
          simp [hasSub, startsW] at hsub
        · rw [show ((b :: bs : Str) ++ [':']) = b :: (bs ++ [':']) from rfl]
          rcases not_and_or.1 hab with h | h
          · simp [startsW, h]
          · simp [startsW, h]
    rw [hleft, hright]
    rfl

/-- The backticked field list ends in a backtick. -/
theorem fieldList_getLast :
    ∀ (fs : List Str) (f : Str),
      (joinSep (lit ", ") ((f :: fs).map (fun g => '`' :: g ++ ['`']))).getLast? = some '`' := by
  intro fs
  induction fs with
  | nil =>
    intro f
    rw [show joinSep (lit ", ") ([f].map (fun g => '`' :: g ++ ['`'])) =
      '`' :: f ++ ['`'] from rfl]
    rw [show ('`' :: f ++ ['`'] : Str) = ('`' :: f) ++ ['`'] from rfl]
    exact List.getLast?_concat _
  | cons f2 fs2 ih =>
    intro f
    rw [show joinSep (lit ", ") ((f :: f2 :: fs2).map (fun g => '`' :: g ++ ['`'])) =
      (('`' :: f ++ ['`']) ++ lit ", ") ++
        joinSep (lit ", ") ((f2 :: fs2).map (fun g => '`' :: g ++ ['`'])) from rfl]
    rw [List.getLast?_append_of_ne_nil]
    · exact ih f2
    · intro he
      have h2 := ih f2
      rw [he] at h2
      cases h2

/-- Parsing a rendered bullet whose name is well-formed. -/
theorem parseStep_renderedBullet (st : PState) (d n sfx : Str) (t : CType) (c : Char)
    (hd : st.curDate = some d) (hdne : d.isEmpty = false) (hs : st.curSect = some t)
    (hn : goodName n = true)
    (hlast : (n ++ '*' :: '*' :: sfx).getLast? = some c) (hc : isWs c = false) :
    parseStep st (lit "    - **" ++ (n ++ '*' :: '*' :: sfx)) =
      { st with acc := addSub st.acc d t n } := by
  have hcomp : n.isEmpty = false ∧ noNL n = true ∧ edgeClean n = true ∧
      hasSub (lit "**") n = false ∧ lastIs n '*' = false ∧ lastIs n ':' = false := by
    simp only [goodName, Bool.and_eq_true, Bool.not_eq_true'] at hn
    tauto
  obtain ⟨hne, hnl, hec, hnsub, hnstar, hncol⟩ := hcomp
  have hname_ne : n ≠ [] := fun he => by rw [he] at hne; simp at hne
  have hfix : pyStrip (rstripColon (pyStrip n)) = n := by
    rw [pyStrip_eq_self _ hec, rstripColon_eq_self _ hncol, pyStrip_eq_self _ hec]
  have hps := pyStrip_bullet_line (n ++ '*' :: '*' :: sfx) (by simp) c hlast hc
  have hmain := parseStep_bullet st d n t (lit "    - **" ++ (n ++ '*' :: '*' :: sfx)) sfx
    hd hdne hs (by rw [hps]) hnsub hnstar hname_ne (by rw [hfix]; exact hname_ne)
  rw [hmain, hfix]

/-- Parsing a rendered bullet of the updated shape, where a colon follows
the name before the closing marker. -/
theorem parseStep_renderedBulletColon (st : PState) (d n sfx : Str) (t : CType) (c : Char)
    (hd : st.curDate = some d) (hdne : d.isEmpty = false) (hs : st.curSect = some t)
    (hn : goodName n = true)
    (hlast : ((n ++ [':']) ++ '*' :: '*' :: sfx).getLast? = some c) (hc : isWs c = false) :
    parseStep st (lit "    - **" ++ ((n ++ [':']) ++ '*' :: '*' :: sfx)) =
      { st with acc := addSub st.acc d t n } := by
  have hcomp : n.isEmpty = false ∧ noNL n = true ∧ edgeClean n = true ∧
      hasSub (lit "**") n = false ∧ lastIs n '*' = false ∧ lastIs n ':' = false := by
    simp only [goodName, Bool.and_eq_true, Bool.not_eq_true'] at hn
    tauto
  obtain ⟨hne, hnl, hec, hnsub, hnstar, hncol⟩ := hcomp
  have hname_ne : n ≠ [] := fun he => by rw [he] at hne; simp at hne
  have hm_ne : n ++ [':'] ≠ [] := by simp
  have hec2 : edgeClean (n ++ [':']) = true := by
    unfold edgeClean at hec ⊢
    rw [Bool.and_eq_true] at hec ⊢
    constructor
    · rw [List.head?_append_of_ne_nil _ hname_ne]
      exact hec.1
    · rw [List.getLast?_concat]
      decide
  have hsub2 : hasSub (lit "**") (n ++ [':']) = false :=
    hasSub_append_colon n hnsub hnstar
  have hstar2 : lastIs (n ++ [':']) '*' = false := by
    simp [lastIs, List.getLast?_concat]
  have hfix : pyStrip (rstripColon (pyStrip (n ++ [':']))) = n := by
    rw [pyStrip_eq_self _ hec2, rstripColon_append_colon n hncol, pyStrip_eq_self _ hec]
  have hps := pyStrip_bullet_line ((n ++ [':']) ++ '*' :: '*' :: sfx) (by simp) c hlast hc
  have hmain := parseStep_bullet st d (n ++ [':']) t
    (lit "    - **" ++ ((n ++ [':']) ++ '*' :: '*' :: sfx)) sfx
    hd hdne hs (by rw [hps]) hsub2 hstar2 hm_ne (by rw [hfix]; exact hname_ne)
  rw [hmain, hfix]

/-- One parser step on a cons line list. -/
theorem parseLinesFrom_cons (st : PState) (l : Str) (rest : List Str) :
    parseLinesFrom st (l :: rest) = parseLinesFrom (parseStep st l) rest := rfl

/-- Parsing an added-entry bullet records its name under the current date. -/
theorem parseStep_addedBullet (st : PState) (dk : Str) (c : SChange)
    (hd : st.curDate = some dk) (hdne : dk.isEmpty = false)
    (hs : st.curSect = some CType.added)
    (hn : goodName c.name = true) :
    parseStep st (addedBullet dk c) =
      { st with acc := addSub st.acc dk CType.added c.name } := by
  unfold addedBullet
  cases hsd : c.sourceDate with
  | none =>
    rw [show lit "    - **" ++ c.name ++ lit "**" ++ ([] : Str) =
      lit "    - **" ++ (c.name ++ '*' :: '*' :: ([] : Str)) from by
        rw [show lit "**" = ['*', '*'] from by decide]; simp]
    exact parseStep_renderedBullet st dk c.name [] .added '*' hd hdne hs hn
      (by rw [show (c.name ++ '*' :: '*' :: ([] : Str)) = (c.name ++ ['*']) ++ ['*'] from by
            simp]
          exact List.getLast?_concat _) (by decide)
  | some sd =>
    dsimp only
    by_cases hcond : (!sd.isEmpty && decide (sd ≠ dk)) = true
    · rw [if_pos hcond]
      rw [show lit "    - **" ++ c.name ++ lit "**" ++ (lit " (source date: " ++ sd ++ lit ")") =
        lit "    - **" ++ (c.name ++ '*' :: '*' :: (lit " (source date: " ++ sd ++ lit ")"))
        from by rw [show lit "**" = ['*', '*'] from by decide]; simp]
      refine parseStep_renderedBullet st dk c.name _ .added ')' hd hdne hs hn ?_ (by decide)
      rw [show (c.name ++ '*' :: '*' :: (lit " (source date: " ++ sd ++ lit ")")) =
        (c.name ++ '*' :: '*' :: (lit " (source date: " ++ sd)) ++ [')'] from by
          rw [show lit ")" = [')'] from by decide]; simp]
      exact List.getLast?_concat _
    · rw [if_neg hcond]
      rw [show lit "    - **" ++ c.name ++ lit "**" ++ ([] : Str) =
        lit "    - **" ++ (c.name ++ '*' :: '*' :: ([] : Str)) from by
          rw [show lit "**" = ['*', '*'] from by decide]; simp]
      exact parseStep_renderedBullet st dk c.name [] .added '*' hd hdne hs hn
        (by rw [show (c.name ++ '*' :: '*' :: ([] : Str)) = (c.name ++ ['*']) ++ ['*'] from by
              simp]
            exact List.getLast?_concat _) (by decide)

/-- Parsing an updated-entry bullet records its name under the current
date. -/
theorem parseStep_updatedBullet (st : PState) (dk : Str) (c : SChange)
    (hd : st.curDate = some dk) (hdne : dk.isEmpty = false)
    (hs : st.curSect = some CType.updated)
    (hn : goodName c.name = true) :
    parseStep st (updatedBullet c) =
      { st with acc := addSub st.acc dk CType.updated c.name } := by
  unfold updatedBullet
  cases hf : c.fields with
  | nil =>
    rw [if_neg (by simp)]
    rw [show lit "    - **" ++ c.name ++ lit ":** Updated" =
      lit "    - **" ++ ((c.name ++ [':']) ++ '*' :: '*' :: lit " Updated") from by
        rw [show lit ":** Updated" = ':' :: '*' :: '*' :: lit " Updated" from by decide]
        simp]
    refine parseStep_renderedBulletColon st dk c.name _ .updated 'd' hd hdne hs hn ?_ (by decide)
    rw [show ((c.name ++ [':']) ++ '*' :: '*' :: lit " Updated") =
      ((c.name ++ [':']) ++ '*' :: '*' :: lit " Update") ++ ['d'] from by
        rw [show lit " Updated" = lit " Update" ++ ['d'] from by decide]; simp]
    exact List.getLast?_concat _
  | cons f fs =>
    rw [if_pos (by simp)]
    have hjoin_ne : joinSep (lit ", ") ((f :: fs).map (fun g => '`' :: g ++ ['`'])) ≠ [] := by
      intro he
      have h2 := fieldList_getLast fs f
      rw [he] at h2
      cases h2
    rw [show lit "    - **" ++ c.name ++ lit ":** Updated " ++
        joinSep (lit ", ") ((f :: fs).map (fun g => '`' :: g ++ ['`'])) =
      lit "    - **" ++ ((c.name ++ [':']) ++ '*' :: '*' ::
        (lit " Updated " ++ joinSep (lit ", ") ((f :: fs).map (fun g => '`' :: g ++ ['`']))))
      from by
        rw [show lit ":** Updated " = ':' :: '*' :: '*' :: lit " Updated " from by decide]
        simp]
    refine parseStep_renderedBulletColon st dk c.name _ .updated '`' hd hdne hs hn ?_ (by decide)
    rw [show ((c.name ++ [':']) ++ '*' :: '*' ::
        (lit " Updated " ++ joinSep (lit ", ") ((f :: fs).map (fun g => '`' :: g ++ ['`'])))) =
      ((c.name ++ [':']) ++ '*' :: '*' :: lit " Updated ") ++
        joinSep (lit ", ") ((f :: fs).map (fun g => '`' :: g ++ ['`'])) from by simp]
    rw [List.getLast?_append_of_ne_nil _ hjoin_ne]
    exact fieldList_getLast fs f

/-- Parsing a removed-entry bullet records its name under the current
date. -/
theorem parseStep_removedBullet (st : PState) (dk : Str) (c : SChange)
    (hd : st.curDate = some dk) (hdne : dk.isEmpty = false)
    (hs : st.curSect = some CType.removed)
    (hn : goodName c.name = true) :
    parseStep st (removedBullet c) =
      { st with acc := addSub st.acc dk CType.removed c.name } := by
  unfold removedBullet
  rw [show lit "    - **" ++ c.name ++ lit "**" =
    lit "    - **" ++ (c.name ++ '*' :: '*' :: ([] : Str)) from by
      rw [show lit "**" = ['*', '*'] from by decide]; simp]
  exact parseStep_renderedBullet st dk c.name [] .removed '*' hd hdne hs hn
    (by rw [show (c.name ++ '*' :: '*' :: ([] : Str)) = (c.name ++ ['*']) ++ ['*'] from by
          simp]
        exact List.getLast?_concat _) (by decide)

/-- Head of the strip of a whitespace-prefixed line. -/
theorem pyStrip_head_cases (w x : Str) (hw : ∀ c ∈ w, isWs c = true) (c0 : Char)
    (hx : x.head? = some c0) (hc0 : isWs c0 = false) :
    (pyStrip (w ++ x)).head? = none ∨ (pyStrip (w ++ x)).head? = some c0 := by
  have hls : pyLStrip (w ++ x) = x := by
    unfold pyLStrip
    rw [List.dropWhile_append]
    rw [show (List.dropWhile isWs w).isEmpty = true from by
      rw [List.dropWhile_eq_nil_iff.2 hw]; rfl]
    rw [if_pos rfl]
    cases x with
    | nil => rfl
    | cons a t =>
      injection hx with he
      subst he
      exact List.dropWhile_cons_of_neg (by simp [hc0])
  unfold pyStrip
  rw [hls]
  rcases head?_pyRStrip x with h | h
  · exact Or.inl h
  · rw [hx] at h; exact Or.inr h

/-- The added-section count line is inert. -/
theorem parseStep_countAdded (st : PState) (k : Nat) :
    parseStep st (lit "    " ++ natToStr k ++ [' '] ++ lit "new " ++ substanceWord k) = st := by
  apply parseStep_inert
  intro c hc
  obtain ⟨i, hi, hhead⟩ := natToStrFuel_head k k
  have hform : lit "    " ++ natToStr k ++ [' '] ++ lit "new " ++ substanceWord k =
      lit "    " ++ (natToStr k ++ ([' '] ++ (lit "new " ++ substanceWord k))) := by
    simp
  rw [hform] at hc
  have hxhead : (natToStr k ++ ([' '] ++ (lit "new " ++ substanceWord k))).head? =
      some (digitChar i) := by
    unfold natToStr
    rw [List.head?_append_of_ne_nil _ (natToStrFuel_ne_nil k k)]
    exact hhead
  rcases pyStrip_head_cases (lit "    ") _ (by decide) (digitChar i) hxhead
    (digitChar_not_ws i hi) with h | h
  · rw [h] at hc; cases hc
  · rw [h] at hc
    injection hc with he
    subst he
    exact ⟨digitChar_ne_hash i hi, digitChar_ne_dash i hi⟩

/-- A star-headed line is inert. -/
theorem parseStep_countStar (st : PState) (x : Str) :
    parseStep st ('*' :: x) = st := by
  apply parseStep_inert
  intro c hc
  have hcases : (pyStrip ('*' :: x)).head? = none ∨ (pyStrip ('*' :: x)).head? = some '*' := by
    have hls : pyLStrip ('*' :: x) = '*' :: x := List.dropWhile_cons_of_neg (by decide)
    unfold pyStrip
    rw [hls]
    rcases head?_pyRStrip ('*' :: x) with h | h
    · exact Or.inl h
    · exact Or.inr (by rw [h]; rfl)
  rcases hcases with h | h
  · rw [h] at hc; cases hc
  · rw [h] at hc
    injection hc with he
    subst he
    exact ⟨by decide, by decide⟩

/-- The details-dropdown line is inert. -/
theorem parseStep_info (st : PState) :
    parseStep st (lit "???+ info \"Show details\"") = st := by
  apply parseStep_inert
  intro c hc
  rw [show pyStrip (lit "???+ info \"Show details\"") = lit "???+ info \"Show details\""
    from by decide] at hc
  rw [show (lit "???+ info \"Show details\"").head? = some '?' from by decide] at hc
  injection hc with he
  subst he
  exact ⟨by decide, by decide⟩

/-- Folding the parser over rendered added bullets. -/
theorem parse_addedBullets (dk : Str) (hdne : dk.isEmpty = false) :
    ∀ (cs : List SChange) (st : PState),
      st.curDate = some dk → st.curSect = some CType.added →
      (∀ c ∈ cs, goodName c.name = true) →
      parseLinesFrom st (cs.map (addedBullet dk)) =
        { st with acc := addSubFold st.acc dk CType.added (cs.map SChange.name) } := by
  intro cs
  induction cs with
  | nil => intro st hd hs _; rfl
  | cons c0 rest ih =>
    intro st hd hs hall
    rw [List.map_cons, parseLinesFrom_cons]
    rw [parseStep_addedBullet st dk c0 hd hdne hs (hall c0 (by simp))]
    rw [ih { st with acc := addSub st.acc dk CType.added c0.name } hd hs
      (fun c hc => hall c (by simp [hc]))]
    rfl

/-- Folding the parser over rendered updated bullets. -/
theorem parse_updatedBullets (dk : Str) (hdne : dk.isEmpty = false) :
    ∀ (cs : List SChange) (st : PState),
      st.curDate = some dk → st.curSect = some CType.updated →
      (∀ c ∈ cs, goodName c.name = true) →
      parseLinesFrom st (cs.map updatedBullet) =
        { st with acc := addSubFold st.acc dk CType.updated (cs.map SChange.name) } := by
  intro cs
  induction cs with
  | nil => intro st hd hs _; rfl
  | cons c0 rest ih =>
    intro st hd hs hall
    rw [List.map_cons, parseLinesFrom_cons]
    rw [parseStep_updatedBullet st dk c0 hd hdne hs (hall c0 (by simp))]
    rw [ih { st with acc := addSub st.acc dk CType.updated c0.name } hd hs
      (fun c hc => hall c (by simp [hc]))]
    rfl

/-- Folding the parser over rendered removed bullets. -/
theorem parse_removedBullets (dk : Str) (hdne : dk.isEmpty = false) :
    ∀ (cs : List SChange) (st : PState),
      st.curDate = some dk → st.curSect = some CType.removed →
      (∀ c ∈ cs, goodName c.name = true) →
      parseLinesFrom st (cs.map removedBullet) =
        { st with acc := addSubFold st.acc dk CType.removed (cs.map SChange.name) } := by
  intro cs
  induction cs with
  | nil => intro st hd hs _; rfl
  | cons c0 rest ih =>
    intro st hd hs hall
    rw [List.map_cons, parseLinesFrom_cons]
    rw [parseStep_removedBullet st dk c0 hd hdne hs (hall c0 (by simp))]
    rw [ih { st with acc := addSub st.acc dk CType.removed c0.name } hd hs
      (fun c hc => hall c (by simp [hc]))]
    rfl

/-- Parsing the rendered added section. -/
theorem parse_addedSection (dk : Str) (hdne : dk.isEmpty = false) (cs : List SChange)
    (hall : ∀ c ∈ cs, goodName c.name = true) (st : PState) (hd : st.curDate = some dk) :
    parseLinesFrom st
      ([lit "### New Substances Added", [],
        lit "    " ++ natToStr cs.length ++ [' '] ++ lit "new " ++ substanceWord cs.length, [],
        lit "???+ info \"Show details\"", []] ++ cs.map (addedBullet dk) ++ [[]]) =
      { st with
        curSect := some CType.added,
        acc := addSubFold st.acc dk CType.added (cs.map SChange.name) } := by
  show parseLinesFrom st
      (lit "### New Substances Added" :: [] ::
        (lit "    " ++ natToStr cs.length ++ [' '] ++ lit "new " ++ substanceWord cs.length) ::
        [] :: lit "???+ info \"Show details\"" :: [] ::
        (cs.map (addedBullet dk) ++ [[]])) = _
  rw [parseLinesFrom_cons, parseStep_sectAdded]
  rw [parseLinesFrom_cons, parseStep_blank _ [] (by decide)]
  rw [parseLinesFrom_cons, parseStep_countAdded]
  rw [parseLinesFrom_cons, parseStep_blank _ [] (by decide)]
  rw [parseLinesFrom_cons, parseStep_info]
  rw [parseLinesFrom_cons, parseStep_blank _ [] (by decide)]
  rw [parseLinesFrom_append]
  rw [parse_addedBullets dk hdne cs { st with curSect := some CType.added } hd rfl hall]
  rw [parseLinesFrom_cons, parseStep_blank _ [] (by decide)]
  rfl

/-- Parsing the rendered modified section. -/
theorem parse_updatedSection (dk : Str) (hdne : dk.isEmpty = false) (cs : List SChange)
    (hall : ∀ c ∈ cs, goodName c.name = true) (st : PState) (hd : st.curDate = some dk) :
    parseLinesFrom st
      ([lit "### Substances Modified", [],
        '*' :: natToStr cs.length ++ [' '] ++ substanceWord cs.length ++
          lit " modified, detected through data comparison*", [],
        lit "???+ info \"Show details\"", []] ++ cs.map updatedBullet ++ [[]]) =
      { st with
        curSect := some CType.updated,
        acc := addSubFold st.acc dk CType.updated (cs.map SChange.name) } := by
  show parseLinesFrom st
      (lit "### Substances Modified" :: [] ::
        ('*' :: natToStr cs.length ++ [' '] ++ substanceWord cs.length ++
          lit " modified, detected through data comparison*") ::
        [] :: lit "???+ info \"Show details\"" :: [] ::
        (cs.map updatedBullet ++ [[]])) = _
  rw [parseLinesFrom_cons, parseStep_sectUpdated]
  rw [parseLinesFrom_cons, parseStep_blank _ [] (by decide)]
  rw [show ('*' :: natToStr cs.length ++ [' '] ++ substanceWord cs.length ++
      lit " modified, detected through data comparison*" : Str) =
    '*' :: (natToStr cs.length ++ ([' '] ++ (substanceWord cs.length ++
      lit " modified, detected through data comparison*"))) from by simp]
  rw [parseLinesFrom_cons, parseStep_countStar]
  rw [parseLinesFrom_cons, parseStep_blank _ [] (by decide)]
  rw [parseLinesFrom_cons, parseStep_info]
  rw [parseLinesFrom_cons, parseStep_blank _ [] (by decide)]
  rw [parseLinesFrom_append]
  rw [parse_updatedBullets dk hdne cs { st with curSect := some CType.updated } hd rfl hall]
  rw [parseLinesFrom_cons, parseStep_blank _ [] (by decide)]
  rfl

/-- Parsing the rendered removed section. -/
theorem parse_removedSection (dk : Str) (hdne : dk.isEmpty = false) (cs : List SChange)
    (hall : ∀ c ∈ cs, goodName c.name = true) (st : PState) (hd : st.curDate = some dk) :
    parseLinesFrom st
      ([lit "### Substances Removed", [],
        '*' :: natToStr cs.length ++ [' '] ++ substanceWord cs.length ++
          lit " removals, detected through data comparison*", [],
        lit "???+ info \"Show details\"", []] ++ cs.map removedBullet ++ [[]]) =
      { st with
        curSect := some CType.removed,
        acc := addSubFold st.acc dk CType.removed (cs.map SChange.name) } := by
  show parseLinesFrom st
      (lit "### Substances Removed" :: [] ::
        ('*' :: natToStr cs.length ++ [' '] ++ substanceWord cs.length ++
          lit " removals, detected through data comparison*") ::
        [] :: lit "???+ info \"Show details\"" :: [] ::
        (cs.map removedBullet ++ [[]])) = _
  rw [parseLinesFrom_cons, parseStep_sectRemoved]
  rw [parseLinesFrom_cons, parseStep_blank _ [] (by decide)]
  rw [show ('*' :: natToStr cs.length ++ [' '] ++ substanceWord cs.length ++
      lit " removals, detected through data comparison*" : Str) =
    '*' :: (natToStr cs.length ++ ([' '] ++ (substanceWord cs.length ++
      lit " removals, detected through data comparison*"))) from by simp]
  rw [parseLinesFrom_cons, parseStep_countStar]
  rw [parseLinesFrom_cons, parseStep_blank _ [] (by decide)]
  rw [parseLinesFrom_cons, parseStep_info]
  rw [parseLinesFrom_cons, parseStep_blank _ [] (by decide)]
  rw [parseLinesFrom_append]
  rw [parse_removedBullets dk hdne cs { st with curSect := some CType.removed } hd rfl hall]
  rw [parseLinesFrom_cons, parseStep_blank _ [] (by decide)]
  rfl

/-- A character of the head part occurs in the joined string. -/
theorem mem_joinSep_head (sep : Str) (hd0 : Str) (tl : List Str) :
    ∀ c ∈ hd0, c ∈ joinSep sep (hd0 :: tl) := by
  intro c hc
  cases tl with
  | nil => exact hc
  | cons b bs =>
    rw [show joinSep sep (hd0 :: b :: bs) = (hd0 ++ sep) ++ joinSep sep (b :: bs) from rfl]
    exact List.mem_append.2 (Or.inl (List.mem_append.2 (Or.inl hc)))

/-- Generated content that strips to nothing comes from an empty bucket. -/
theorem generateContent_strip_empty (dk : Str) (dc : DateChanges)
    (h : (pyStrip (generateContent dk dc)).isEmpty = true) :
    dc.added = [] ∧ dc.updated = [] ∧ dc.removed = [] := by
  have hps : pyStrip (generateContent dk dc) = [] := by simpa [List.isEmpty_iff] using h
  have hJ : pyStrip (joinSep (lit "\n\n") (generateParts dk dc)) = [] := by
    obtain ⟨w, hw1, hw2⟩ := exists_pyRStrip_append (joinSep (lit "\n\n") (generateParts dk dc))
    calc pyStrip (joinSep (lit "\n\n") (generateParts dk dc))
        = pyStrip (pyRStrip (joinSep (lit "\n\n") (generateParts dk dc)) ++ w) := by
          conv_lhs => rw [hw1]
      _ = pyStrip (pyRStrip (joinSep (lit "\n\n") (generateParts dk dc))) :=
          pyStrip_append_ws _ _ hw2
      _ = [] := hps
  have hallws := all_ws_of_pyStrip_empty hJ
  have hA : dc.added = [] := by
    cases ha : dc.added with
    | nil => rfl
    | cons c0 rest =>
      exfalso
      obtain ⟨T, hT⟩ : ∃ T, generateParts dk dc = lit "### New Substances Added" :: T := by
        unfold generateParts
        rw [ha]
        exact ⟨_, rfl⟩
      have hmem : '#' ∈ joinSep (lit "\n\n") (generateParts dk dc) := by
        rw [hT]
        exact mem_joinSep_head _ _ _ '#' (by decide)
      have h9 := hallws '#' hmem
      simp [isWs] at h9
  have hU : dc.updated = [] := by
    cases hu : dc.updated with
    | nil => rfl
    | cons c0 rest =>
      exfalso
      obtain ⟨T, hT⟩ : ∃ T, generateParts dk dc = lit "### Substances Modified" :: T := by
        unfold generateParts
        rw [hA, hu]
        exact ⟨_, rfl⟩
      have hmem : '#' ∈ joinSep (lit "\n\n") (generateParts dk dc) := by
        rw [hT]
        exact mem_joinSep_head _ _ _ '#' (by decide)
      have h9 := hallws '#' hmem
      simp [isWs] at h9
  have hR : dc.removed = [] := by
    cases hr : dc.removed with
    | nil => rfl
    | cons c0 rest =>
      exfalso
      obtain ⟨T, hT⟩ : ∃ T, generateParts dk dc = lit "### Substances Removed" :: T := by
        unfold generateParts
        rw [hA, hU, hr]
        exact ⟨_, rfl⟩
      have hmem : '#' ∈ joinSep (lit "\n\n") (generateParts dk dc) := by
        rw [hT]
        exact mem_joinSep_head _ _ _ '#' (by decide)
      have h9 := hallws '#' hmem
      simp [isWs] at h9
  exact ⟨hA, hU, hR⟩

/-- `noNL` on a cons. -/
theorem noNL_cons (c : Char) (s : Str) : noNL (c :: s) = (decide (c ≠ '\n') && noNL s) := by
  simp [noNL]

/-- The singular/plural word is newline-free. -/
theorem substanceWord_noNL (k : Nat) : noNL (substanceWord k) = true := by
  unfold substanceWord
  split <;> decide

/-- The rendered field list is newline-free when the fields are. -/
theorem fieldList_noNL :
    ∀ (fs : List Str) (f : Str), (∀ g ∈ f :: fs, noNL g = true) →
      noNL (joinSep (lit ", ") ((f :: fs).map (fun g => '`' :: g ++ ['`']))) = true := by
  intro fs
  induction fs with
  | nil =>
    intro f hall
    rw [show joinSep (lit ", ") ([f].map (fun g => '`' :: g ++ ['`'])) =
      '`' :: f ++ ['`'] from rfl]
    rw [show ('`' :: f ++ ['`'] : Str) = ('`' :: f) ++ ['`'] from rfl, noNL_append, noNL_cons]
    rw [hall f (by simp)]
    decide
  | cons f2 fs2 ih =>
    intro f hall
    rw [show joinSep (lit ", ") ((f :: f2 :: fs2).map (fun g => '`' :: g ++ ['`'])) =
      (('`' :: f ++ ['`']) ++ lit ", ") ++
        joinSep (lit ", ") ((f2 :: fs2).map (fun g => '`' :: g ++ ['`'])) from rfl]
    rw [noNL_append, noNL_append]
    rw [ih f2 (fun g hg => hall g (List.mem_cons_of_mem _ hg))]
    rw [show ('`' :: f ++ ['`'] : Str) = ('`' :: f) ++ ['`'] from rfl, noNL_append, noNL_cons]
    rw [hall f (by simp)]
    decide

/-- An added bullet is newline-free. -/
theorem addedBullet_noNL (dk : Str) (c : SChange) (h1 : noNL c.name = true)
    (h2 : ∀ sd, c.sourceDate = some sd → noNL sd = true) :
    noNL (addedBullet dk c) = true := by
  unfold addedBullet
  cases hsd : c.sourceDate with
  | none =>
    dsimp only
    rw [noNL_append, noNL_append, noNL_append, h1]
    decide
  | some sd =>
    dsimp only
    by_cases hcond : (!sd.isEmpty && decide (sd ≠ dk)) = true
    · rw [if_pos hcond]
      rw [noNL_append, noNL_append, noNL_append, h1]
      rw [noNL_append, noNL_append, h2 sd hsd]
      decide
    · rw [if_neg hcond]
      rw [noNL_append, noNL_append, noNL_append, h1]
      decide

/-- An updated bullet is newline-free. -/
theorem updatedBullet_noNL (c : SChange) (h1 : noNL c.name = true)
    (h2 : ∀ g ∈ c.fields, noNL g = true) :
    noNL (updatedBullet c) = true := by
  unfold updatedBullet
  cases hf : c.fields with
  | nil =>
    rw [if_neg (by simp)]
    rw [noNL_append, noNL_append, h1]
    decide
  | cons f fs =>
    rw [if_pos (by simp)]
    rw [noNL_append, noNL_append, noNL_append, h1]
    rw [fieldList_noNL fs f (fun g hg => h2 g (by rw [hf]; exact hg))]
    decide

/-- A removed bullet is newline-free. -/
theorem removedBullet_noNL (c : SChange) (h1 : noNL c.name = true) :
    noNL (removedBullet c) = true := by
  unfold removedBullet
  rw [noNL_append, noNL_append, h1]
  decide

/-- All generated parts are newline-free when the bucket data is. -/
theorem generateParts_noNL (dk : Str) (dc : DateChanges) (h : dcNoNL dc = true) :
    ∀ p ∈ generateParts dk dc, noNL p = true := by
  have hcomp := h
  simp only [dcNoNL, Bool.and_eq_true, List.all_eq_true] at hcomp
  obtain ⟨⟨hA, hU⟩, hR⟩ := hcomp
  intro p hp
  unfold generateParts at hp
  rcases List.mem_append.1 hp with hp1 | hpR
  · rcases List.mem_append.1 hp1 with hpA | hpU
    · split at hpA
      · rcases List.mem_append.1 hpA with h1 | h2
        · rcases List.mem_append.1 h1 with h3 | h4
          · simp only [List.mem_cons, List.not_mem_nil, or_false] at h3
            rcases h3 with rfl | rfl | rfl | rfl | rfl | rfl
            · decide
            · rfl
            · rw [noNL_append, noNL_append, noNL_append, noNL_append]
              rw [show noNL (natToStr dc.added.length) = true from natToStrFuel_noNL _ _]
              rw [substanceWord_noNL]
              decide
            · rfl
            · decide
            · rfl
          · obtain ⟨c, hc, rfl⟩ := List.mem_map.1 h4
            have hcc := hA c hc
            refine addedBullet_noNL dk c hcc.1 ?_
            intro sd hsd
            have h5 := hcc.2
            rw [hsd] at h5
            exact h5
        · simp only [List.mem_singleton] at h2
          subst h2
          rfl
      · cases hpA
    · split at hpU
      · rcases List.mem_append.1 hpU with h1 | h2
        · rcases List.mem_append.1 h1 with h3 | h4
          · simp only [List.mem_cons, List.not_mem_nil, or_false] at h3
            rcases h3 with rfl | rfl | rfl | rfl | rfl | rfl
            · decide
            · rfl
            · rw [noNL_append, noNL_append, noNL_append, noNL_cons]
              rw [show noNL (natToStr dc.updated.length) = true from natToStrFuel_noNL _ _]
              rw [substanceWord_noNL]
              decide
            · rfl
            · decide
            · rfl
          · obtain ⟨c, hc, rfl⟩ := List.mem_map.1 h4
            have hcc := hU c hc
            exact updatedBullet_noNL c hcc.1 hcc.2
        · simp only [List.mem_singleton] at h2
          subst h2
          rfl
      · cases hpU
  · split at hpR
    · rcases List.mem_append.1 hpR with h1 | h2
      · rcases List.mem_append.1 h1 with h3 | h4
        · simp only [List.mem_cons, List.not_mem_nil, or_false] at h3
          rcases h3 with rfl | rfl | rfl | rfl | rfl | rfl
          · decide
          · rfl
          · rw [noNL_append, noNL_append, noNL_append, noNL_cons]
            rw [show noNL (natToStr dc.removed.length) = true from natToStrFuel_noNL _ _]
            rw [substanceWord_noNL]
            decide
          · rfl
          · decide
          · rfl
        · obtain ⟨c, hc, rfl⟩ := List.mem_map.1 h4
          exact removedBullet_noNL c (hR c hc)
      · simp only [List.mem_singleton] at h2
        subst h2
        rfl
    · cases hpR

/-- Parsing the added block of the generated parts. -/
theorem parse_addedBlock (dk : Str) (hdne : dk.isEmpty = false) (dc : DateChanges)
    (hnA : ∀ c ∈ dc.added, goodName c.name = true) (st : PState) (hd : st.curDate = some dk) :
    ∃ sec2, parseLinesFrom st
      (if !dc.added.isEmpty then
        [lit "### New Substances Added", [],
         lit "    " ++ natToStr dc.added.length ++ [' '] ++ lit "new " ++
           substanceWord dc.added.length, [],
         lit "???+ info \"Show details\"", []] ++ dc.added.map (addedBullet dk) ++ [[]]
       else []) =
      { st with
        curSect := sec2,
        acc := addSubFold st.acc dk CType.added (dc.added.map SChange.name) } := by
  by_cases hA : dc.added.isEmpty = true
  · rw [if_neg (by simp [hA])]
    have he : dc.added = [] := by simpa [List.isEmpty_iff] using hA
    refine ⟨st.curSect, ?_⟩
    rw [he]
    rfl
  · have hA2 : dc.added.isEmpty = false := by
      revert hA
      cases dc.added.isEmpty <;> simp
    rw [if_pos (by simp [hA2])]
    exact ⟨some CType.added, parse_addedSection dk hdne dc.added hnA st hd⟩

/-- Parsing the modified block of the generated parts. -/
theorem parse_updatedBlock (dk : Str) (hdne : dk.isEmpty = false) (dc : DateChanges)
    (hnU : ∀ c ∈ dc.updated, goodName c.name = true) (st : PState) (hd : st.curDate = some dk) :
    ∃ sec2, parseLinesFrom st
      (if !dc.updated.isEmpty then
        [lit "### Substances Modified", [],
         '*' :: natToStr dc.updated.length ++ [' '] ++ substanceWord dc.updated.length ++
           lit " modified, detected through data comparison*", [],
         lit "???+ info \"Show details\"", []] ++ dc.updated.map updatedBullet ++ [[]]
       else []) =
      { st with
        curSect := sec2,
        acc := addSubFold st.acc dk CType.updated (dc.updated.map SChange.name) } := by
  by_cases hU : dc.updated.isEmpty = true
  · rw [if_neg (by simp [hU])]
    have he : dc.updated = [] := by simpa [List.isEmpty_iff] using hU
    refine ⟨st.curSect, ?_⟩
    rw [he]
    rfl
  · have hU2 : dc.updated.isEmpty = false := by
      revert hU
      cases dc.updated.isEmpty <;> simp
    rw [if_pos (by simp [hU2])]
    exact ⟨some CType.updated, parse_updatedSection dk hdne dc.updated hnU st hd⟩

/-- Parsing the removed block of the generated parts. -/
theorem parse_removedBlock (dk : Str) (hdne : dk.isEmpty = false) (dc : DateChanges)
    (hnR : ∀ c ∈ dc.removed, goodName c.name = true) (st : PState) (hd : st.curDate = some dk) :
    ∃ sec2, parseLinesFrom st
      (if !dc.removed.isEmpty then
        [lit "### Substances Removed", [],
         '*' :: natToStr dc.removed.length ++ [' '] ++ substanceWord dc.removed.length ++
           lit " removals, detected through data comparison*", [],
         lit "???+ info \"Show details\"", []] ++ dc.removed.map removedBullet ++ [[]]
       else []) =
      { st with
        curSect := sec2,
        acc := addSubFold st.acc dk CType.removed (dc.removed.map SChange.name) } := by
  by_cases hR : dc.removed.isEmpty = true
  · rw [if_neg (by simp [hR])]
    have he : dc.removed = [] := by simpa [List.isEmpty_iff] using hR
    refine ⟨st.curSect, ?_⟩
    rw [he]
    rfl
  · have hR2 : dc.removed.isEmpty = false := by
      revert hR
      cases dc.removed.isEmpty <;> simp
    rw [if_pos (by simp [hR2])]
    exact ⟨some CType.removed, parse_removedSection dk hdne dc.removed hnR st hd⟩

/-- Parsing all the generated parts of one date. -/
theorem parse_generateParts (dk : Str) (hdne : dk.isEmpty = false) (dc : DateChanges)
    (hnames : dcGoodNames dc = true) (st : PState) (hd : st.curDate = some dk) :
    ∃ sec, parseLinesFrom st (generateParts dk dc) =
      { st with
        curSect := sec,
        acc := blockAcc st.acc dk dc } := by
  have hcomp := hnames
  simp only [dcGoodNames, List.all_eq_true, List.mem_append] at hcomp
  have hnA : ∀ c ∈ dc.added, goodName c.name = true :=
    fun c hc => hcomp c (Or.inl (Or.inl hc))
  have hnU : ∀ c ∈ dc.updated, goodName c.name = true :=
    fun c hc => hcomp c (Or.inl (Or.inr hc))
  have hnR : ∀ c ∈ dc.removed, goodName c.name = true :=
    fun c hc => hcomp c (Or.inr hc)
  unfold generateParts
  rw [parseLinesFrom_append, parseLinesFrom_append]
  obtain ⟨s1, h1⟩ := parse_addedBlock dk hdne dc hnA st hd
  rw [h1]
  obtain ⟨s2, h2⟩ := parse_updatedBlock dk hdne dc hnU
    { st with
      curSect := s1,
      acc := addSubFold st.acc dk CType.added (dc.added.map SChange.name) } hd
  rw [h2]
  obtain ⟨s3, h3⟩ := parse_removedBlock dk hdne dc hnR
    { st with
      curSect := s2,
      acc := addSubFold (addSubFold st.acc dk CType.added (dc.added.map SChange.name))
        dk CType.updated (dc.updated.map SChange.name) } hd
  rw [h3]
  exact ⟨s3, rfl⟩

/-- Parsing one rendered date block of the rewritten document. -/
theorem parse_genBlockLines (dk : Str) (hgd : goodDate dk = true) (dc : DateChanges)
    (hnames : dcGoodNames dc = true) (hnl : dcNoNL dc = true) (st : PState) :
    ∃ sec, parseLinesFrom st (genBlockLines dk dc) =
      { curDate := some dk, curSect := sec, acc := blockAcc st.acc dk dc } := by
  have hdne : dk.isEmpty = false := by
    simp only [goodDate, Bool.and_eq_true, Bool.not_eq_true'] at hgd
    tauto
  show ∃ sec, parseLinesFrom st ((lit "## " ++ dk) :: [] ::
    (if (pyStrip (generateContent dk dc)).isEmpty then []
     else (splitNL (generateContent dk dc)).filter (fun l => !(pyStrip l).isEmpty) ++ [[]])) = _
  rw [parseLinesFrom_cons, parseStep_dateHeader st dk hgd]
  rw [parseLinesFrom_cons, parseStep_blank _ [] (by decide)]
  by_cases hemp : (pyStrip (generateContent dk dc)).isEmpty = true
  · rw [if_pos hemp]
    obtain ⟨hA, hU, hR⟩ := generateContent_strip_empty dk dc hemp
    have hacc : blockAcc st.acc dk dc = st.acc := by
      unfold blockAcc
      rw [hA, hU, hR]
      rfl
    refine ⟨st.curSect, ?_⟩
    rw [hacc]
    rfl
  · rw [if_neg hemp]
    rw [parseLinesFrom_append]
    rw [parse_filter_blank]
    have hne : generateParts dk dc ≠ [] := by
      intro he
      apply hemp
      rw [show generateContent dk dc =
        pyRStrip (joinSep (lit "\n\n") (generateParts dk dc)) from rfl]
      rw [he]
      decide
    rw [parse_generateContent dk dc _ hne (generateParts_noNL dk dc hnl)]
    obtain ⟨sec, hsec⟩ := parse_generateParts dk hdne dc hnames
      { st with curDate := some dk } rfl
    rw [hsec]
    rw [parseLinesFrom_cons, parseStep_blank _ [] (by decide)]
    exact ⟨sec, rfl⟩

/-- Membership in the result of a set insertion. -/
theorem memS_insedName (x n : Str) (ns : List Str) :
    memS x (insedName ns n) = (memS x ns || decide (n = x)) := by
  unfold insedName
  by_cases hm : memS n ns = true
  · rw [if_pos hm]
    by_cases hx : n = x
    · subst hx; simp [hm]
    · simp [hx]
  · rw [if_neg hm]
    rw [memS_append]
    simp [memS]

/-- Section selection after `setAdd`. -/
theorem getSect_setAdd (s : SectNames) (t t2 : CType) (n : Str) :
    getSect (setAdd s t n) t2 =
      if t = t2 then insedName (getSect s t) n else getSect s t2 := by
  cases t <;> cases t2 <;> simp [setAdd, getSect]

/-- The empty section record holds nothing. -/
theorem getSect_emptySect (t : CType) : getSect emptySect t = [] := by
  cases t <;> rfl

/-- `has_substance` on the empty parse. -/
theorem hasSubst_nil (d : Str) (t : CType) (n : Str) : hasSubst [] d t n = false := rfl

/-- `has_substance` on a cons. -/
theorem hasSubst_cons (dk : Str) (s : SectNames) (rest : ParsedChanges)
    (d2 : Str) (t2 : CType) (n2 : Str) :
    hasSubst ((dk, s) :: rest) d2 t2 n2 =
      if dk = d2 then memS n2 (getSect s t2) else hasSubst rest d2 t2 n2 := by
  have hp : pcFind ((dk, s) :: rest) d2 = (if dk = d2 then some s else pcFind rest d2) := rfl
  by_cases h : dk = d2
  · rw [if_pos h]
    unfold hasSubst
    rw [hp, if_pos h]
  · rw [if_neg h]
    unfold hasSubst
    rw [hp, if_neg h]

/-- `has_substance` after `add_substance`. -/
theorem hasSubst_addSub :
    ∀ (p : ParsedChanges) (d : Str) (t : CType) (n d2 : Str) (t2 : CType) (n2 : Str),
      hasSubst (addSub p d t n) d2 t2 n2 =
        (hasSubst p d2 t2 n2 ||
          (decide (d = d2) && decide (t = t2) && decide (n = n2))) := by
  intro p
  induction p with
  | nil =>
    intro d t n d2 t2 n2
    rw [show addSub [] d t n = [(d, setAdd emptySect t n)] from rfl]
    rw [hasSubst_cons, hasSubst_nil]
    by_cases hdd : d = d2
    · rw [if_pos hdd, getSect_setAdd]
      by_cases ht : t = t2
      · rw [if_pos ht, memS_insedName, getSect_emptySect]
        subst hdd; subst ht
        simp [memS]
      · rw [if_neg ht]
        rw [getSect_emptySect]
        simp [memS, ht]
    · rw [if_neg hdd]
      simp [hdd]
  | cons e rest ih =>
    obtain ⟨dk, s⟩ := e
    intro d t n d2 t2 n2
    rw [show addSub ((dk, s) :: rest) d t n =
      (if dk = d then (dk, setAdd s t n) :: rest else (dk, s) :: addSub rest d t n) from rfl]
    by_cases hdd : dk = d
    · rw [if_pos hdd]
      rw [hasSubst_cons, hasSubst_cons]
      by_cases h2 : dk = d2
      · rw [if_pos h2, if_pos h2, getSect_setAdd]
        subst hdd; subst h2
        by_cases ht : t = t2
        · rw [if_pos ht, memS_insedName]
          subst ht
          simp
        · rw [if_neg ht]
          simp [ht]
      · rw [if_neg h2, if_neg h2]
        subst hdd
        simp [h2]
    · rw [if_neg hdd]
      rw [hasSubst_cons, hasSubst_cons]
      by_cases h2 : dk = d2
      · rw [if_pos h2, if_pos h2]
        have hd2 : ¬(d = d2) := fun he => hdd (h2.trans he.symm)
        simp [hd2]
      · rw [if_neg h2, if_neg h2]
        exact ih d t n d2 t2 n2

/-- `has_substance` after folding `add_substance` over names. -/
theorem hasSubst_addSubFold :
    ∀ (ns : List Str) (p : ParsedChanges) (d : Str) (t : CType) (d2 : Str) (t2 : CType)
      (n2 : Str),
      hasSubst (addSubFold p d t ns) d2 t2 n2 =
        (hasSubst p d2 t2 n2 || (decide (d = d2) && decide (t = t2) && memS n2 ns)) := by
  intro ns
  induction ns with
  | nil => intro p d t d2 t2 n2; simp [addSubFold, memS]
  | cons n0 rest ih =>
    intro p d t d2 t2 n2
    rw [show addSubFold p d t (n0 :: rest) = addSubFold (addSub p d t n0) d t rest from rfl]
    rw [ih, hasSubst_addSub]
    rw [show memS n2 (n0 :: rest) = (decide (n0 = n2) || memS n2 rest) from rfl]
    cases hasSubst p d2 t2 n2 <;> cases decide (d = d2) <;> cases decide (t = t2) <;>
      cases decide (n0 = n2) <;> cases memS n2 rest <;> rfl

/-- `has_substance` after one rendered block's contribution. -/
theorem hasSubst_blockAcc (q : ParsedChanges) (d : Str) (dc : DateChanges)
    (d2 : Str) (t2 : CType) (n2 : Str) :
    hasSubst (blockAcc q d dc) d2 t2 n2 =
      (hasSubst q d2 t2 n2 ||
        (decide (d = d2) && memS n2 ((getSectDC dc t2).map SChange.name))) := by
  unfold blockAcc
  rw [hasSubst_addSubFold, hasSubst_addSubFold, hasSubst_addSubFold]
  cases t2 <;>
    cases hasSubst q d2 CType.added n2 <;>
      simp [getSectDC] <;>
        cases decide (d = d2) <;>
          cases memS n2 (dc.added.map SChange.name) <;>
            cases memS n2 (dc.updated.map SChange.name) <;>
              cases memS n2 (dc.removed.map SChange.name) <;> rfl

/-- One parser step can only add entries. -/
theorem parseStep_acc_mono (st : PState) (l : Str) (d2 : Str) (t2 : CType) (n2 : Str)
    (h : hasSubst st.acc d2 t2 n2 = true) :
    hasSubst (parseStep st l).acc d2 t2 n2 = true := by
  have hcases : (parseStep st l).acc = st.acc ∨
      ∃ dx tx nx, (parseStep st l).acc = addSub st.acc dx tx nx := by
    simp only [parseStep]
    repeat' split
    all_goals first
      | exact Or.inl rfl
      | exact Or.inr ⟨_, _, _, rfl⟩
  rcases hcases with he | ⟨dx, tx, nx, he⟩
  · rw [he]; exact h
  · rw [he, hasSubst_addSub]
    simp [h]

/-- The parser never forgets entries along a line list. -/
theorem parse_acc_mono :
    ∀ (ls : List Str) (st : PState) (d2 : Str) (t2 : CType) (n2 : Str),
      hasSubst st.acc d2 t2 n2 = true →
      hasSubst (parseLinesFrom st ls).acc d2 t2 n2 = true := by
  intro ls
  induction ls with
  | nil => intro st _ _ _ h; exact h
  | cons l rest ih =>
    intro st d2 t2 n2 h
    rw [parseLinesFrom_cons]
    exact ih _ _ _ _ (parseStep_acc_mono st l d2 t2 n2 h)

/-- Lines before the first date header leave the current date unset and
the entries untouched. -/
theorem parse_headerLines :
    ∀ (ls : List Str) (st : PState),
      (∀ l ∈ ls,
        (startsW (lit "## ") (pyStrip l) && decide (3 < (pyStrip l).length)) = false) →
      st.curDate = none →
      (parseLinesFrom st ls).curDate = none ∧ (parseLinesFrom st ls).acc = st.acc := by
  intro ls
  induction ls with
  | nil => intro st _ h; exact ⟨h, rfl⟩
  | cons l rest ih =>
    intro st hall hd
    rw [parseLinesFrom_cons]
    have hstep : (parseStep st l).curDate = none ∧ (parseStep st l).acc = st.acc := by
      have hcond := hall l (by simp)
      simp only [parseStep]
      rw [if_neg (by rw [hcond]; simp)]
      split
      · split
        · exact ⟨hd, rfl⟩
        · split
          · exact ⟨hd, rfl⟩
          · split
            · exact ⟨hd, rfl⟩
            · exact ⟨hd, rfl⟩
      · split
        · rename_i hcond2
          rw [hd] at hcond2
          simp [dateTruthy] at hcond2
        · exact ⟨hd, rfl⟩
    obtain ⟨h1, h2⟩ := hstep
    obtain ⟨h3, h4⟩ := ih (parseStep st l) (fun l2 hl2 => hall l2 (by simp [hl2])) h1
    exact ⟨h3, by rw [h4, h2]⟩

/-- One-step state weakening: starting with no current section and fewer
entries yields no extra entries. -/
theorem parseStep_sub (l : Str) (st1 st2 : PState)
    (hd : st1.curDate = st2.curDate)
    (hs : st1.curSect = st2.curSect ∨ st1.curSect = none)
    (ha : ∀ d t n, hasSubst st1.acc d t n = true → hasSubst st2.acc d t n = true) :
    (parseStep st1 l).curDate = (parseStep st2 l).curDate ∧
    ((parseStep st1 l).curSect = (parseStep st2 l).curSect ∨
      (parseStep st1 l).curSect = none) ∧
    (∀ d t n, hasSubst (parseStep st1 l).acc d t n = true →
      hasSubst (parseStep st2 l).acc d t n = true) := by
  simp only [parseStep]
  by_cases h1 : (startsW (lit "## ") (pyStrip l) && decide (3 < (pyStrip l).length)) = true
  · rw [if_pos h1, if_pos h1]
    split
    · exact ⟨rfl, hs, ha⟩
    · exact ⟨hd, hs, ha⟩
  · rw [if_neg h1, if_neg h1]
    by_cases h2 : startsW (lit "### ") (pyStrip l) = true
    · rw [if_pos h2, if_pos h2]
      split
      · exact ⟨hd, Or.inl rfl, ha⟩
      · split
        · exact ⟨hd, Or.inl rfl, ha⟩
        · split
          · exact ⟨hd, Or.inl rfl, ha⟩
          · exact ⟨hd, Or.inl rfl, ha⟩
    · rw [if_neg h2, if_neg h2]
      by_cases h3 : (startsW (lit "- **") (pyStrip l) && dateTruthy st1.curDate &&
          st1.curSect.isSome) = true
      · have hsec : st1.curSect = st2.curSect := by
          rcases hs with h | h
          · exact h
          · exfalso; rw [h] at h3; simp at h3
        have h3' : (startsW (lit "- **") (pyStrip l) && dateTruthy st2.curDate &&
            st2.curSect.isSome) = true := by
          rw [← hd, ← hsec]; exact h3
        rw [if_pos h3, if_pos h3']
        by_cases hc5 : 2 ≤ countSS (pyStrip l)
        · rw [if_pos hc5, if_pos hc5]
          cases hf5 : findSub (lit "**") (pyStrip l) with
          | none => exact ⟨hd, hs, ha⟩
          | some f =>
            dsimp only
            cases hf6 : findSubFrom (lit "**") (pyStrip l) (f + 2) with
            | none => exact ⟨hd, hs, ha⟩
            | some e =>
              dsimp only
              by_cases hlt : f + 2 < e
              · rw [if_pos hlt, if_pos hlt]
                by_cases hne :
                    (pyStrip (rstripColon (pyStrip (pySlice (pyStrip l) (f + 2) e)))).isEmpty
                      = true
                · rw [if_pos hne, if_pos hne]
                  exact ⟨hd, hs, ha⟩
                · rw [if_neg hne, if_neg hne]
                  refine ⟨hd, hs, ?_⟩
                  intro d t n hm
                  rw [hasSubst_addSub] at hm ⊢
                  rw [hd, hsec] at hm
                  simp only [Bool.or_eq_true] at hm ⊢
                  rcases hm with hm | hm
                  · exact Or.inl (ha _ _ _ hm)
                  · exact Or.inr hm
              · rw [if_neg hlt, if_neg hlt]
                exact ⟨hd, hs, ha⟩
        · rw [if_neg hc5, if_neg hc5]
          exact ⟨hd, hs, ha⟩
      · rw [if_neg h3]
        by_cases h4 : (startsW (lit "- **") (pyStrip l) && dateTruthy st2.curDate &&
            st2.curSect.isSome) = true
        · rw [if_pos h4]
          by_cases hc5 : 2 ≤ countSS (pyStrip l)
          · rw [if_pos hc5]
            cases hf5 : findSub (lit "**") (pyStrip l) with
            | none => exact ⟨hd, hs, ha⟩
            | some f =>
              dsimp only
              cases hf6 : findSubFrom (lit "**") (pyStrip l) (f + 2) with
              | none => exact ⟨hd, hs, ha⟩
              | some e =>
                dsimp only
                by_cases hlt : f + 2 < e
                · rw [if_pos hlt]
                  by_cases hne :
                      (pyStrip (rstripColon (pyStrip (pySlice (pyStrip l) (f + 2) e)))).isEmpty
                        = true
                  · rw [if_pos hne]
                    exact ⟨hd, hs, ha⟩
                  · rw [if_neg hne]
                    refine ⟨hd, hs, ?_⟩
                    intro d t n hm
                    rw [hasSubst_addSub]
                    simp only [Bool.or_eq_true]
                    exact Or.inl (ha _ _ _ hm)
                · rw [if_neg hlt]
                  exact ⟨hd, hs, ha⟩
          · rw [if_neg hc5]
            exact ⟨hd, hs, ha⟩
        · rw [if_neg h4]
          exact ⟨hd, hs, ha⟩

/-- State weakening along a line list. -/
theorem parse_sub :
    ∀ (ls : List Str) (st1 st2 : PState),
      st1.curDate = st2.curDate →
      (st1.curSect = st2.curSect ∨ st1.curSect = none) →
      (∀ d t n, hasSubst st1.acc d t n = true → hasSubst st2.acc d t n = true) →
      ∀ d t n, hasSubst (parseLinesFrom st1 ls).acc d t n = true →
        hasSubst (parseLinesFrom st2 ls).acc d t n = true := by
  intro ls
  induction ls with
  | nil => intro st1 st2 _ _ ha d t n h; exact ha d t n h
  | cons l rest ih =>
    intro st1 st2 hd hs ha d t n h
    rw [parseLinesFrom_cons] at h ⊢
    obtain ⟨hd2, hs2, ha2⟩ := parseStep_sub l st1 st2 hd hs ha
    exact ih _ _ hd2 hs2 ha2 d t n h

/-- Keys after `add_substance`: unchanged, or the new date appended. -/
theorem keys_addSub :
    ∀ (p : ParsedChanges) (d : Str) (t : CType) (n : Str),
      (addSub p d t n).map Prod.fst =
        if memS d (p.map Prod.fst) = true then p.map Prod.fst
        else p.map Prod.fst ++ [d] := by
  intro p
  induction p with
  | nil => intro d t n; simp [addSub, memS]
  | cons e rest ih =>
    obtain ⟨dk, s⟩ := e
    intro d t n
    rw [show addSub ((dk, s) :: rest) d t n =
      (if dk = d then (dk, setAdd s t n) :: rest else (dk, s) :: addSub rest d t n) from rfl]
    by_cases hdd : dk = d
    · rw [if_pos hdd]
      subst hdd
      rw [if_pos (by simp [memS])]
      simp
    · rw [if_neg hdd]
      by_cases hm : memS d (rest.map Prod.fst) = true
      · rw [if_pos (by simp [memS, hm])]
        simp only [List.map_cons]
        rw [ih, if_pos hm]
      · rw [if_neg (by simp [memS, hdd, hm])]
        simp only [List.map_cons, List.cons_append]
        rw [ih, if_neg hm]

/-- One parser step preserves the well-formedness invariant. -/
theorem parseStep_invariant (l : Str) (hl : noNL l = true) (st : PState)
    (h1 : ∀ d, st.curDate = some d → goodDate d = true)
    (h2 : ∀ d ∈ st.acc.map Prod.fst, goodDate d = true)
    (h3 : ∀ d t n, hasSubst st.acc d t n = true → parsedNameOk n = true)
    (h4 : (st.acc.map Prod.fst).Nodup) :
    (∀ d, (parseStep st l).curDate = some d → goodDate d = true) ∧
    (∀ d ∈ (parseStep st l).acc.map Prod.fst, goodDate d = true) ∧
    (∀ d t n, hasSubst (parseStep st l).acc d t n = true → parsedNameOk n = true) ∧
    ((parseStep st l).acc.map Prod.fst).Nodup := by
  simp only [parseStep]
  by_cases hc1 : (startsW (lit "## ") (pyStrip l) && decide (3 < (pyStrip l).length)) = true
  · rw [if_pos hc1]
    by_cases hc2 : (!(pyStrip ((pyStrip l).drop 3)).isEmpty &&
        !startsW (lit "#") (pyStrip ((pyStrip l).drop 3))) = true
    · rw [if_pos hc2]
      refine ⟨?_, h2, h3, h4⟩
      intro d hd
      injection hd with hd2
      subst hd2
      have hcomp := hc2
      simp only [Bool.and_eq_true, Bool.not_eq_true'] at hcomp
      unfold goodDate
      rw [hcomp.1, hcomp.2, edgeClean_pyStrip]
      rw [show noNL (pyStrip ((pyStrip l).drop 3)) = true from ?_]
      · rfl
      · refine noNL_subset ?_ hl
        intro c hc
        have hc2b := mem_pyStrip hc
        have hc3b : c ∈ pyStrip l := (List.drop_subset _ _) hc2b
        exact mem_pyStrip hc3b
    · rw [if_neg hc2]
      exact ⟨h1, h2, h3, h4⟩
  · rw [if_neg hc1]
    by_cases hc3 : startsW (lit "### ") (pyStrip l) = true
    · rw [if_pos hc3]
      split
      · exact ⟨h1, h2, h3, h4⟩
      · split
        · exact ⟨h1, h2, h3, h4⟩
        · split
          · exact ⟨h1, h2, h3, h4⟩
          · exact ⟨h1, h2, h3, h4⟩
    · rw [if_neg hc3]
      by_cases hc4 : (startsW (lit "- **") (pyStrip l) && dateTruthy st.curDate &&
          st.curSect.isSome) = true
      · rw [if_pos hc4]
        have hdate : ∃ d0, st.curDate = some d0 ∧ goodDate d0 = true := by
          cases hcd : st.curDate with
          | none => rw [hcd] at hc4; simp [dateTruthy] at hc4
          | some d0 => exact ⟨d0, rfl, h1 d0 hcd⟩
        obtain ⟨d0, hd0, hgd0⟩ := hdate
        by_cases hc5 : 2 ≤ countSS (pyStrip l)
        · rw [if_pos hc5]
          cases hf5 : findSub (lit "**") (pyStrip l) with
          | none => exact ⟨h1, h2, h3, h4⟩
          | some f =>
            dsimp only
            cases hf6 : findSubFrom (lit "**") (pyStrip l) (f + 2) with
            | none => exact ⟨h1, h2, h3, h4⟩
            | some e =>
              dsimp only
              by_cases hlt : f + 2 < e
              · rw [if_pos hlt]
                by_cases hne :
                    (pyStrip (rstripColon (pyStrip (pySlice (pyStrip l) (f + 2) e)))).isEmpty
                      = true
                · rw [if_pos hne]
                  exact ⟨h1, h2, h3, h4⟩
                · rw [if_neg hne]
                  have hname : parsedNameOk
                      (pyStrip (rstripColon (pyStrip (pySlice (pyStrip l) (f + 2) e)))) =
                        true := by
                    unfold parsedNameOk
                    have hA : (pyStrip (rstripColon
                        (pyStrip (pySlice (pyStrip l) (f + 2) e)))).isEmpty = false := by
                      revert hne
                      cases (pyStrip (rstripColon
                        (pyStrip (pySlice (pyStrip l) (f + 2) e)))).isEmpty <;> simp
                    rw [hA, edgeClean_pyStrip]
                    have hnl2 : noNL (pyStrip (rstripColon
                        (pyStrip (pySlice (pyStrip l) (f + 2) e)))) = true := by
                      refine noNL_subset ?_ hl
                      intro c hc
                      have hc1b := mem_pyStrip hc
                      have hc2b := (rstripColon_prefix_self _).subset hc1b
                      have hc3b := mem_pyStrip hc2b
                      have hc4b : c ∈ pyStrip l := by
                        unfold pySlice at hc3b
                        exact (List.take_subset _ _) ((List.drop_subset _ _) hc3b)
                      exact mem_pyStrip hc4b
                    rw [hnl2]
                    have hnosub : hasSub (lit "**") (pyStrip (rstripColon
                        (pyStrip (pySlice (pyStrip l) (f + 2) e)))) = false := by
                      have hk : ∃ k, findSub (lit "**") ((pyStrip l).drop (f + 2)) = some k ∧
                          k + (f + 2) = e := by
                        unfold findSubFrom at hf6
                        rcases Option.map_eq_some'.1 hf6 with ⟨k, hk1, hk2⟩
                        exact ⟨k, hk1, hk2⟩
                      obtain ⟨k, hk1, hk2⟩ := hk
                      have hslice : pySlice (pyStrip l) (f + 2) e =
                          ((pyStrip l).drop (f + 2)).take k := by
                        unfold pySlice
                        rw [List.drop_take]
                        congr 1
                        omega
                      have htf := hasSub_take_false (lit "**") ((pyStrip l).drop (f + 2)) k
                        (by decide) hk1
                      by_contra hcon
                      rw [Bool.not_eq_false] at hcon
                      have hstep1 := hasSub_of_infix (lit "**") (pyStrip_infix_self _) hcon
                      have hstep2 := hasSub_of_infix (lit "**")
                        (rstripColon_prefix_self _).isInfix hstep1
                      have hstep3 := hasSub_of_infix (lit "**") (pyStrip_infix_self _) hstep2
                      rw [hslice] at hstep3
                      rw [htf] at hstep3
                      cases hstep3
                    rw [hnosub]
                    rfl
                  refine ⟨h1, ?_, ?_, ?_⟩
                  · intro d hdk
                    rw [keys_addSub] at hdk
                    split at hdk
                    · exact h2 d hdk
                    · rcases List.mem_append.1 hdk with hm1 | hm2
                      · exact h2 d hm1
                      · simp only [List.mem_singleton] at hm2
                        subst hm2
                        rw [hd0]
                        exact hgd0
                  · intro d t n hhs
                    rw [hasSubst_addSub] at hhs
                    simp only [Bool.or_eq_true, Bool.and_eq_true, decide_eq_true_eq] at hhs
                    rcases hhs with hhs | ⟨⟨_, _⟩, hn⟩
                    · exact h3 d t n hhs
                    · subst hn
                      exact hname
                  · rw [keys_addSub]
                    split
                    · exact h4
                    · rename_i hmem
                      rw [List.nodup_append]
                      refine ⟨h4, List.nodup_singleton _, ?_⟩
                      intro x hx hx2
                      simp only [List.map_cons, List.map_nil, List.mem_singleton] at hx2
                      subst hx2
                      exact hmem ((memS_iff_mem _ _).2 hx)
              · rw [if_neg hlt]
                exact ⟨h1, h2, h3, h4⟩
        · rw [if_neg hc5]
          exact ⟨h1, h2, h3, h4⟩
      · rw [if_neg hc4]
        exact ⟨h1, h2, h3, h4⟩

/-- The parser invariant along a line list. -/
theorem parse_invariant :
    ∀ (ls : List Str), (∀ l ∈ ls, noNL l = true) →
      ∀ st : PState,
      (∀ d, st.curDate = some d → goodDate d = true) →
      (∀ d ∈ st.acc.map Prod.fst, goodDate d = true) →
      (∀ d t n, hasSubst st.acc d t n = true → parsedNameOk n = true) →
      (st.acc.map Prod.fst).Nodup →
      (∀ d, (parseLinesFrom st ls).curDate = some d → goodDate d = true) ∧
      (∀ d ∈ (parseLinesFrom st ls).acc.map Prod.fst, goodDate d = true) ∧
      (∀ d t n, hasSubst (parseLinesFrom st ls).acc d t n = true → parsedNameOk n = true) ∧
      ((parseLinesFrom st ls).acc.map Prod.fst).Nodup := by
  intro ls
  induction ls with
  | nil => intro _ st h1 h2 h3 h4; exact ⟨h1, h2, h3, h4⟩
  | cons l rest ih =>
    intro hall st h1 h2 h3 h4
    rw [parseLinesFrom_cons]
    obtain ⟨g1, g2, g3, g4⟩ := parseStep_invariant l (hall l (by simp)) st h1 h2 h3 h4
    exact ih (fun l2 hl2 => hall l2 (by simp [hl2])) _ g1 g2 g3 g4

/-- Every parsed changelog has well-formed dates, well-shaped names, and
distinct date keys. -/
theorem parseDoc_invariant (D : Str) :
    (∀ d ∈ (parseDoc D).map Prod.fst, goodDate d = true) ∧
    (∀ d t n, hasSubst (parseDoc D) d t n = true → parsedNameOk n = true) ∧
    ((parseDoc D).map Prod.fst).Nodup := by
  unfold parseDoc
  have h := parse_invariant (splitNL D) (fun l hl => noNL_mem_splitNL D l hl)
    ⟨none, none, []⟩
    (by intro d hd; cases hd)
    (by intro d hd; cases hd)
    (by intro d t n hh; rw [hasSubst_nil] at hh; cases hh)
    (by simp)
  exact ⟨h.2.1, h.2.2.1, h.2.2.2⟩

/-- Membership survives deduplication. -/
theorem mem_dedupS : ∀ (l : List Str) (x : Str), x ∈ dedupS l ↔ x ∈ l := by
  intro l
  induction l with
  | nil => intro x; simp [dedupS]
  | cons y t ih =>
    intro x
    unfold dedupS
    by_cases hm : memS y t = true
    · rw [if_pos hm, ih]
      constructor
      · intro h; exact List.mem_cons_of_mem _ h
      · intro h
        rcases List.mem_cons.1 h with h | h
        · subst h; exact (memS_iff_mem _ _).1 hm
        · exact h
    · rw [if_neg hm]
      simp only [List.mem_cons]
      rw [ih]

/-- Deduplication yields a duplicate-free list. -/
theorem dedupS_nodup : ∀ l : List Str, (dedupS l).Nodup := by
  intro l
  induction l with
  | nil => exact List.nodup_nil
  | cons y t ih =>
    unfold dedupS
    by_cases hm : memS y t = true
    · rw [if_pos hm]; exact ih
    · rw [if_neg hm]
      rw [List.nodup_cons]
      exact ⟨fun hy => hm ((memS_iff_mem _ _).2 ((mem_dedupS t y).1 hy)), ih⟩

/-- Deduplication of a duplicate-free list is the identity. -/
theorem dedupS_eq_self : ∀ l : List Str, l.Nodup → dedupS l = l := by
  intro l
  induction l with
  | nil => intro _; rfl
  | cons y t ih =>
    intro h
    rw [List.nodup_cons] at h
    unfold dedupS
    rw [if_neg (fun hm => h.1 ((memS_iff_mem _ _).1 hm)), ih h.2]

/-- Membership in an insertion. -/
theorem mem_insDesc : ∀ (l : List Str) (x y : Str), y ∈ insDesc x l ↔ y = x ∨ y ∈ l := by
  intro l
  induction l with
  | nil => intro x y; simp [insDesc]
  | cons z t ih =>
    intro x y
    unfold insDesc
    by_cases hlt : ltS x z = true
    · rw [if_pos hlt]
      simp only [List.mem_cons]
      rw [ih]
      tauto
    · rw [if_neg hlt]
      simp only [List.mem_cons]

/-- Insertion is a permutation of consing. -/
theorem insDesc_perm (x : Str) : ∀ l : List Str, (insDesc x l).Perm (x :: l) := by
  intro l
  induction l with
  | nil => exact List.Perm.refl _
  | cons y t ih =>
    unfold insDesc
    by_cases hlt : ltS x y = true
    · rw [if_pos hlt]
      exact (List.Perm.cons y ih).trans (List.Perm.swap x y t)
    · rw [if_neg hlt]

/-- Descending sort is a permutation. -/
theorem sortDesc_perm : ∀ l : List Str, (sortDesc l).Perm l := by
  intro l
  induction l with
  | nil => exact List.Perm.refl _
  | cons x t ih =>
    unfold sortDesc
    exact (insDesc_perm x (sortDesc t)).trans (List.Perm.cons x ih)

/-- Membership in the sorted list. -/
theorem mem_sortDesc (l : List Str) (y : Str) : y ∈ sortDesc l ↔ y ∈ l :=
  (sortDesc_perm l).mem_iff

/-- Incomparable characters are equal. -/
theorem char_eq_of_not_lt {a b : Char} (h1 : ¬a < b) (h2 : ¬b < a) : a = b :=
  le_antisymm (not_lt.1 h2) (not_lt.1 h1)

/-- String comparison is irreflexive. -/
theorem ltS_irrefl : ∀ s : Str, ltS s s = false := by
  intro s
  induction s with
  | nil => rfl
  | cons a t ih =>
    unfold ltS
    rw [if_neg (lt_irrefl a), if_neg (lt_irrefl a)]
    exact ih

/-- String comparison is transitive. -/
theorem ltS_trans : ∀ s t u : Str, ltS s t = true → ltS t u = true → ltS s u = true := by
  intro s
  induction s with
  | nil =>
    intro t u h1 h2
    cases u with
    | nil =>
      cases t with
      | nil => exact h2
      | cons b bs => rw [show ltS (b :: bs) [] = false from rfl] at h2; cases h2
    | cons c cs => rfl
  | cons a as ih =>
    intro t u h1 h2
    cases t with
    | nil => rw [show ltS (a :: as) [] = false from rfl] at h1; cases h1
    | cons b bs =>
      cases u with
      | nil => rw [show ltS (b :: bs) [] = false from rfl] at h2; cases h2
      | cons c cs =>
        rw [show ltS (a :: as) (b :: bs) =
          (if a < b then true else if b < a then false else ltS as bs) from rfl] at h1
        rw [show ltS (b :: bs) (c :: cs) =
          (if b < c then true else if c < b then false else ltS bs cs) from rfl] at h2
        rw [show ltS (a :: as) (c :: cs) =
          (if a < c then true else if c < a then false else ltS as cs) from rfl]
        by_cases hab : a < b
        · by_cases hbc : b < c
          · rw [if_pos (hab.trans hbc)]
          · rw [if_neg hbc] at h2
            by_cases hcb : c < b
            · rw [if_pos hcb] at h2; cases h2
            · have he : b = c := char_eq_of_not_lt hbc hcb
              subst he
              rw [if_pos hab]
        · rw [if_neg hab] at h1
          by_cases hba : b < a
          · rw [if_pos hba] at h1; cases h1
          · have he : a = b := char_eq_of_not_lt hab hba
            subst he
            rw [if_neg (lt_irrefl a)] at h1
            by_cases hac : a < c
            · rw [if_pos hac]
            · rw [if_neg hac] at h2 ⊢
              by_cases hca : c < a
              · rw [if_pos hca] at h2; cases h2
              · rw [if_neg hca] at h2 ⊢
                exact ih bs cs h1 h2

/-- Totality: incomparable strings are equal. -/
theorem ltS_total : ∀ s t : Str, ltS s t = false → ltS t s = true ∨ s = t := by
  intro s
  induction s with
  | nil =>
    intro t h
    cases t with
    | nil => exact Or.inr rfl
    | cons b bs => rw [show ltS [] (b :: bs) = true from rfl] at h; cases h
  | cons a as ih =>
    intro t h
    cases t with
    | nil => exact Or.inl rfl
    | cons b bs =>
      rw [show ltS (a :: as) (b :: bs) =
        (if a < b then true else if b < a then false else ltS as bs) from rfl] at h
      rw [show ltS (b :: bs) (a :: as) =
        (if b < a then true else if a < b then false else ltS bs as) from rfl]
      by_cases hab : a < b
      · rw [if_pos hab] at h; cases h
      · rw [if_neg hab] at h
        by_cases hba : b < a
        · rw [if_pos hba]
          exact Or.inl rfl
        · rw [if_neg hba] at h ⊢
          rw [if_neg hab]
          have he : a = b := char_eq_of_not_lt hab hba
          subst he
          rcases ih bs h with h2 | h2
          · exact Or.inl h2
          · rw [h2]
            exact Or.inr rfl

/-- Insertion preserves weakly descending order. -/
theorem insDesc_sorted (x : Str) :
    ∀ l : List Str, l.Pairwise (fun a b => ltS a b = false) →
      (insDesc x l).Pairwise (fun a b => ltS a b = false) := by
  intro l
  induction l with
  | nil => intro _; simp [insDesc]
  | cons y t ih =>
    intro hp
    rw [List.pairwise_cons] at hp
    unfold insDesc
    by_cases hlt : ltS x y = true
    · rw [if_pos hlt]
      rw [List.pairwise_cons]
      constructor
      · intro z hz
        rw [mem_insDesc] at hz
        rcases hz with hz | hz
        · rw [hz]
          by_contra hcon
          rw [Bool.not_eq_false] at hcon
          have h9 := ltS_trans x y x hlt hcon
          rw [ltS_irrefl] at h9
          cases h9
        · exact hp.1 z hz
      · exact ih hp.2
    · rw [if_neg hlt]
      have hxy : ltS x y = false := by revert hlt; cases ltS x y <;> simp
      rw [List.pairwise_cons]
      constructor
      · intro z hz
        rcases List.mem_cons.1 hz with hz | hz
        · subst hz
          exact hxy
        · have hyz : ltS y z = false := hp.1 z hz
          by_contra hcon
          rw [Bool.not_eq_false] at hcon
          rcases ltS_total y z hyz with h2 | h2
          · have h9 := ltS_trans x z y hcon h2
            rw [hxy] at h9; cases h9
          · rw [← h2] at hcon
            rw [hxy] at hcon; cases hcon
      · rw [List.pairwise_cons]
        exact ⟨hp.1, hp.2⟩

/-- The sort is weakly descending. -/
theorem sortDesc_sorted :
    ∀ l : List Str, (sortDesc l).Pairwise (fun a b => ltS a b = false) := by
  intro l
  induction l with
  | nil => simp [sortDesc]
  | cons x t ih => exact insDesc_sorted x _ ih

/-- Sorting the deduplicated dates gives a strictly descending
duplicate-free list. -/
theorem sortDesc_dedupS_strict (l : List Str) :
    (sortDesc (dedupS l)).Pairwise (fun a b => ltS b a = true) ∧
      (sortDesc (dedupS l)).Nodup := by
  have hnd : (sortDesc (dedupS l)).Nodup :=
    ((sortDesc_perm (dedupS l)).nodup_iff).2 (dedupS_nodup l)
  refine ⟨?_, hnd⟩
  have hs := sortDesc_sorted (dedupS l)
  have hcomb := List.Pairwise.and hs hnd
  refine hcomb.imp ?_
  rintro a b ⟨hab, hne⟩
  rcases ltS_total a b hab with h | h
  · exact h
  · exact absurd h hne

/-- A successful date lookup is a member. -/
theorem pcFind_mem : ∀ (p : ParsedChanges) (d : Str) (s : SectNames),
    pcFind p d = some s → (d, s) ∈ p := by
  intro p
  induction p with
  | nil => intro d s h; cases h
  | cons e rest ih =>
    obtain ⟨dk, s0⟩ := e
    intro d s h
    rw [show pcFind ((dk, s0) :: rest) d = (if dk = d then some s0 else pcFind rest d)
      from rfl] at h
    by_cases hdd : dk = d
    · rw [if_pos hdd] at h
      injection h with h2
      subst h2
      subst hdd
      exact List.mem_cons_self _ _
    · rw [if_neg hdd] at h
      exact List.mem_cons_of_mem _ (ih d s h)

/-- With distinct keys, membership determines the lookup. -/
theorem pcFind_of_mem_nodup : ∀ (p : ParsedChanges), (p.map Prod.fst).Nodup →
    ∀ (d : Str) (s : SectNames), (d, s) ∈ p → pcFind p d = some s := by
  intro p
  induction p with
  | nil => intro _ d s h; cases h
  | cons e rest ih =>
    obtain ⟨dk, s0⟩ := e
    intro hnd d s h
    simp only [List.map_cons, List.nodup_cons] at hnd
    rw [show pcFind ((dk, s0) :: rest) d = (if dk = d then some s0 else pcFind rest d)
      from rfl]
    rcases List.mem_cons.1 h with h | h
    · injection h with h1 h2
      subst h1
      subst h2
      rw [if_pos rfl]
    · by_cases hdd : dk = d
      · exfalso
        subst hdd
        exact hnd.1 (List.mem_map.2 ⟨(dk, s), h, rfl⟩)
      · rw [if_neg hdd]
        exact ih hnd.2 d s h

/-- A present parse key has a section record. -/
theorem memS_imp_pcFind_isSome : ∀ (p : ParsedChanges) (d : Str),
    memS d (p.map Prod.fst) = true → (pcFind p d).isSome = true := by
  intro p
  induction p with
  | nil => intro d h; simp [memS] at h
  | cons e rest ih =>
    obtain ⟨dk, s0⟩ := e
    intro d h
    rw [show pcFind ((dk, s0) :: rest) d = (if dk = d then some s0 else pcFind rest d)
      from rfl]
    by_cases hdd : dk = d
    · rw [if_pos hdd]; rfl
    · rw [if_neg hdd]
      simp only [List.map_cons, memS] at h
      exact ih d (by simpa [hdd] using h)

/-- A found parse key is a member of the key list. -/
theorem pcFind_isSome_memS : ∀ (p : ParsedChanges) (d : Str),
    (pcFind p d).isSome = true → memS d (p.map Prod.fst) = true := by
  intro p
  induction p with
  | nil => intro d h; cases h
  | cons e rest ih =>
    obtain ⟨dk, s0⟩ := e
    intro d h
    rw [show pcFind ((dk, s0) :: rest) d = (if dk = d then some s0 else pcFind rest d)
      from rfl] at h
    by_cases hdd : dk = d
    · simp [memS, hdd]
    · rw [if_neg hdd] at h
      simp only [List.map_cons, memS]
      rw [ih d h]
      simp

/-- `add_change` keeps sections typed. -/
theorem dcTyped_addChange (dc : DateChanges) (c : SChange) (h : dcTyped dc) :
    dcTyped (addChange dc c) := by
  obtain ⟨hA, hU, hR⟩ := h
  unfold addChange
  cases hct : c.ctype with
  | added =>
    refine ⟨?_, hU, hR⟩
    intro x hx
    rcases List.mem_append.1 hx with hx | hx
    · exact hA x hx
    · simp only [List.mem_singleton] at hx
      subst hx
      exact hct
  | updated =>
    refine ⟨hA, ?_, hR⟩
    intro x hx
    rcases List.mem_append.1 hx with hx | hx
    · exact hU x hx
    · simp only [List.mem_singleton] at hx
      subst hx
      exact hct
  | removed =>
    refine ⟨hA, hU, ?_⟩
    intro x hx
    rcases List.mem_append.1 hx with hx | hx
    · exact hR x hx
    · simp only [List.mem_singleton] at hx
      subst hx
      exact hct

/-- `bAdd` keeps all buckets typed. -/
theorem bAdd_typed : ∀ (bs : List (Str × DateChanges)) (d : Str) (c : SChange),
    (∀ p ∈ bs, dcTyped p.2) → ∀ p ∈ bAdd bs d c, dcTyped p.2 := by
  intro bs
  induction bs with
  | nil => intro d c _ p hp; cases hp
  | cons e rest ih =>
    obtain ⟨dk, dc0⟩ := e
    intro d c hall p hp
    rw [show bAdd ((dk, dc0) :: rest) d c =
      (if dk = d then (dk, addChange dc0 c) :: rest else (dk, dc0) :: bAdd rest d c)
      from rfl] at hp
    by_cases hdd : dk = d
    · rw [if_pos hdd] at hp
      rcases List.mem_cons.1 hp with hp | hp
      · subst hp
        exact dcTyped_addChange dc0 c (hall (dk, dc0) (List.mem_cons_self _ _))
      · exact hall p (List.mem_cons_of_mem _ hp)
    · rw [if_neg hdd] at hp
      rcases List.mem_cons.1 hp with hp | hp
      · subst hp
        exact hall (dk, dc0) (List.mem_cons_self _ _)
      · exact ih d c (fun q hq => hall q (List.mem_cons_of_mem _ hq)) p hp

/-- `bEnsure` keeps all buckets typed. -/
theorem bEnsure_typed (bs : List (Str × DateChanges)) (d : Str)
    (h : ∀ p ∈ bs, dcTyped p.2) : ∀ p ∈ bEnsure bs d, dcTyped p.2 := by
  unfold bEnsure
  intro p hp
  split at hp
  · exact h p hp
  · rcases List.mem_append.1 hp with hp | hp
    · exact h p hp
    · simp only [List.mem_singleton] at hp
      subst hp
      simp [dcTyped, emptyDC]

/-- The grouping loop keeps all buckets typed. -/
theorem groupFold_typed (ex : ParsedChanges) (today : Str) :
    ∀ (cs : List SChange) (acc : GroupAcc),
      (∀ p ∈ acc.buckets, dcTyped p.2) →
      ∀ p ∈ (groupFold ex today cs acc).buckets, dcTyped p.2 := by
  intro cs
  induction cs with
  | nil => intro acc h; exact h
  | cons c0 rest ih =>
    intro acc h
    simp only [groupFold]
    split
    · split
      · exact ih _ (bEnsure_typed _ _ h)
      · exact ih _ (bAdd_typed _ _ _ (bEnsure_typed _ _ h))
    · split
      · exact ih _ h
      · split
        · exact ih _ (bEnsure_typed _ _ h)
        · exact ih _ (bAdd_typed _ _ _ (bEnsure_typed _ _ h))

/-- The computed-changes loop keeps all buckets typed. -/
theorem computedFold_typed (ex : ParsedChanges) (dd : Str) :
    ∀ (cs : List SChange) (bs : List (Str × DateChanges)),
      (∀ p ∈ bs, dcTyped p.2) →
      ∀ p ∈ computedFold ex dd cs bs, dcTyped p.2 := by
  intro cs
  induction cs with
  | nil => intro bs h; exact h
  | cons c0 rest ih =>
    intro bs h
    simp only [computedFold]
    split
    · exact ih _ h
    · exact ih _ (bAdd_typed _ _ _ h)

/-- All buckets assembled by the merger are typed. -/
theorem buildBuckets_typed (C : List SChange) (ex : ParsedChanges) (today : Str)
    (ddOpt : Option Str) :
    ∀ p ∈ buildBuckets C ex today ddOpt, dcTyped p.2 := by
  unfold buildBuckets
  intro p hp
  have hp2 := List.mem_of_mem_filter hp
  split at hp2
  · exact computedFold_typed ex _ _ _
      (bEnsure_typed _ _ (groupFold_typed ex today C ⟨[], []⟩ (by intro q hq; cases hq)))
      p hp2
  · exact groupFold_typed ex today C ⟨[], []⟩ (by intro q hq; cases hq) p hp2

/-- A found bucket is a member. -/
theorem pcFind2_mem : ∀ (bs : List (Str × DateChanges)) (d : Str) (dc : DateChanges),
    pcFind2 bs d = some dc → (d, dc) ∈ bs := by
  intro bs
  induction bs with
  | nil => intro d dc h; cases h
  | cons e rest ih =>
    obtain ⟨dk, dc0⟩ := e
    intro d dc h
    rw [show pcFind2 ((dk, dc0) :: rest) d = (if dk = d then some dc0 else pcFind2 rest d)
      from rfl] at h
    by_cases hdd : dk = d
    · rw [if_pos hdd] at h
      injection h with h2
      subst h2
      subst hdd
      exact List.mem_cons_self _ _
    · rw [if_neg hdd] at h
      exact List.mem_cons_of_mem _ (ih d dc h)

/-- A change found in a merged bucket lies in the section of its own
type. -/
theorem memDC_getSectDC (dc : DateChanges) (c : SChange) (htyped : dcTyped dc)
    (h : memDC c dc = true) : c ∈ getSectDC dc c.ctype := by
  obtain ⟨hA, hU, hR⟩ := htyped
  simp only [memDC, Bool.or_eq_true, decide_eq_true_eq] at h
  rcases h with (h | h) | h
  · rw [hA c h]
    exact h
  · rw [hU c h]
    exact h
  · rw [hR c h]
    exact h

/-- Name extraction from a well-formed change. -/
theorem goodChange_name (c : SChange) (h : goodChange c = true) :
    goodName c.name = true := by
  unfold goodChange at h
  simp only [Bool.and_eq_true] at h
  exact h.1.1

/-- Field extraction from a well-formed change. -/
theorem goodChange_fields (c : SChange) (h : goodChange c = true) :
    ∀ f ∈ c.fields, noNL f = true := by
  unfold goodChange at h
  simp only [Bool.and_eq_true, List.all_eq_true] at h
  exact h.1.2

/-- Source-date extraction from a well-formed change. -/
theorem goodChange_sourceDate (c : SChange) (h : goodChange c = true) :
    ∀ sd, c.sourceDate = some sd → goodDate sd = true := by
  intro sd hsd
  unfold goodChange at h
  simp only [Bool.and_eq_true] at h
  have h2 := h.2
  rw [hsd] at h2
  exact h2

/-- Upper bound on the keys produced by the grouping loop. -/
theorem groupFold_keys_src (ex : ParsedChanges) (today : Str) :
    ∀ (cs : List SChange) (acc : GroupAcc) (d : Str),
      memS d ((groupFold ex today cs acc).buckets.map Prod.fst) = true →
      memS d (acc.buckets.map Prod.fst) = true ∨ d = today ∨
        ∃ c ∈ cs, c.sourceDate = some d ∧ sourceDateTruthy c = true := by
  intro cs
  induction cs with
  | nil => intro acc d h; exact Or.inl (by simpa [groupFold] using h)
  | cons c0 rest ih =>
    intro acc d h
    have hens : ∀ (d2 : Str) (bs : List (Str × DateChanges)),
        memS d ((bEnsure bs d2).map Prod.fst) = true →
        memS d (bs.map Prod.fst) = true ∨ d = d2 := by
      intro d2 bs hm
      rcases keys_bEnsure d2 bs with he | he
      · rw [he] at hm; exact Or.inl hm
      · rw [he, memS_append] at hm
        rw [Bool.or_eq_true] at hm
        rcases hm with hm | hm
        · exact Or.inl hm
        · right
          simp only [memS, Bool.or_eq_true, decide_eq_true_eq] at hm
          rcases hm with hm | hm
          · exact hm.symm
          · cases hm
    simp only [groupFold] at h
    split at h
    case isTrue hc =>
      simp only [Bool.and_eq_true, decide_eq_true_eq] at hc
      have hsd : ∃ s, c0.sourceDate = some s ∧ s = c0.sourceDate.getD [] := by
        cases hs : c0.sourceDate with
        | none => rw [show sourceDateTruthy c0 = false from by unfold sourceDateTruthy; rw [hs]] at hc; cases hc.2
        | some s => exact ⟨s, rfl, rfl⟩
      obtain ⟨s, hs1, hs2⟩ := hsd
      split at h
      · rcases ih _ _ h with h2 | h2 | h2
        · rcases hens _ _ h2 with h3 | h3
          · exact Or.inl h3
          · right; right
            exact ⟨c0, List.mem_cons_self _ _, by rw [hs1, hs2, h3], hc.2⟩
        · exact Or.inr (Or.inl h2)
        · obtain ⟨c, hcc, hcs⟩ := h2
          exact Or.inr (Or.inr ⟨c, List.mem_cons_of_mem _ hcc, hcs⟩)
      · rcases ih _ _ h with h2 | h2 | h2
        · rw [keys_bAdd] at h2
          rcases hens _ _ h2 with h3 | h3
          · exact Or.inl h3
          · right; right
            exact ⟨c0, List.mem_cons_self _ _, by rw [hs1, hs2, h3], hc.2⟩
        · exact Or.inr (Or.inl h2)
        · obtain ⟨c, hcc, hcs⟩ := h2
          exact Or.inr (Or.inr ⟨c, List.mem_cons_of_mem _ hcc, hcs⟩)
    case isFalse =>
      split at h
      · rcases ih _ _ h with h2 | h2 | h2
        · exact Or.inl h2
        · exact Or.inr (Or.inl h2)
        · obtain ⟨c, hcc, hcs⟩ := h2
          exact Or.inr (Or.inr ⟨c, List.mem_cons_of_mem _ hcc, hcs⟩)
      · split at h
        · rcases ih _ _ h with h2 | h2 | h2
          · rcases hens _ _ h2 with h3 | h3
            · exact Or.inl h3
            · exact Or.inr (Or.inl h3)
          · exact Or.inr (Or.inl h2)
          · obtain ⟨c, hcc, hcs⟩ := h2
            exact Or.inr (Or.inr ⟨c, List.mem_cons_of_mem _ hcc, hcs⟩)
        · rcases ih _ _ h with h2 | h2 | h2
          · rw [keys_bAdd] at h2
            rcases hens _ _ h2 with h3 | h3
            · exact Or.inl h3
            · exact Or.inr (Or.inl h3)
          · exact Or.inr (Or.inl h2)
          · obtain ⟨c, hcc, hcs⟩ := h2
            exact Or.inr (Or.inr ⟨c, List.mem_cons_of_mem _ hcc, hcs⟩)

/-- Upper bound on the keys of the assembled buckets. -/
theorem buildBuckets_keys (C : List SChange) (ex : ParsedChanges) (today : Str)
    (ddOpt : Option Str) (d : Str)
    (h : memS d ((buildBuckets C ex today ddOpt).map Prod.fst) = true) :
    d = today ∨ d = resolveDetection ddOpt today ∨
      ∃ c ∈ C, c.sourceDate = some d ∧ sourceDateTruthy c = true := by
  unfold buildBuckets at h
  have hsub : ∀ (bs : List (Str × DateChanges)),
      memS d ((bs.filter (fun p => hasChangesDC p.2)).map Prod.fst) = true →
      memS d (bs.map Prod.fst) = true := by
    intro bs hm
    rw [memS_iff_mem] at hm ⊢
    obtain ⟨p, hp, hpe⟩ := List.mem_map.1 hm
    exact List.mem_map.2 ⟨p, List.mem_of_mem_filter hp, hpe⟩
  have h2 := hsub _ h
  split at h2
  · rw [keys_computedFold_eq] at h2
    rcases keys_bEnsure (resolveDetection ddOpt today) _ with he | he
    · rw [he] at h2
      rcases groupFold_keys_src ex today C ⟨[], []⟩ d h2 with h3 | h3 | h3
      · simp [memS] at h3
      · exact Or.inl h3
      · exact Or.inr (Or.inr h3)
    · rw [he, memS_append] at h2
      rw [Bool.or_eq_true] at h2
      rcases h2 with h3 | h3
      · rcases groupFold_keys_src ex today C ⟨[], []⟩ d h3 with h4 | h4 | h4
        · simp [memS] at h4
        · exact Or.inl h4
        · exact Or.inr (Or.inr h4)
      · simp only [memS, Bool.or_eq_true, decide_eq_true_eq] at h3
        rcases h3 with h3 | h3
        · exact Or.inr (Or.inl h3.symm)
        · cases h3
  · rcases groupFold_keys_src ex today C ⟨[], []⟩ d h2 with h3 | h3 | h3
    · simp [memS] at h3
    · exact Or.inl h3
    · exact Or.inr (Or.inr h3)

/-- `dateHeadersOf` is the per-line recognizer mapped over the lines. -/
theorem dateHeadersOf_eq (doc : Str) :
    dateHeadersOf doc = (splitNL doc).filterMap headerDate := rfl

/-- The empty line is not a date header. -/
theorem headerDate_nil : headerDate [] = none := rfl

/-- A line failing the parser's date-header test yields no header. -/
theorem headerDate_none (l : Str)
    (h : (startsW (lit "## ") (pyStrip l) && decide (3 < (pyStrip l).length)) = false) :
    headerDate l = none := by
  rw [show headerDate l =
    (if (startsW (lit "## ") (pyStrip l) && decide (3 < (pyStrip l).length)) = true then
      (if (!(pyStrip ((pyStrip l).drop 3)).isEmpty &&
            !startsW (lit "#") (pyStrip ((pyStrip l).drop 3))) = true then
        some (pyStrip ((pyStrip l).drop 3))
      else none)
    else none) from rfl]
  rw [h]
  rfl

/-- A line whose stripped form does not start with the date marker yields
no header. -/
theorem headerDate_not_date (l : Str)
    (h : startsW (lit "## ") (pyStrip l) = false) : headerDate l = none := by
  apply headerDate_none
  rw [h]
  rfl

/-- A rendered date header is recognized back as exactly its date. -/
theorem headerDate_dateHeader (d : Str) (hd : goodDate d = true) :
    headerDate (lit "## " ++ d) = some d := by
  have hcomp : d.isEmpty = false ∧ noNL d = true ∧ edgeClean d = true ∧
      startsW (lit "#") d = false := by
    simp only [goodDate, Bool.and_eq_true, Bool.not_eq_true'] at hd
    tauto
  obtain ⟨hne, hnl, hec, hsh⟩ := hcomp
  have hdn : d ≠ [] := by
    intro he
    rw [he] at hne
    simp at hne
  have hec2 : edgeClean (lit "## " ++ d) = true := by
    unfold edgeClean at hec ⊢
    rw [Bool.and_eq_true] at hec ⊢
    constructor
    · rw [show (lit "## " ++ d).head? = some '#' from by
        rw [show lit "## " = '#' :: lit "# " from by decide]; rfl]
      decide
    · rw [List.getLast?_append_of_ne_nil _ hdn]
      exact hec.2
  have hps : pyStrip (lit "## " ++ d) = lit "## " ++ d := pyStrip_eq_self _ hec2
  have hcond1 : startsW (lit "## ") (lit "## " ++ d) = true := startsW_append_self _ _
  have hlen : 3 < (lit "## " ++ d).length := by
    rw [List.length_append, show (lit "## ").length = 3 from by decide]
    have : 0 < d.length := List.length_pos.2 hdn
    omega
  have hdrop : (lit "## " ++ d).drop 3 = d := by
    rw [show lit "## " ++ d = '#' :: '#' :: ' ' :: d from by
      rw [show lit "## " = ['#', '#', ' '] from by decide]; rfl]
    rfl
  rw [show headerDate (lit "## " ++ d) =
    (if (startsW (lit "## ") (pyStrip (lit "## " ++ d)) &&
          decide (3 < (pyStrip (lit "## " ++ d)).length)) = true then
      (if (!(pyStrip ((pyStrip (lit "## " ++ d)).drop 3)).isEmpty &&
            !startsW (lit "#") (pyStrip ((pyStrip (lit "## " ++ d)).drop 3))) = true then
        some (pyStrip ((pyStrip (lit "## " ++ d)).drop 3))
      else none)
    else none) from rfl]
  rw [hps, hdrop, pyStrip_eq_self d hec]
  rw [if_pos (by rw [hcond1]; simp only [Bool.true_and, decide_eq_true_eq]; exact hlen)]
  rw [if_pos (by simp [hne, hsh])]

/-- A line whose first stripped character differs from `#` does not start
with the date marker. -/
theorem startsW_hash_head (a : Char) (t : Str) (h : ¬a = '#') :
    startsW (lit "## ") (a :: t) = false := by
  rw [show lit "## " = '#' :: lit "# " from by decide]
  exact startsW_head_false '#' (lit "# ") a t (fun he => h he.symm)

/-- If the left strip of a line does not begin with `#`, the stripped line
does not start with the date marker. -/
theorem not_date_of_head_ne (p : Str) (h : ¬(pyLStrip p).head? = some '#') :
    startsW (lit "## ") (pyStrip p) = false := by
  unfold pyStrip
  rcases head?_pyRStrip (pyLStrip p) with h2 | h2
  · cases hps : pyRStrip (pyLStrip p) with
    | nil => rfl
    | cons a t => rw [hps] at h2; cases h2
  · cases hps : pyRStrip (pyLStrip p) with
    | nil => rfl
    | cons a t =>
      rw [hps] at h2
      have ha : ¬a = '#' := by
        intro hx
        subst hx
        exact h h2.symm
      exact startsW_hash_head a t ha

/-- Left-stripping skips a whitespace prefix. -/
theorem pyLStrip_ws_append (w x : Str) (hw : ∀ c ∈ w, isWs c = true) :
    pyLStrip (w ++ x) = pyLStrip x := by
  unfold pyLStrip
  rw [List.dropWhile_append, List.dropWhile_eq_nil_iff.2 hw]
  simp

/-- Left-stripping fixes a string with a non-whitespace head. -/
theorem pyLStrip_head_nonws (x : Str) (c0 : Char) (hx : x.head? = some c0)
    (hc0 : isWs c0 = false) : pyLStrip x = x := by
  cases x with
  | nil => rfl
  | cons a t =>
    injection hx with he
    subst he
    exact List.dropWhile_cons_of_neg (by simp [hc0])

/-- Appending trailing whitespace only pads lines: every original line has
a counterpart with the same stripped form. -/
theorem mem_splitNL_append_ws :
    ∀ (W : Str), (∀ c ∈ W, isWs c = true) →
      ∀ (A : Str) (l : Str), l ∈ splitNL A →
        ∃ l0 ∈ splitNL (A ++ W), pyStrip l = pyStrip l0 := by
  intro W
  induction W using List.reverseRecOn with
  | nil =>
    intro _ A l hl
    exact ⟨l, by simpa using hl, rfl⟩
  | append_singleton W0 c ih =>
    intro hws A l hl
    have hw0 : ∀ c2 ∈ W0, isWs c2 = true := fun c2 hc2 =>
      hws c2 (List.mem_append.2 (Or.inl hc2))
    have hc : isWs c = true :=
      hws c (List.mem_append.2 (Or.inr (List.mem_singleton.2 rfl)))
    obtain ⟨l0, hl0, he⟩ := ih hw0 A l hl
    rw [← List.append_assoc]
    by_cases hcn : c = '\n'
    · subst hcn
      refine ⟨l0, ?_, he⟩
      rw [show (A ++ W0) ++ ['\n'] = (A ++ W0) ++ '\n' :: [] from rfl,
        splitNL_append_cons]
      exact List.mem_append.2 (Or.inl hl0)
    · obtain ⟨Ls, L, h1, h2⟩ := splitNL_snoc c hcn (A ++ W0)
      rw [h1] at hl0
      rw [h2]
      rcases List.mem_append.1 hl0 with hm | hm
      · exact ⟨l0, List.mem_append.2 (Or.inl hm), he⟩
      · simp only [List.mem_singleton] at hm
        rw [hm] at he
        refine ⟨L ++ [c], List.mem_append.2 (Or.inr (List.mem_singleton.2 rfl)), ?_⟩
        rw [he, pyStrip_append_ws L [c] (by
          intro x hx
          simp only [List.mem_singleton] at hx
          subst hx
          exact hc)]

/-- Every line of a right-stripped string has a counterpart line of the
original with the same stripped form. -/
theorem mem_splitNL_pyRStrip (x : Str) (l : Str) (h : l ∈ splitNL (pyRStrip x)) :
    ∃ l0 ∈ splitNL x, pyStrip l = pyStrip l0 := by
  obtain ⟨w, hw, hws⟩ := exists_pyRStrip_append x
  obtain ⟨l0, hm, he⟩ := mem_splitNL_append_ws w hws (pyRStrip x) l h
  rw [← hw] at hm
  exact ⟨l0, hm, he⟩

/-- The lines of newline-free parts joined by blank lines are the parts
and blank lines. -/
theorem mem_splitNL_joinSepNN :
    ∀ (parts : List Str), (∀ p ∈ parts, noNL p = true) →
      ∀ l ∈ splitNL (joinSep (lit "\n\n") parts), l = [] ∨ l ∈ parts := by
  intro parts
  induction parts with
  | nil =>
    intro _ l hl
    simp only [joinSep, splitNL] at hl
    simp only [List.mem_singleton] at hl
    exact Or.inl hl
  | cons p rest ih =>
    intro hall l hl
    cases rest with
    | nil =>
      simp only [joinSep] at hl
      rw [splitNL_noNL p (hall p (List.mem_cons_self _ _))] at hl
      simp only [List.mem_singleton] at hl
      subst hl
      exact Or.inr (List.mem_cons_self _ _)
    | cons q rest2 =>
      have h1 : joinSep (lit "\n\n") (p :: q :: rest2) =
          p ++ '\n' :: ('\n' :: joinSep (lit "\n\n") (q :: rest2)) := by
        simp only [joinSep]
        rw [List.append_assoc]
        rw [show lit "\n\n" ++ joinSep (lit "\n\n") (q :: rest2) =
          '\n' :: '\n' :: joinSep (lit "\n\n") (q :: rest2) from rfl]
      rw [h1, splitNL_append_cons,
        splitNL_noNL p (hall p (List.mem_cons_self _ _))] at hl
      rcases List.mem_append.1 hl with hm | hm
      · simp only [List.mem_singleton] at hm
        subst hm
        exact Or.inr (List.mem_cons_self _ _)
      · rw [show ('\n' :: joinSep (lit "\n\n") (q :: rest2) : Str) =
          [] ++ '\n' :: joinSep (lit "\n\n") (q :: rest2) from rfl,
          splitNL_append_cons] at hm
        rcases List.mem_append.1 hm with hm2 | hm2
        · simp only [splitNL, List.mem_singleton] at hm2
          exact Or.inl hm2
        · rcases ih (fun x hx => hall x (List.mem_cons_of_mem _ hx)) l hm2 with h | h
          · exact Or.inl h
          · exact Or.inr (List.mem_cons_of_mem _ h)

/-- The substance-count line of an added section is not a date header. -/
theorem countLine_added_not_date (n : Nat) :
    startsW (lit "## ")
      (pyStrip (lit "    " ++ natToStr n ++ [' '] ++ lit "new " ++ substanceWord n)) =
      false := by
  have hassoc : lit "    " ++ natToStr n ++ [' '] ++ lit "new " ++ substanceWord n =
      lit "    " ++ (natToStr n ++ ([' '] ++ (lit "new " ++ substanceWord n))) := by
    simp [List.append_assoc]
  rw [hassoc]
  obtain ⟨i, hi, hhead⟩ := natToStrFuel_head n n
  have hNne : natToStr n ≠ [] := natToStrFuel_ne_nil n n
  have hhead2 : (natToStr n ++ ([' '] ++ (lit "new " ++ substanceWord n))).head? =
      some (digitChar i) := by
    rw [List.head?_append_of_ne_nil _ hNne]
    exact hhead
  apply not_date_of_head_ne
  rw [pyLStrip_ws_append (lit "    ") _ (by
    intro c hc
    rw [show lit "    " = [' ', ' ', ' ', ' '] from by decide] at hc
    have : c = ' ' := by simpa using hc
    subst this
    decide)]
  rw [pyLStrip_head_nonws _ (digitChar i) hhead2 (digitChar_not_ws i hi)]
  rw [hhead2]
  intro he
  injection he with he2
  have h3 := digitChar_ne_hash i hi
  rw [he2] at h3
  simp at h3

/-- The left strip of an added bullet begins with a dash. -/
theorem addedBullet_lstrip_head (dateKey : Str) (c : SChange) :
    (pyLStrip (addedBullet dateKey c)).head? = some '-' := rfl

/-- The left strip of an updated bullet begins with a dash. -/
theorem updatedBullet_lstrip_head (c : SChange) :
    (pyLStrip (updatedBullet c)).head? = some '-' := by
  unfold updatedBullet
  split <;> rfl

/-- The left strip of a removed bullet begins with a dash. -/
theorem removedBullet_lstrip_head (c : SChange) :
    (pyLStrip (removedBullet c)).head? = some '-' := rfl

/-- No part emitted by the content generator strips to a date header. -/
theorem generateParts_not_date (dk : Str) (dc : DateChanges) :
    ∀ p ∈ generateParts dk dc, startsW (lit "## ") (pyStrip p) = false := by
  intro p hp
  unfold generateParts at hp
  have hbul : ∀ (q : Str), (pyLStrip q).head? = some '-' →
      startsW (lit "## ") (pyStrip q) = false := by
    intro q hq
    apply not_date_of_head_ne
    rw [hq]
    intro he
    cases he
  have hstar : ∀ (q : Str), (pyLStrip q).head? = some '*' →
      startsW (lit "## ") (pyStrip q) = false := by
    intro q hq
    apply not_date_of_head_ne
    rw [hq]
    intro he
    cases he
  rcases List.mem_append.1 hp with hp | hp
  · rcases List.mem_append.1 hp with hp | hp
    · split at hp
      case isTrue =>
        rcases List.mem_append.1 hp with hp | hp
        · rcases List.mem_append.1 hp with hp | hp
          · fin_cases hp <;>
              first
                | decide
                | exact countLine_added_not_date dc.added.length
          · obtain ⟨c, _, hc⟩ := List.mem_map.1 hp
            subst hc
            exact hbul _ (addedBullet_lstrip_head dk c)
        · simp only [List.mem_singleton] at hp
          subst hp
          decide
      case isFalse => exact absurd hp (List.not_mem_nil p)
    · split at hp
      case isTrue =>
        rcases List.mem_append.1 hp with hp | hp
        · rcases List.mem_append.1 hp with hp | hp
          · fin_cases hp <;>
              first
                | decide
                | exact hstar _ rfl
          · obtain ⟨c, _, hc⟩ := List.mem_map.1 hp
            subst hc
            exact hbul _ (updatedBullet_lstrip_head c)
        · simp only [List.mem_singleton] at hp
          subst hp
          decide
      case isFalse => exact absurd hp (List.not_mem_nil p)
  · split at hp
    case isTrue =>
      rcases List.mem_append.1 hp with hp | hp
      · rcases List.mem_append.1 hp with hp | hp
        · fin_cases hp <;>
            first
              | decide
              | exact hstar _ rfl
        · obtain ⟨c, _, hc⟩ := List.mem_map.1 hp
          subst hc
          exact hbul _ (removedBullet_lstrip_head c)
      · simp only [List.mem_singleton] at hp
        subst hp
        decide
    case isFalse => exact absurd hp (List.not_mem_nil p)


/-- Stripping after a right strip is plain stripping. -/
theorem pyStrip_pyRStrip (x : Str) : pyStrip (pyRStrip x) = pyStrip x := by
  obtain ⟨w, hw, hws⟩ := exists_pyRStrip_append x
  conv_rhs => rw [hw]
  rw [pyStrip_append_ws _ w hws]

/-- No line of the generated content strips to a date header. -/
theorem genContent_lines_not_date (dk : Str) (dc : DateChanges) (hnl : dcNoNL dc = true) :
    ∀ l ∈ splitNL (generateContent dk dc), startsW (lit "## ") (pyStrip l) = false := by
  intro l hl
  unfold generateContent at hl
  obtain ⟨l0, hl0, he⟩ := mem_splitNL_pyRStrip _ l hl
  rw [show startsW (lit "## ") (pyStrip l) = startsW (lit "## ") (pyStrip l0) from by
    rw [he]]
  rcases mem_splitNL_joinSepNN (generateParts dk dc) (generateParts_noNL dk dc hnl)
      l0 hl0 with h0 | h0
  · subst h0
    rfl
  · exact generateParts_not_date dk dc l0 h0

/-- The tail after the matched header consists of original lines. -/
theorem dropToAfterHeader_subset :
    ∀ (lines : List Str) (d : Str), ∀ l ∈ dropToAfterHeader lines d, l ∈ lines := by
  intro lines
  induction lines with
  | nil => intro d l hl; cases hl
  | cons x t ih =>
    intro d l hl
    rw [show dropToAfterHeader (x :: t) d =
      (if pyStrip x = lit "## " ++ d then t else dropToAfterHeader t d) from rfl] at hl
    split at hl
    · exact List.mem_cons_of_mem _ hl
    · exact List.mem_cons_of_mem _ (ih d l hl)

/-- Right-stripping preserves newline-freedom. -/
theorem noNL_pyRStrip (x : Str) (h : noNL x = true) : noNL (pyRStrip x) = true := by
  obtain ⟨w, hw, _⟩ := exists_pyRStrip_append x
  rw [hw, noNL_append, Bool.and_eq_true] at h
  exact h.1

/-- No line of the copied-over date content strips to a date header. -/
theorem extractContent_lines_not_date (lines : List Str)
    (hlines : ∀ l ∈ lines, noNL l = true) (d : Str) :
    ∀ l ∈ splitNL (extractContent lines d), startsW (lit "## ") (pyStrip l) = false := by
  intro l hl
  rw [show extractContent lines d =
    joinNL (((dropToAfterHeader lines d).takeWhile
        (fun l2 => !startsW (lit "## ") (pyStrip l2))).filterMap
      (fun l2 => if (pyRStrip l2).isEmpty then none else some (pyRStrip l2))) from rfl] at hl
  have hmemF : ∀ x, x ∈ ((dropToAfterHeader lines d).takeWhile
      (fun l2 => !startsW (lit "## ") (pyStrip l2))).filterMap
      (fun l2 => if (pyRStrip l2).isEmpty then none else some (pyRStrip l2)) →
      ∃ l0 ∈ (dropToAfterHeader lines d).takeWhile
        (fun l2 => !startsW (lit "## ") (pyStrip l2)), x = pyRStrip l0 := by
    intro x hx
    obtain ⟨l0, hl0, hif⟩ := List.mem_filterMap.1 hx
    split at hif
    · cases hif
    · injection hif with hife
      exact ⟨l0, hl0, hife.symm⟩
  cases hf : ((dropToAfterHeader lines d).takeWhile
      (fun l2 => !startsW (lit "## ") (pyStrip l2))).filterMap
      (fun l2 => if (pyRStrip l2).isEmpty then none else some (pyRStrip l2)) with
  | nil =>
    rw [hf] at hl
    simp only [joinNL, joinSep, splitNL, List.mem_singleton] at hl
    subst hl
    rfl
  | cons f fs =>
    rw [hf] at hl
    have hnl : ∀ x ∈ f :: fs, noNL x = true := by
      intro x hx
      obtain ⟨l0, hl0, hxe⟩ := hmemF x (by rw [hf]; exact hx)
      subst hxe
      exact noNL_pyRStrip l0 (hlines l0 (dropToAfterHeader_subset lines d l0
        ((List.takeWhile_prefix _).subset hl0)))
    rw [splitNL_joinNL _ hnl (by simp)] at hl
    obtain ⟨l0, hl0, hxe⟩ := hmemF l (by rw [hf]; exact hl)
    subst hxe
    rw [pyStrip_pyRStrip]
    have hpred := List.mem_takeWhile_imp hl0
    rw [Bool.not_eq_true'] at hpred
    exact hpred

/-- For a date with new changes the section body is the generated block. -/
theorem dateSectionLines_eq_gen (pruned : List (Str × DateChanges)) (ex : ParsedChanges)
    (lines : List Str) (d : Str) (h : memS d (pruned.map Prod.fst) = true) :
    dateSectionLines pruned ex lines d =
      genBlockLines d (mergeChangesForDate d ex pruned) := by
  simp [dateSectionLines, genBlockLines, h]

/-- For a date without new changes the section body is the copied block. -/
theorem dateSectionLines_eq_ext (pruned : List (Str × DateChanges)) (ex : ParsedChanges)
    (lines : List Str) (d : Str) (h : memS d (pruned.map Prod.fst) = false) :
    dateSectionLines pruned ex lines d = extBlockLines lines d := by
  simp [dateSectionLines, extBlockLines, h]

/-- All lines of a generated date block are newline-free. -/
theorem genBlockLines_noNL (d : Str) (dc : DateChanges) (hd : noNL d = true) :
    ∀ l ∈ genBlockLines d dc, noNL l = true := by
  intro l hl
  rw [show genBlockLines d dc = [lit "## " ++ d, []] ++
    (if (pyStrip (generateContent d dc)).isEmpty then []
     else (splitNL (generateContent d dc)).filter (fun l2 => !(pyStrip l2).isEmpty) ++ [[]])
    from rfl] at hl
  rcases List.mem_append.1 hl with hm | hm
  · rcases List.mem_cons.1 hm with hm | hm
    · subst hm
      rw [noNL_append, Bool.and_eq_true]
      exact ⟨by decide, hd⟩
    · simp only [List.mem_singleton] at hm
      subst hm
      rfl
  · split at hm
    · cases hm
    · rcases List.mem_append.1 hm with hm | hm
      · exact noNL_mem_splitNL _ _ (List.mem_of_mem_filter hm)
      · simp only [List.mem_singleton] at hm
        subst hm
        rfl

/-- All lines of a copied date block are newline-free. -/
theorem extBlockLines_noNL (lines : List Str) (d : Str) (hd : noNL d = true) :
    ∀ l ∈ extBlockLines lines d, noNL l = true := by
  intro l hl
  rw [show extBlockLines lines d = [lit "## " ++ d, []] ++
    (if (pyStrip (extractContent lines d)).isEmpty then []
     else (splitNL (extractContent lines d)).filter (fun l2 => !(pyStrip l2).isEmpty) ++ [[]])
    from rfl] at hl
  rcases List.mem_append.1 hl with hm | hm
  · rcases List.mem_cons.1 hm with hm | hm
    · subst hm
      rw [noNL_append, Bool.and_eq_true]
      exact ⟨by decide, hd⟩
    · simp only [List.mem_singleton] at hm
      subst hm
      rfl
  · split at hm
    · cases hm
    · rcases List.mem_append.1 hm with hm | hm
      · exact noNL_mem_splitNL _ _ (List.mem_of_mem_filter hm)
      · simp only [List.mem_singleton] at hm
        subst hm
        rfl

/-- The headers recognized in a generated date block: exactly its date. -/
theorem filterMap_headerDate_gen (d : Str) (dc : DateChanges) (hd : goodDate d = true)
    (hnl : dcNoNL dc = true) :
    (genBlockLines d dc).filterMap headerDate = [d] := by
  rw [show genBlockLines d dc = [lit "## " ++ d, []] ++
    (if (pyStrip (generateContent d dc)).isEmpty then []
     else (splitNL (generateContent d dc)).filter (fun l2 => !(pyStrip l2).isEmpty) ++ [[]])
    from rfl]
  rw [List.filterMap_append]
  rw [show ([lit "## " ++ d, []] : List Str).filterMap headerDate = [d] from by
    rw [List.filterMap_cons_some (headerDate_dateHeader d hd),
      List.filterMap_cons_none headerDate_nil]
    rfl]
  rw [show List.filterMap headerDate
      (if (pyStrip (generateContent d dc)).isEmpty then ([] : List Str)
       else (splitNL (generateContent d dc)).filter (fun l2 => !(pyStrip l2).isEmpty) ++ [[]]) =
      [] from ?_]
  · rfl
  · split
    · rfl
    · rw [List.filterMap_append]
      rw [List.filterMap_eq_nil_iff.2 (fun l2 hl2 =>
        headerDate_not_date l2 (genContent_lines_not_date d dc hnl l2
          (List.mem_of_mem_filter hl2)))]
      rw [List.filterMap_cons_none headerDate_nil]
      rfl

/-- The headers recognized in a copied date block: exactly its date. -/
theorem filterMap_headerDate_ext (lines : List Str)
    (hlines : ∀ l ∈ lines, noNL l = true) (d : Str) (hd : goodDate d = true) :
    (extBlockLines lines d).filterMap headerDate = [d] := by
  rw [show extBlockLines lines d = [lit "## " ++ d, []] ++
    (if (pyStrip (extractContent lines d)).isEmpty then []
     else (splitNL (extractContent lines d)).filter (fun l2 => !(pyStrip l2).isEmpty) ++ [[]])
    from rfl]
  rw [List.filterMap_append]
  rw [show ([lit "## " ++ d, []] : List Str).filterMap headerDate = [d] from by
    rw [List.filterMap_cons_some (headerDate_dateHeader d hd),
      List.filterMap_cons_none headerDate_nil]
    rfl]
  rw [show List.filterMap headerDate
      (if (pyStrip (extractContent lines d)).isEmpty then ([] : List Str)
       else (splitNL (extractContent lines d)).filter (fun l2 => !(pyStrip l2).isEmpty) ++ [[]]) =
      [] from ?_]
  · rfl
  · split
    · rfl
    · rw [List.filterMap_append]
      rw [List.filterMap_eq_nil_iff.2 (fun l2 hl2 =>
        headerDate_not_date l2 (extractContent_lines_not_date lines hlines d l2
          (List.mem_of_mem_filter hl2)))]
      rw [List.filterMap_cons_none headerDate_nil]
      rfl

/-- The copied header segment contains no recognizable date header. -/
theorem filterMap_headerDate_headerLines (lines : List Str) :
    (headerLines lines).filterMap headerDate = [] := by
  apply List.filterMap_eq_nil_iff.2
  intro l hl
  have hp := List.mem_takeWhile_imp hl
  rw [Bool.not_eq_true'] at hp
  exact headerDate_none l hp

/-- Closed form of the rewrite performed by `update_persistent_changelog`. -/
theorem updatePersistentChangelog_eq (C : List SChange) (today : Str)
    (ddOpt : Option Str) (D : Str) :
    updatePersistentChangelog C today ddOpt D =
      (if (buildBuckets C (parseDoc D) today ddOpt).isEmpty then none
       else some (joinNL (headerLines (splitNL D) ++
         (sortDesc (dedupS ((buildBuckets C (parseDoc D) today ddOpt).map Prod.fst ++
           (parseDoc D).map Prod.fst))).flatMap
           (dateSectionLines (buildBuckets C (parseDoc D) today ddOpt) (parseDoc D)
             (splitNL D))))) := rfl

/-- A well-formed date string is newline-free. -/
theorem goodDate_noNL (d : Str) (h : goodDate d = true) : noNL d = true := by
  simp only [goodDate, Bool.and_eq_true] at h
  exact h.1.1.2

/-- A parser-recorded name is newline-free. -/
theorem parsedNameOk_noNL (n : Str) (h : parsedNameOk n = true) : noNL n = true := by
  simp only [parsedNameOk, Bool.and_eq_true] at h
  exact h.1.1.2

/-- The lines of the rewritten document. -/
theorem update_lines (C : List SChange) (today : Str) (ddOpt : Option Str) (D D1 : Str)
    (h : updatePersistentChangelog C today ddOpt D = some D1)
    (hdates : ∀ d ∈ sortDesc (dedupS ((buildBuckets C (parseDoc D) today ddOpt).map
        Prod.fst ++ (parseDoc D).map Prod.fst)), noNL d = true) :
    splitNL D1 = headerLines (splitNL D) ++
      (sortDesc (dedupS ((buildBuckets C (parseDoc D) today ddOpt).map Prod.fst ++
        (parseDoc D).map Prod.fst))).flatMap
        (dateSectionLines (buildBuckets C (parseDoc D) today ddOpt) (parseDoc D)
          (splitNL D)) := by
  rw [updatePersistentChangelog_eq] at h
  split at h
  · cases h
  case isFalse hne =>
    injection h with hD1
    subst hD1
    have hnonempty : ∃ d0, d0 ∈ sortDesc (dedupS
        ((buildBuckets C (parseDoc D) today ddOpt).map Prod.fst ++
          (parseDoc D).map Prod.fst)) := by
      cases hbb : buildBuckets C (parseDoc D) today ddOpt with
      | nil => rw [hbb] at hne; exact absurd rfl hne
      | cons p0 ps =>
        refine ⟨p0.1, ?_⟩
        rw [mem_sortDesc, mem_dedupS]
        refine List.mem_append.2 (Or.inl ?_)
        exact List.mem_map.2 ⟨p0, List.mem_cons_self _ _, rfl⟩
    obtain ⟨d0, hd0⟩ := hnonempty
    apply splitNL_joinNL
    · intro l hl
      rcases List.mem_append.1 hl with hm | hm
      · exact noNL_mem_splitNL D l ((List.takeWhile_prefix _).subset hm)
      · obtain ⟨d, hd, hld⟩ := List.mem_flatMap.1 hm
        by_cases hmem : memS d ((buildBuckets C (parseDoc D) today ddOpt).map Prod.fst) = true
        · rw [dateSectionLines_eq_gen _ _ _ _ hmem] at hld
          exact genBlockLines_noNL d _ (hdates d hd) l hld
        · rw [dateSectionLines_eq_ext _ _ _ _ (by
            cases hx : memS d ((buildBuckets C (parseDoc D) today ddOpt).map Prod.fst)
            · rfl
            · exact absurd hx hmem)] at hld
          exact extBlockLines_noNL _ d (hdates d hd) l hld
    · apply List.ne_nil_of_mem (a := lit "## " ++ d0)
      apply List.mem_append.2
      refine Or.inr (List.mem_flatMap.2 ⟨d0, hd0, ?_⟩)
      exact List.mem_append.2 (Or.inl (List.mem_cons_self _ _))

/-- A name listed in a found section is recorded. -/
theorem hasSubst_of_find (p : ParsedChanges) (d : Str) (s : SectNames)
    (hf : pcFind p d = some s) (t : CType) (n : Str) (hn : n ∈ getSect s t) :
    hasSubst p d t n = true := by
  unfold hasSubst
  rw [hf]
  exact (memS_iff_mem _ _).2 hn

/-- Every change found in an assembled bucket comes from the incoming
change list. -/
theorem buildBuckets_mem_src (C : List SChange) (ex : ParsedChanges) (today : Str)
    (ddOpt : Option Str) (d : Str) (c : SChange)
    (h : bucketsMem (buildBuckets C ex today ddOpt) d c = true) : c ∈ C := by
  have hnodup0 : (((groupFold ex today C ⟨[], []⟩).buckets).map Prod.fst).Nodup :=
    keys_nodup_groupFold ex today C ⟨[], []⟩ (by simp)
  rw [show buildBuckets C ex today ddOpt =
    ((if !(groupFold ex today C ⟨[], []⟩).computed.isEmpty then
        computedFold ex (resolveDetection ddOpt today)
          (groupFold ex today C ⟨[], []⟩).computed
          (bEnsure (groupFold ex today C ⟨[], []⟩).buckets (resolveDetection ddOpt today))
      else (groupFold ex today C ⟨[], []⟩).buckets).filter
      (fun p => hasChangesDC p.2)) from rfl] at h
  split at h
  · have hnodup : ((computedFold ex (resolveDetection ddOpt today)
        (groupFold ex today C ⟨[], []⟩).computed
        (bEnsure (groupFold ex today C ⟨[], []⟩).buckets
          (resolveDetection ddOpt today))).map Prod.fst).Nodup := by
      rw [keys_computedFold_eq]
      exact keys_nodup_bEnsure _ _ hnodup0
    unfold bucketsMem at h
    cases hf : pcFind2 ((computedFold ex (resolveDetection ddOpt today)
        (groupFold ex today C ⟨[], []⟩).computed
        (bEnsure (groupFold ex today C ⟨[], []⟩).buckets
          (resolveDetection ddOpt today))).filter (fun p => hasChangesDC p.2)) d with
    | none => rw [hf] at h; cases h
    | some dcx =>
      rw [hf] at h
      have hf2 := pcFind2_filter_some _ hnodup d dcx hf
      have hbm : bucketsMem (computedFold ex (resolveDetection ddOpt today)
          (groupFold ex today C ⟨[], []⟩).computed
          (bEnsure (groupFold ex today C ⟨[], []⟩).buckets
            (resolveDetection ddOpt today))) d c = true := by
        unfold bucketsMem
        rw [hf2]
        exact h
      rcases computedFold_buckets_char ex _ _ _ _ _ hbm with h2 | h2
      · rw [bucketsMem_bEnsure] at h2
        rcases groupFold_buckets_char ex today C ⟨[], []⟩ d c h2 with h3 | h3
        · simp [bucketsMem, pcFind2] at h3
        · exact h3.1
      · rcases groupFold_computed_char ex today C ⟨[], []⟩ c h2.1 with h3 | h3
        · simp at h3
        · exact h3.1
  · unfold bucketsMem at h
    cases hf : pcFind2 ((groupFold ex today C ⟨[], []⟩).buckets.filter
        (fun p => hasChangesDC p.2)) d with
    | none => rw [hf] at h; cases h
    | some dcx =>
      rw [hf] at h
      have hf2 := pcFind2_filter_some _ hnodup0 d dcx hf
      have hbm : bucketsMem (groupFold ex today C ⟨[], []⟩).buckets d c = true := by
        unfold bucketsMem
        rw [hf2]
        exact h
      rcases groupFold_buckets_char ex today C ⟨[], []⟩ d c hbm with h3 | h3
      · simp [bucketsMem, pcFind2] at h3
      · exact h3.1

/-- Typedness of the assembled buckets, through the pruning filter. -/
theorem buildBuckets_find_typed (C : List SChange) (ex : ParsedChanges) (today : Str)
    (ddOpt : Option Str) (d : Str) (dc : DateChanges)
    (hf : pcFind2 (buildBuckets C ex today ddOpt) d = some dc) : dcTyped dc := by
  exact buildBuckets_typed C ex today ddOpt (d, dc) (pcFind2_mem _ d dc hf)

/-- A well-formed name is newline-free. -/
theorem goodName_noNL (n : Str) (h : goodName n = true) : noNL n = true := by
  simp only [goodName, Bool.and_eq_true] at h
  exact h.1.1.1.1.2

/-- The name of a well-formed change is newline-free. -/
theorem goodChange_noNL_name (c : SChange) (h : goodChange c = true) :
    noNL c.name = true := goodName_noNL _ (goodChange_name c h)

/-- Every string interpolated into the rendered bullets of a merged date
bucket is newline-free. -/
theorem mergeChangesForDate_noNL (d : Str) (ex : ParsedChanges)
    (pruned : List (Str × DateChanges))
    (hex : ∀ d2 t n, hasSubst ex d2 t n = true → parsedNameOk n = true)
    (hpr : ∀ c, bucketsMem pruned d c = true → goodChange c = true) :
    dcNoNL (mergeChangesForDate d ex pruned) = true := by
  have hbase : ∀ (base : DateChanges),
      dcNoNL base = true →
      dcNoNL (match pcFind2 pruned d with
        | some dc => { added := base.added ++ dc.added, updated := base.updated ++ dc.updated,
                       removed := base.removed ++ dc.removed : DateChanges }
        | none => base) = true := by
    intro base hb
    cases hf : pcFind2 pruned d with
    | none => exact hb
    | some dc =>
      have hmem : ∀ c, memDC c dc = true → goodChange c = true := by
        intro c hm
        apply hpr
        unfold bucketsMem
        rw [hf]
        exact hm
      simp only [dcNoNL, Bool.and_eq_true, List.all_eq_true] at hb ⊢
      refine ⟨⟨?_, ?_⟩, ?_⟩
      · intro c hc
        rcases List.mem_append.1 hc with hc | hc
        · exact hb.1.1 c hc
        · have hg := hmem c (by simp [memDC, hc])
          constructor
          · exact goodChange_noNL_name c hg
          · cases hsd : c.sourceDate with
            | none => rfl
            | some sd => exact goodDate_noNL sd (goodChange_sourceDate c hg sd hsd)
      · intro c hc
        rcases List.mem_append.1 hc with hc | hc
        · exact hb.1.2 c hc
        · have hg := hmem c (by simp [memDC, hc])
          refine ⟨goodChange_noNL_name c hg, ?_⟩
          intro f hf2
          exact goodChange_fields c hg f hf2
      · intro c hc
        rcases List.mem_append.1 hc with hc | hc
        · exact hb.2 c hc
        · exact goodChange_noNL_name c (hmem c (by simp [memDC, hc]))
  cases hfe : pcFind ex d with
  | none =>
    rw [show mergeChangesForDate d ex pruned =
      (match pcFind2 pruned d with
        | some dc => { added := emptyDC.added ++ dc.added,
                       updated := emptyDC.updated ++ dc.updated,
                       removed := emptyDC.removed ++ dc.removed : DateChanges }
        | none => emptyDC) from by
      unfold mergeChangesForDate
      rw [hfe]]
    exact hbase emptyDC (by decide)
  | some s =>
    rw [show mergeChangesForDate d ex pruned =
      (match pcFind2 pruned d with
        | some dc =>
          { added := (s.added.map (fun n => placeholderChange n .added)) ++ dc.added,
            updated := (s.updated.map (fun n => placeholderChange n .updated)) ++ dc.updated,
            removed := (s.removed.map (fun n => placeholderChange n .removed)) ++ dc.removed :
            DateChanges }
        | none =>
          { added := s.added.map (fun n => placeholderChange n .added),
            updated := s.updated.map (fun n => placeholderChange n .updated),
            removed := s.removed.map (fun n => placeholderChange n .removed) : DateChanges })
      from by
      unfold mergeChangesForDate
      rw [hfe]]
    refine hbase ⟨s.added.map (fun n => placeholderChange n .added),
      s.updated.map (fun n => placeholderChange n .updated),
      s.removed.map (fun n => placeholderChange n .removed)⟩ ?_
    simp only [dcNoNL, Bool.and_eq_true, List.all_eq_true]
    have hname : ∀ t (n : Str), n ∈ getSect s t → noNL n = true := by
      intro t n hn
      exact parsedNameOk_noNL n (hex d t n (hasSubst_of_find ex d s hfe t n hn))
    refine ⟨⟨?_, ?_⟩, ?_⟩
    · intro c hc
      obtain ⟨n, hn, hne⟩ := List.mem_map.1 hc
      subst hne
      simp only [placeholderChange, Bool.and_eq_true]
      exact ⟨hname .added n hn, trivial⟩
    · intro c hc
      obtain ⟨n, hn, hne⟩ := List.mem_map.1 hc
      subst hne
      simp only [placeholderChange, Bool.and_eq_true]
      exact ⟨hname .updated n hn, fun x hx => absurd hx (List.not_mem_nil x)⟩
    · intro c hc
      obtain ⟨n, hn, hne⟩ := List.mem_map.1 hc
      subst hne
      simp only [placeholderChange]
      exact hname .removed n hn

/-- Claim C9 (amended): when the incoming changes are well-formed (names
and field names newline-free and renderable, source dates well-formed)
and the run and detection dates are well-formed, every document written
by `update_persistent_changelog` has at most one `## <date>` section per
date, and its date sections appear in strictly descending lexicographic
order after the header; the unconditional claim is false because a
newline inside a change name or date injects rogue `## ` header lines
(`c9_counterexample`). -/
theorem c9_sections_unique_sorted (C : List SChange) (today : Str)
    (ddOpt : Option Str) (D D1 : Str)
    (hC : ∀ c ∈ C, goodChange c = true)
    (ht : goodDate today = true)
    (hdd : goodDate (resolveDetection ddOpt today) = true)
    (h : updatePersistentChangelog C today ddOpt D = some D1) :
    (dateHeadersOf D1).Pairwise (fun a b => ltS b a = true) ∧
      (dateHeadersOf D1).Nodup := by
  have hgoodAll : ∀ d ∈ sortDesc (dedupS
      ((buildBuckets C (parseDoc D) today ddOpt).map Prod.fst ++
        (parseDoc D).map Prod.fst)), goodDate d = true := by
    intro d hd
    rw [mem_sortDesc, mem_dedupS] at hd
    rcases List.mem_append.1 hd with hd | hd
    · rcases buildBuckets_keys C (parseDoc D) today ddOpt d
          ((memS_iff_mem d _).2 hd) with h1 | h1 | h1
      · rw [h1]; exact ht
      · rw [h1]; exact hdd
      · obtain ⟨c, hc, hcs, _⟩ := h1
        exact goodChange_sourceDate c (hC c hc) d hcs
    · exact (parseDoc_invariant D).1 d hd
  have hlines := update_lines C today ddOpt D D1 h
    (fun d hd => goodDate_noNL d (hgoodAll d hd))
  rw [dateHeadersOf_eq, hlines, List.filterMap_append,
    filterMap_headerDate_headerLines, List.nil_append]
  have hflat : ∀ ds : List Str, (∀ d ∈ ds, goodDate d = true) →
      (ds.flatMap (dateSectionLines (buildBuckets C (parseDoc D) today ddOpt)
        (parseDoc D) (splitNL D))).filterMap headerDate = ds := by
    intro ds
    induction ds with
    | nil => intro _; rfl
    | cons d rest ih =>
      intro hall
      rw [List.flatMap_cons, List.filterMap_append,
        ih (fun x hx => hall x (List.mem_cons_of_mem _ hx))]
      have hgd := hall d (List.mem_cons_self _ _)
      by_cases hmem : memS d ((buildBuckets C (parseDoc D) today ddOpt).map
          Prod.fst) = true
      · rw [dateSectionLines_eq_gen _ _ _ _ hmem,
          filterMap_headerDate_gen d _ hgd (mergeChangesForDate_noNL d (parseDoc D) _
            ((parseDoc_invariant D).2.1)
            (fun c hc => hC c (buildBuckets_mem_src C (parseDoc D) today ddOpt d c hc)))]
        rfl
      · rw [dateSectionLines_eq_ext _ _ _ _ (by
          cases hx : memS d ((buildBuckets C (parseDoc D) today ddOpt).map Prod.fst)
          · rfl
          · exact absurd hx hmem),
          filterMap_headerDate_ext (splitNL D) (fun l hl => noNL_mem_splitNL D l hl)
            d hgd]
        rfl
  rw [hflat _ hgoodAll]
  exact sortDesc_dedupS_strict _

set_option maxRecDepth 100000 in
/-- Claim C9, counterexample to the unconditional statement: merging a
single added change whose name contains a newline makes the rewritten
document carry the date headers `2020-01-01` and then `9999-99-99**`, in
ascending (not descending) order. -/
theorem c9_counterexample :
    (updatePersistentChangelog [c9BadChange] (lit "2020-01-01") none
        defaultHeader).map dateHeadersOf =
      some [lit "2020-01-01", lit "9999-99-99**"] ∧
    ¬([lit "2020-01-01", lit "9999-99-99**"].Pairwise
        (fun a b => ltS b a = true)) := by
  constructor
  · decide
  · decide

set_option maxRecDepth 100000 in
/-- Witness for C9: the amended theorem applied to a concrete two-change
merge into a fresh changelog. -/
theorem c9_sections_unique_sorted_witness :
    (dateHeadersOf c9GoodDoc1).Pairwise (fun a b => ltS b a = true) ∧
      (dateHeadersOf c9GoodDoc1).Nodup :=
  c9_sections_unique_sorted [c9chg1, c9chg2] (lit "2026-01-02") none defaultHeader
    c9GoodDoc1 (by decide) (by decide) (by decide) (by decide)

/-- Placeholder changes keep exactly the recorded names. -/
theorem placeholder_names (ns : List Str) (t : CType) :
    (ns.map (fun n => placeholderChange n t)).map SChange.name = ns := by
  induction ns with
  | nil => rfl
  | cons a l ih =>
    simp only [List.map_cons]
    rw [ih]
    rfl

/-- Names of a merged bucket without new changes are the recorded names. -/
theorem memS_merge_nil (p : ParsedChanges) (d : Str) (t : CType) (n : Str) :
    memS n ((getSectDC (mergeChangesForDate d p []) t).map SChange.name) =
      hasSubst p d t n := by
  have hm : mergeChangesForDate d p [] =
      (match pcFind p d with
       | some s =>
         { added := s.added.map (fun n2 => placeholderChange n2 .added),
           updated := s.updated.map (fun n2 => placeholderChange n2 .updated),
           removed := s.removed.map (fun n2 => placeholderChange n2 .removed) : DateChanges }
       | none => emptyDC) := by
    unfold mergeChangesForDate
    cases pcFind p d <;> rfl
  rw [hm, show hasSubst p d t n =
    (match pcFind p d with
     | some s => memS n (getSect s t)
     | none => false) from rfl]
  cases hf : pcFind p d with
  | none => cases t <;> rfl
  | some s =>
    cases t <;> simp only [getSectDC, getSect, placeholder_names]

/-- A renderable parsed name is a well-formed name. -/
theorem goodName_of_parts (n : Str) (h1 : parsedNameOk n = true)
    (h2 : (!lastIs n ':' && !lastIs n '*') = true) : goodName n = true := by
  simp only [goodName, parsedNameOk, Bool.and_eq_true] at *
  tauto

/-- All names placed in a merged bucket without new changes survive the
bullet round trip. -/
theorem merge_nil_goodNames (p : ParsedChanges) (d : Str)
    (hnames : ∀ t n, hasSubst p d t n = true → parsedNameOk n = true)
    (hren : renderableNames p = true) :
    dcGoodNames (mergeChangesForDate d p []) = true := by
  have hm : mergeChangesForDate d p [] =
      (match pcFind p d with
       | some s =>
         { added := s.added.map (fun n2 => placeholderChange n2 .added),
           updated := s.updated.map (fun n2 => placeholderChange n2 .updated),
           removed := s.removed.map (fun n2 => placeholderChange n2 .removed) : DateChanges }
       | none => emptyDC) := by
    unfold mergeChangesForDate
    cases pcFind p d <;> rfl
  rw [hm]
  cases hf : pcFind p d with
  | none => rfl
  | some s =>
    have hrenS : ∀ n ∈ s.added ++ s.updated ++ s.removed,
        (!lastIs n ':' && !lastIs n '*') = true := by
      have hmem := pcFind_mem p d s hf
      unfold renderableNames at hren
      rw [List.all_eq_true] at hren
      have h2 := hren (d, s) hmem
      rw [List.all_eq_true] at h2
      exact fun n hn => h2 n hn
    simp only [dcGoodNames, List.all_eq_true]
    intro c hc
    rcases List.mem_append.1 hc with hc | hc
    · rcases List.mem_append.1 hc with hc | hc
      · obtain ⟨n, hn, hne⟩ := List.mem_map.1 hc
        subst hne
        show goodName n = true
        refine goodName_of_parts n (hnames .added n
          (hasSubst_of_find p d s hf .added n hn)) ?_
        exact hrenS n (List.mem_append.2 (Or.inl (List.mem_append.2 (Or.inl hn))))
      · obtain ⟨n, hn, hne⟩ := List.mem_map.1 hc
        subst hne
        show goodName n = true
        refine goodName_of_parts n (hnames .updated n
          (hasSubst_of_find p d s hf .updated n hn)) ?_
        exact hrenS n (List.mem_append.2 (Or.inl (List.mem_append.2 (Or.inr hn))))
    · obtain ⟨n, hn, hne⟩ := List.mem_map.1 hc
      subst hne
      show goodName n = true
      refine goodName_of_parts n (hnames .removed n
        (hasSubst_of_find p d s hf .removed n hn)) ?_
      exact hrenS n (List.mem_append.2 (Or.inr hn))

/-- Triple-set equality follows from pointwise agreement of the recorded
triples, for parsed changelogs with distinct dates. -/
theorem pcTripleEq_of_hasSubst (q p : ParsedChanges)
    (hq : (q.map Prod.fst).Nodup) (hp : (p.map Prod.fst).Nodup)
    (h : ∀ d t n, hasSubst q d t n = hasSubst p d t n) : pcTripleEq q p = true := by
  have hsub : ∀ (a b : ParsedChanges), (a.map Prod.fst).Nodup →
      (∀ d t n, hasSubst a d t n = true → hasSubst b d t n = true) →
      pcSub a b = true := by
    intro a b hnd himp
    unfold pcSub
    rw [List.all_eq_true]
    intro e he
    have hfind : pcFind a e.1 = some e.2 := pcFind_of_mem_nodup a hnd e.1 e.2 he
    simp only [Bool.and_eq_true, List.all_eq_true]
    refine ⟨⟨?_, ?_⟩, ?_⟩
    · intro n hn
      exact himp _ _ _ (hasSubst_of_find a e.1 e.2 hfind .added n hn)
    · intro n hn
      exact himp _ _ _ (hasSubst_of_find a e.1 e.2 hfind .updated n hn)
    · intro n hn
      exact himp _ _ _ (hasSubst_of_find a e.1 e.2 hfind .removed n hn)
  unfold pcTripleEq
  rw [Bool.and_eq_true]
  constructor
  · exact hsub q p hq (fun d t n hx => by rw [← h d t n]; exact hx)
  · exact hsub p q hp (fun d t n hx => by rw [h d t n]; exact hx)

/-- Parsing the rendered form of a parsed changelog recovers exactly the
recorded triples. -/
theorem parse_render_hasSubst (p : ParsedChanges)
    (hkeys : ∀ d ∈ p.map Prod.fst, goodDate d = true)
    (hnames : ∀ d t n, hasSubst p d t n = true → parsedNameOk n = true)
    (hren : renderableNames p = true) (d2 : Str) (t2 : CType) (n2 : Str) :
    hasSubst (parseDoc (renderParsedDocument p)) d2 t2 n2 = hasSubst p d2 t2 n2 := by
  have hfold : ∀ (ds2 : List Str), (∀ d ∈ ds2, memS d (p.map Prod.fst) = true) →
      ∀ (st : PState),
      hasSubst (parseLinesFrom st (ds2.flatMap
        (fun d => genBlockLines d (mergeChangesForDate d p [])))).acc d2 t2 n2 =
        (hasSubst st.acc d2 t2 n2 || (memS d2 ds2 && hasSubst p d2 t2 n2)) := by
    intro ds2
    induction ds2 with
    | nil =>
      intro _ st
      rw [show (([] : List Str).flatMap
        (fun d => genBlockLines d (mergeChangesForDate d p []))) = [] from rfl]
      rw [show parseLinesFrom st [] = st from rfl]
      rw [show memS d2 ([] : List Str) = false from rfl]
      rw [Bool.false_and, Bool.or_false]
    | cons d rest ih =>
      intro hall st
      rw [List.flatMap_cons, parseLinesFrom_append]
      have hgd : goodDate d = true :=
        hkeys d ((memS_iff_mem d _).1 (hall d (List.mem_cons_self _ _)))
      have hgn : dcGoodNames (mergeChangesForDate d p []) = true :=
        merge_nil_goodNames p d (fun t n hx => hnames d t n hx) hren
      have hnl : dcNoNL (mergeChangesForDate d p []) = true :=
        mergeChangesForDate_noNL d p [] hnames
          (fun c hc => absurd hc (by simp [bucketsMem, pcFind2]))
      obtain ⟨sec, hsec⟩ := parse_genBlockLines d hgd _ hgn hnl st
      rw [hsec]
      rw [ih (fun x hx => hall x (List.mem_cons_of_mem _ hx)) ⟨some d, sec, blockAcc st.acc d (mergeChangesForDate d p [])⟩]
      rw [show (⟨some d, sec, blockAcc st.acc d (mergeChangesForDate d p [])⟩ : PState).acc = blockAcc st.acc d (mergeChangesForDate d p []) from rfl]
      rw [hasSubst_blockAcc, memS_merge_nil]
      rw [show memS d2 (d :: rest) = (decide (d = d2) || memS d2 rest) from rfl]
      by_cases hdd : d = d2
      · rw [show (decide (d = d2) : Bool) = true from by simp [hdd]]
        rw [show hasSubst p d t2 n2 = hasSubst p d2 t2 n2 from by rw [hdd]]
        cases hasSubst st.acc d2 t2 n2 <;> cases memS d2 rest <;>
          cases hasSubst p d2 t2 n2 <;> rfl
      · rw [show (decide (d = d2) : Bool) = false from by simp [hdd]]
        cases hasSubst st.acc d2 t2 n2 <;> cases memS d2 rest <;>
          cases hasSubst p d2 t2 n2 <;> cases hasSubst p d t2 n2 <;> rfl
  have hds_sub : ∀ d ∈ sortDesc (dedupS (p.map Prod.fst)),
      memS d (p.map Prod.fst) = true := by
    intro d hd
    rw [mem_sortDesc, mem_dedupS] at hd
    exact (memS_iff_mem d _).2 hd
  cases hds : sortDesc (dedupS (p.map Prod.fst)) with
  | nil =>
    have hknil : p.map Prod.fst = [] := by
      cases hk : p.map Prod.fst with
      | nil => rfl
      | cons k ks =>
        exfalso
        have hmem : k ∈ sortDesc (dedupS (p.map Prod.fst)) := by
          rw [mem_sortDesc, mem_dedupS, hk]
          exact List.mem_cons_self _ _
        rw [hds] at hmem
        cases hmem
    have hpnil : p = [] := by
      cases p with
      | nil => rfl
      | cons e t => cases hknil
    subst hpnil
    rw [show parseDoc (renderParsedDocument []) = [] from rfl, hasSubst_nil]
  | cons dh dt =>
    have hlines : splitNL (renderParsedDocument p) =
        (sortDesc (dedupS (p.map Prod.fst))).flatMap
          (fun d => genBlockLines d (mergeChangesForDate d p [])) := by
      rw [show renderParsedDocument p = joinNL ((sortDesc (dedupS (p.map Prod.fst))).flatMap
        (fun d => genBlockLines d (mergeChangesForDate d p []))) from rfl]
      apply splitNL_joinNL
      · intro l hl
        obtain ⟨d, hd, hld⟩ := List.mem_flatMap.1 hl
        exact genBlockLines_noNL d _
          (goodDate_noNL d (hkeys d ((memS_iff_mem d _).1 (hds_sub d hd)))) l hld
      · apply List.ne_nil_of_mem (a := lit "## " ++ dh)
        apply List.mem_flatMap.2
        refine ⟨dh, by rw [hds]; exact List.mem_cons_self _ _, ?_⟩
        exact List.mem_append.2 (Or.inl (List.mem_cons_self _ _))
    unfold parseDoc
    rw [hlines, hfold _ hds_sub ⟨none, none, []⟩]
    rw [show hasSubst (⟨none, none, []⟩ : PState).acc d2 t2 n2 = false from rfl]
    rw [Bool.false_or]
    cases hsP : hasSubst p d2 t2 n2 with
    | false => rw [Bool.and_false]
    | true =>
      have hsome : (pcFind p d2).isSome = true := by
        unfold hasSubst at hsP
        cases hf : pcFind p d2 with
        | none => rw [hf] at hsP; cases hsP
        | some s => rfl
      have hmem : memS d2 (sortDesc (dedupS (p.map Prod.fst))) = true := by
        rw [memS_iff_mem, mem_sortDesc, mem_dedupS]
        exact (memS_iff_mem d2 _).1 (pcFind_isSome_memS p d2 hsome)
      rw [hmem, Bool.true_and]

/-- Claim C4 (amended): for every changelog document whose parsed names
end in neither `:` nor `*`, rendering the parser's buckets and parsing
the result yields exactly the same (date, type, name) triples as parsing
the document directly; the unconditional claim is false because the
parser strips a trailing colon (and stops before a trailing `*`) when it
reads back a bullet it rendered verbatim (`c4_counterexample`). -/
theorem c4_round_trip (D : Str) (hren : renderableNames (parseDoc D) = true) :
    pcTripleEq (parseDoc (renderParsedDocument (parseDoc D))) (parseDoc D) = true := by
  obtain ⟨hkeys, hnames, hnodup⟩ := parseDoc_invariant D
  exact pcTripleEq_of_hasSubst _ _
    (parseDoc_invariant (renderParsedDocument (parseDoc D))).2.2 hnodup
    (parse_render_hasSubst (parseDoc D) hkeys hnames hren)

set_option maxRecDepth 100000 in
/-- Claim C4, counterexample to the unconditional statement: a changelog
with the recorded name `a: :` (ending in a colon) loses that name's
spelling on the rendered-then-parsed pass. -/
theorem c4_counterexample :
    pcTripleEq (parseDoc (renderParsedDocument (parseDoc c4BadDoc)))
      (parseDoc c4BadDoc) = false := by
  decide

set_option maxRecDepth 100000 in
/-- Witness for C4: the amended theorem applied to a concrete document. -/
theorem c4_round_trip_witness :
    renderableNames (parseDoc c4OkDoc) = true ∧
      pcTripleEq (parseDoc (renderParsedDocument (parseDoc c4OkDoc)))
        (parseDoc c4OkDoc) = true :=
  ⟨by decide, c4_round_trip c4OkDoc (by decide)⟩

/-- General filing lemma: a change whose (filing date, type, name) triple
is not yet recorded ends up in the bucket of its filing date, for an
arbitrary detection date. -/
theorem buildBuckets_files (C : List SChange) (ex : ParsedChanges) (today : Str)
    (ddOpt : Option Str) (c : SChange) (hC : c ∈ C)
    (hdup : hasSubst ex (fileDate c today (resolveDetection ddOpt today))
      c.ctype c.name = false) :
    bucketsMem (buildBuckets C ex today ddOpt)
      (fileDate c today (resolveDetection ddOpt today)) c = true := by
  simp only [buildBuckets]
  set dd := resolveDetection ddOpt today with hdd
  set acc := groupFold ex today C ⟨[], []⟩ with hacc
  cases hct : c.ctype with
  | added =>
    have hfd : fileDate c today dd =
        (if sourceDateTruthy c = true then c.sourceDate.getD [] else today) := by
      cases hsrc : sourceDateTruthy c <;> simp [fileDate, hct, hsrc]
    rw [hfd] at hdup ⊢
    rw [hct] at hdup
    have hbase := groupFold_files_added ex today C ⟨[], []⟩ c hC hct hdup
    rw [← hacc] at hbase
    apply bucketsMem_filter_kept
    by_cases hcomp : acc.computed.isEmpty
    · rw [if_neg (by simp [hcomp])]
      exact hbase
    · rw [if_pos (by simp [hcomp])]
      refine bucketsMem_computedFold_mono ex dd acc.computed _ _ _ ?_
      rw [bucketsMem_bEnsure]
      exact hbase
  | updated =>
    have hfd : fileDate c today dd = dd := by simp [fileDate, hct]
    rw [hfd] at hdup ⊢
    have hcmem := groupFold_computed_files ex today C ⟨[], []⟩ c hC (Or.inl hct)
    rw [← hacc] at hcmem
    have hcomp : acc.computed.isEmpty = false := by
      cases hl : acc.computed
      · rw [hl] at hcmem; cases hcmem
      · rfl
    rw [if_pos (by simp [hcomp])]
    apply bucketsMem_filter_kept
    exact computedFold_files ex dd acc.computed _ c
      (memS_bEnsure_self _ _) hcmem hdup
  | removed =>
    have hfd : fileDate c today dd = dd := by simp [fileDate, hct]
    rw [hfd] at hdup ⊢
    have hcmem := groupFold_computed_files ex today C ⟨[], []⟩ c hC (Or.inr hct)
    rw [← hacc] at hcmem
    have hcomp : acc.computed.isEmpty = false := by
      cases hl : acc.computed
      · rw [hl] at hcmem; cases hcmem
      · rfl
    rw [if_pos (by simp [hcomp])]
    apply bucketsMem_filter_kept
    exact computedFold_files ex dd acc.computed _ c
      (memS_bEnsure_self _ _) hcmem hdup

/-- `bEnsure` preserves all-emptiness of buckets. -/
theorem bEnsure_allEmpty (bs : List (Str × DateChanges)) (d : Str)
    (h : ∀ p ∈ bs, hasChangesDC p.2 = false) :
    ∀ p ∈ bEnsure bs d, hasChangesDC p.2 = false := by
  unfold bEnsure
  intro p hp
  split at hp
  · exact h p hp
  · rcases List.mem_append.1 hp with hp | hp
    · exact h p hp
    · simp only [List.mem_singleton] at hp
      subst hp
      rfl

/-- When every added change is already recorded under its filing date,
the grouping loop creates only empty buckets. -/
theorem groupFold_all_empty (ex2 : ParsedChanges) (today : Str) :
    ∀ (cs : List SChange) (acc : GroupAcc),
      (∀ c ∈ cs, c.ctype = .added →
        hasSubst ex2 (if sourceDateTruthy c then c.sourceDate.getD [] else today)
          .added c.name = true) →
      (∀ p ∈ acc.buckets, hasChangesDC p.2 = false) →
      ∀ p ∈ (groupFold ex2 today cs acc).buckets, hasChangesDC p.2 = false := by
  intro cs
  induction cs with
  | nil => intro acc _ h; exact h
  | cons c0 rest ih =>
    intro acc hskip hempty
    have hskip2 : ∀ c ∈ rest, c.ctype = .added →
        hasSubst ex2 (if sourceDateTruthy c then c.sourceDate.getD [] else today)
          .added c.name = true :=
      fun c hc => hskip c (List.mem_cons_of_mem _ hc)
    simp only [groupFold]
    split
    case isTrue h1 =>
      simp only [Bool.and_eq_true, decide_eq_true_eq] at h1
      split
      case isTrue h2 =>
        exact ih _ hskip2 (bEnsure_allEmpty _ _ hempty)
      case isFalse h2 =>
        exfalso
        apply h2
        have := hskip c0 (List.mem_cons_self _ _) h1.1
        rw [if_pos h1.2] at this
        exact this
    case isFalse h1 =>
      split
      case isTrue h2 =>
        exact ih _ hskip2 hempty
      case isFalse h2 =>
        have hadd : c0.ctype = .added := by
          cases hct : c0.ctype
          · rfl
          · exact absurd (by simp [hct]) h2
          · exact absurd (by simp [hct]) h2
        have hsrc : sourceDateTruthy c0 = false := by
          by_contra hs
          rw [Bool.not_eq_false] at hs
          exact h1 (by simp [hadd, hs])
        split
        case isTrue h3 =>
          exact ih _ hskip2 (bEnsure_allEmpty _ _ hempty)
        case isFalse h3 =>
          exfalso
          apply h3
          rw [hadd]
          have := hskip c0 (List.mem_cons_self _ _) hadd
          rw [if_neg (by simp [hsrc])] at this
          exact this

/-- When every deferred change is already recorded under the detection
date, the computed-changes loop creates only empty buckets. -/
theorem computedFold_all_empty (ex2 : ParsedChanges) (dd : Str) :
    ∀ (cs : List SChange) (bs : List (Str × DateChanges)),
      (∀ c ∈ cs, hasSubst ex2 dd c.ctype c.name = true) →
      (∀ p ∈ bs, hasChangesDC p.2 = false) →
      ∀ p ∈ computedFold ex2 dd cs bs, hasChangesDC p.2 = false := by
  intro cs
  induction cs with
  | nil => intro bs _ h; exact h
  | cons c0 rest ih =>
    intro bs hskip hempty
    simp only [computedFold]
    split
    case isTrue h1 =>
      exact ih _ (fun c hc => hskip c (List.mem_cons_of_mem _ hc)) hempty
    case isFalse h1 =>
      exact absurd (hskip c0 (List.mem_cons_self _ _)) h1

/-- A string of whitespace strips to the empty string. -/
theorem pyStrip_nil_of_ws (l : Str) (h : ∀ c ∈ l, isWs c = true) : pyStrip l = [] := by
  unfold pyStrip pyLStrip
  rw [List.dropWhile_eq_nil_iff.2 h]
  rfl

/-- Blank lines leave the parser state unchanged. -/
theorem parse_blank_lines :
    ∀ (ls : List Str) (st : PState), (∀ l ∈ ls, pyStrip l = []) →
      parseLinesFrom st ls = st := by
  intro ls
  induction ls with
  | nil => intro st _; rfl
  | cons l rest ih =>
    intro st h
    rw [parseLinesFrom_cons, parseStep_blank st l (h l (List.mem_cons_self _ _))]
    exact ih st (fun x hx => h x (List.mem_cons_of_mem _ hx))

/-- Unfolding of the self-containedness test. -/
theorem selfContained_spec (D : Str) (h : selfContained D = true) :
    ∀ d t n, hasSubst (parseDoc D) d t n = true →
      hasSubst (blockParse (splitNL D) d) d t n = true := by
  intro d t n hs
  unfold hasSubst at hs
  cases hf : pcFind (parseDoc D) d with
  | none => rw [hf] at hs; cases hs
  | some s =>
    rw [hf] at hs
    have hmem := pcFind_mem (parseDoc D) d s hf
    unfold selfContained at h
    rw [List.all_eq_true] at h
    have h2 := h (d, s) hmem
    simp only [Bool.and_eq_true, List.all_eq_true] at h2
    cases t
    · exact h2.1.1 n ((memS_iff_mem n _).1 hs)
    · exact h2.1.2 n ((memS_iff_mem n _).1 hs)
    · exact h2.2 n ((memS_iff_mem n _).1 hs)

/-- Closed form of `merge_changes_for_date`. -/
theorem mergeChangesForDate_eq (d : Str) (ex : ParsedChanges)
    (pruned : List (Str × DateChanges)) :
    mergeChangesForDate d ex pruned =
      (match pcFind2 pruned d with
       | some dc =>
         { added := (match pcFind ex d with
             | some s => s.added.map (fun n2 => placeholderChange n2 .added)
             | none => []) ++ dc.added,
           updated := (match pcFind ex d with
             | some s => s.updated.map (fun n2 => placeholderChange n2 .updated)
             | none => []) ++ dc.updated,
           removed := (match pcFind ex d with
             | some s => s.removed.map (fun n2 => placeholderChange n2 .removed)
             | none => []) ++ dc.removed : DateChanges }
       | none =>
         { added := (match pcFind ex d with
             | some s => s.added.map (fun n2 => placeholderChange n2 .added)
             | none => []),
           updated := (match pcFind ex d with
             | some s => s.updated.map (fun n2 => placeholderChange n2 .updated)
             | none => []),
           removed := (match pcFind ex d with
             | some s => s.removed.map (fun n2 => placeholderChange n2 .removed)
             | none => []) : DateChanges }) := by
  unfold mergeChangesForDate
  cases pcFind ex d <;> cases pcFind2 pruned d <;> rfl

/-- A recorded name appears among the merged bucket's names. -/
theorem merge_names_of_ex (ex : ParsedChanges) (pruned : List (Str × DateChanges))
    (d : Str) (t : CType) (n : Str) (h : hasSubst ex d t n = true) :
    memS n ((getSectDC (mergeChangesForDate d ex pruned) t).map SChange.name) = true := by
  unfold hasSubst at h
  cases hfe : pcFind ex d with
  | none => rw [hfe] at h; cases h
  | some s =>
    rw [hfe] at h
    rw [mergeChangesForDate_eq, hfe]
    cases hfp : pcFind2 pruned d with
    | none =>
      cases t <;>
        · simp only [getSectDC, placeholder_names]
          exact h
    | some dc =>
      have h2 : memS n (getSect s t) = true := h
      cases t
      · simp only [getSectDC, List.map_append, memS_append, placeholder_names]
        rw [show memS n s.added = true from h2]
        rfl
      · simp only [getSectDC, List.map_append, memS_append, placeholder_names]
        rw [show memS n s.updated = true from h2]
        rfl
      · simp only [getSectDC, List.map_append, memS_append, placeholder_names]
        rw [show memS n s.removed = true from h2]
        rfl
  
/-- A name filed into the pruned bucket appears among the merged bucket's
names. -/
theorem merge_names_of_bucket (ex : ParsedChanges) (pruned : List (Str × DateChanges))
    (d : Str) (t : CType) (n : Str) (dc : DateChanges)
    (hfp : pcFind2 pruned d = some dc)
    (h : memS n ((getSectDC dc t).map SChange.name) = true) :
    memS n ((getSectDC (mergeChangesForDate d ex pruned) t).map SChange.name) = true := by
  rw [mergeChangesForDate_eq, hfp]
  have hbranch : ∀ (other : List SChange),
      (memS n (other.map SChange.name) || memS n ((getSectDC dc t).map SChange.name)) =
        true := by
    intro other
    rw [h]
    simp
  cases hfe : pcFind ex d with
  | none =>
    cases t
    · simp only [getSectDC, List.map_append, memS_append]
      exact hbranch []
    · simp only [getSectDC, List.map_append, memS_append]
      exact hbranch []
    · simp only [getSectDC, List.map_append, memS_append]
      exact hbranch []
  | some s =>
    cases t
    · simp only [getSectDC, List.map_append, memS_append]
      exact hbranch _
    · simp only [getSectDC, List.map_append, memS_append]
      exact hbranch _
    · simp only [getSectDC, List.map_append, memS_append]
      exact hbranch _

/-- All names of a merged bucket survive the bullet round trip, when the
recorded names are renderable and the bucketed changes well-formed. -/
theorem mergeChangesForDate_goodNames (d : Str) (ex : ParsedChanges)
    (pruned : List (Str × DateChanges))
    (hex : ∀ t n, hasSubst ex d t n = true → parsedNameOk n = true)
    (hren : renderableNames ex = true)
    (hpr : ∀ c, bucketsMem pruned d c = true → goodChange c = true) :
    dcGoodNames (mergeChangesForDate d ex pruned) = true := by
  have hbucket : ∀ (dc : DateChanges), pcFind2 pruned d = some dc →
      ∀ c, memDC c dc = true → goodName c.name = true := by
    intro dc hf c hm
    apply goodChange_name
    apply hpr
    unfold bucketsMem
    rw [hf]
    exact hm
  have hexName : ∀ (s : SectNames), pcFind ex d = some s →
      ∀ t n, n ∈ getSect s t → goodName n = true := by
    intro s hf t n hn
    have hrenS : ∀ n2 ∈ s.added ++ s.updated ++ s.removed,
        (!lastIs n2 ':' && !lastIs n2 '*') = true := by
      have hmem := pcFind_mem ex d s hf
      unfold renderableNames at hren
      rw [List.all_eq_true] at hren
      have h2 := hren (d, s) hmem
      rw [List.all_eq_true] at h2
      exact fun n2 hn2 => h2 n2 hn2
    refine goodName_of_parts n (hex t n (hasSubst_of_find ex d s hf t n hn)) ?_
    apply hrenS
    cases t
    · exact List.mem_append.2 (Or.inl (List.mem_append.2 (Or.inl hn)))
    · exact List.mem_append.2 (Or.inl (List.mem_append.2 (Or.inr hn)))
    · exact List.mem_append.2 (Or.inr hn)
  rw [mergeChangesForDate_eq]
  cases hfp : pcFind2 pruned d with
  | none =>
    cases hfe : pcFind ex d with
    | none => rfl
    | some s =>
      simp only [dcGoodNames, List.all_eq_true]
      intro c hc
      rcases List.mem_append.1 hc with hc | hc
      · rcases List.mem_append.1 hc with hc | hc
        · obtain ⟨n, hn, hne⟩ := List.mem_map.1 hc
          subst hne
          exact hexName s hfe .added n hn
        · obtain ⟨n, hn, hne⟩ := List.mem_map.1 hc
          subst hne
          exact hexName s hfe .updated n hn
      · obtain ⟨n, hn, hne⟩ := List.mem_map.1 hc
        subst hne
        exact hexName s hfe .removed n hn
  | some dc =>
    simp only [dcGoodNames, List.all_eq_true]
    intro c hc
    rcases List.mem_append.1 hc with hc | hc
    · rcases List.mem_append.1 hc with hc | hc
      · rcases List.mem_append.1 hc with hc | hc
        · cases hfe : pcFind ex d with
          | none => rw [hfe] at hc; cases hc
          | some s =>
            rw [hfe] at hc
            obtain ⟨n, hn, hne⟩ := List.mem_map.1 hc
            subst hne
            exact hexName s hfe .added n hn
        · exact hbucket dc hfp c (by simp [memDC, hc])
      · rcases List.mem_append.1 hc with hc | hc
        · cases hfe : pcFind ex d with
          | none => rw [hfe] at hc; cases hc
          | some s =>
            rw [hfe] at hc
            obtain ⟨n, hn, hne⟩ := List.mem_map.1 hc
            subst hne
            exact hexName s hfe .updated n hn
        · exact hbucket dc hfp c (by simp [memDC, hc])
    · rcases List.mem_append.1 hc with hc | hc
      · cases hfe : pcFind ex d with
        | none => rw [hfe] at hc; cases hc
        | some s =>
          rw [hfe] at hc
          obtain ⟨n, hn, hne⟩ := List.mem_map.1 hc
          subst hne
          exact hexName s hfe .removed n hn
      · exact hbucket dc hfp c (by simp [memDC, hc])

/-- Reachability through the rewritten document: a triple available in a
date's section (merged names for a date with new changes, the block parse
for a copied date) is recorded when the written lines are parsed, from any
parser state. -/
theorem reach_flatMap (C : List SChange) (today : Str) (ddOpt : Option Str) (D : Str)
    (hC : ∀ c ∈ C, goodChange c = true)
    (hren : renderableNames (parseDoc D) = true) :
    ∀ (ds2 : List Str), (∀ d ∈ ds2, goodDate d = true) →
    ∀ (fd : Str) (t : CType) (n : Str), fd ∈ ds2 →
    ((memS fd ((buildBuckets C (parseDoc D) today ddOpt).map Prod.fst) = true ∧
        memS n ((getSectDC (mergeChangesForDate fd (parseDoc D)
          (buildBuckets C (parseDoc D) today ddOpt)) t).map SChange.name) = true) ∨
     (memS fd ((buildBuckets C (parseDoc D) today ddOpt).map Prod.fst) = false ∧
        hasSubst (blockParse (splitNL D) fd) fd t n = true)) →
    ∀ st : PState,
      hasSubst (parseLinesFrom st (ds2.flatMap (dateSectionLines
        (buildBuckets C (parseDoc D) today ddOpt) (parseDoc D) (splitNL D)))).acc
        fd t n = true := by
  have hnames := (parseDoc_invariant D).2.1
  intro ds2
  induction ds2 with
  | nil =>
    intro _ fd t n hfd
    cases hfd
  | cons d rest ih =>
    intro hall fd t n hfd hcond st
    rw [List.flatMap_cons, parseLinesFrom_append]
    rcases List.mem_cons.1 hfd with hfd | hfd
    · subst hfd
      apply parse_acc_mono
      have hgd := hall fd (List.mem_cons_self _ _)
      rcases hcond with ⟨hmem, hcond⟩ | ⟨hmem, hcond⟩
      · rw [dateSectionLines_eq_gen _ _ _ _ hmem]
        have hgn : dcGoodNames (mergeChangesForDate fd (parseDoc D)
            (buildBuckets C (parseDoc D) today ddOpt)) = true :=
          mergeChangesForDate_goodNames fd (parseDoc D) _
            (fun t2 n2 hx => hnames fd t2 n2 hx) hren
            (fun c hc2 => hC c (buildBuckets_mem_src C (parseDoc D) today ddOpt fd c hc2))
        have hnl : dcNoNL (mergeChangesForDate fd (parseDoc D)
            (buildBuckets C (parseDoc D) today ddOpt)) = true :=
          mergeChangesForDate_noNL fd (parseDoc D) _ hnames
            (fun c hc2 => hC c (buildBuckets_mem_src C (parseDoc D) today ddOpt fd c hc2))
        obtain ⟨sec, hsec⟩ := parse_genBlockLines fd hgd _ hgn hnl st
        rw [hsec]
        rw [show ({ curDate := some fd, curSect := sec, acc := blockAcc st.acc fd (mergeChangesForDate fd (parseDoc D) (buildBuckets C (parseDoc D) today ddOpt)) } : PState).acc = blockAcc st.acc fd (mergeChangesForDate fd (parseDoc D) (buildBuckets C (parseDoc D) today ddOpt)) from rfl]
        rw [hasSubst_blockAcc]
        rw [show (decide (fd = fd) : Bool) = true from by simp]
        rw [hcond]
        simp
      · rw [dateSectionLines_eq_ext _ _ _ _ hmem]
        rw [show extBlockLines (splitNL D) fd = (lit "## " ++ fd) :: ([] : Str) ::
          (if (pyStrip (extractContent (splitNL D) fd)).isEmpty then []
           else (splitNL (extractContent (splitNL D) fd)).filter
             (fun l2 => !(pyStrip l2).isEmpty) ++ [[]]) from rfl]
        rw [parseLinesFrom_cons, parseStep_dateHeader st fd hgd, parseLinesFrom_cons,
          parseStep_blank _ [] rfl]
        cases hstrip : (pyStrip (extractContent (splitNL D) fd)).isEmpty with
        | true =>
          exfalso
          have hws : ∀ l ∈ splitNL (extractContent (splitNL D) fd), pyStrip l = [] := by
            intro l hl
            apply pyStrip_nil_of_ws
            intro ch hch
            exact all_ws_of_pyStrip_empty ((List.isEmpty_iff).1 hstrip) ch
              (mem_splitNL_char _ _ hl ch hch)
          have hbp : blockParse (splitNL D) fd = [] := by
            unfold blockParse
            rw [parseLinesFrom_cons, parseStep_dateHeader ⟨none, none, []⟩ fd hgd,
              parse_blank_lines _ _ hws]
          rw [hbp, hasSubst_nil] at hcond
          cases hcond
        | false =>
          rw [if_neg (by simp [hstrip])]
          rw [parseLinesFrom_append, parse_filter_blank]
          rw [show parseLinesFrom (parseLinesFrom ({ st with curDate := some fd } : PState) (splitNL (extractContent (splitNL D) fd))) [[]] = parseStep (parseLinesFrom ({ st with curDate := some fd } : PState) (splitNL (extractContent (splitNL D) fd))) [] from rfl]
          rw [parseStep_blank _ [] rfl]
          refine parse_sub (splitNL (extractContent (splitNL D) fd))
            ⟨some fd, none, []⟩ ({ st with curDate := some fd } : PState) rfl
            (Or.inr rfl) ?_ fd t n ?_
          · intro d3 t3 n3 hx
            rw [show (⟨some fd, none, []⟩ : PState).acc = ([] : ParsedChanges) from rfl,
              hasSubst_nil] at hx
            cases hx
          · have hbp : blockParse (splitNL D) fd =
                (parseLinesFrom (⟨some fd, none, []⟩ : PState)
                  (splitNL (extractContent (splitNL D) fd))).acc := by
              unfold blockParse
              rw [parseLinesFrom_cons, parseStep_dateHeader ⟨none, none, []⟩ fd hgd]
            rw [hbp] at hcond
            exact hcond
    · exact ih (fun x hx => hall x (List.mem_cons_of_mem _ hx)) fd t n hfd hcond _

/-- After a successful rewrite, every incoming change's (filing date,
type, name) triple is recorded in the written document. -/
theorem update_records_all (C : List SChange) (today : Str) (ddOpt : Option Str)
    (D D1 : Str)
    (hC : ∀ c ∈ C, goodChange c = true)
    (ht : goodDate today = true)
    (hdd : goodDate (resolveDetection ddOpt today) = true)
    (hren : renderableNames (parseDoc D) = true)
    (hself : selfContained D = true)
    (h : updatePersistentChangelog C today ddOpt D = some D1) :
    ∀ c ∈ C, hasSubst (parseDoc D1)
      (fileDate c today (resolveDetection ddOpt today)) c.ctype c.name = true := by
  have hgoodAll : ∀ d ∈ sortDesc (dedupS
      ((buildBuckets C (parseDoc D) today ddOpt).map Prod.fst ++
        (parseDoc D).map Prod.fst)), goodDate d = true := by
    intro d hd
    rw [mem_sortDesc, mem_dedupS] at hd
    rcases List.mem_append.1 hd with hd | hd
    · rcases buildBuckets_keys C (parseDoc D) today ddOpt d
          ((memS_iff_mem d _).2 hd) with h1 | h1 | h1
      · rw [h1]; exact ht
      · rw [h1]; exact hdd
      · obtain ⟨c, hc, hcs, _⟩ := h1
        exact goodChange_sourceDate c (hC c hc) d hcs
    · exact (parseDoc_invariant D).1 d hd
  have hlines := update_lines C today ddOpt D D1 h
    (fun d hd => goodDate_noNL d (hgoodAll d hd))
  intro c hc
  by_cases hrec : hasSubst (parseDoc D)
      (fileDate c today (resolveDetection ddOpt today)) c.ctype c.name = true
  · have hkey : memS (fileDate c today (resolveDetection ddOpt today))
        ((parseDoc D).map Prod.fst) = true := by
      apply pcFind_isSome_memS
      unfold hasSubst at hrec
      cases hf : pcFind (parseDoc D) (fileDate c today (resolveDetection ddOpt today)) with
      | none => rw [hf] at hrec; cases hrec
      | some s => rfl
    have hmemAll : fileDate c today (resolveDetection ddOpt today) ∈
        sortDesc (dedupS ((buildBuckets C (parseDoc D) today ddOpt).map Prod.fst ++
          (parseDoc D).map Prod.fst)) := by
      rw [mem_sortDesc, mem_dedupS]
      exact List.mem_append.2 (Or.inr ((memS_iff_mem _ _).1 hkey))
    have hcond : (memS (fileDate c today (resolveDetection ddOpt today))
          ((buildBuckets C (parseDoc D) today ddOpt).map Prod.fst) = true ∧
        memS c.name ((getSectDC (mergeChangesForDate
          (fileDate c today (resolveDetection ddOpt today)) (parseDoc D)
          (buildBuckets C (parseDoc D) today ddOpt)) c.ctype).map SChange.name) = true) ∨
        (memS (fileDate c today (resolveDetection ddOpt today))
          ((buildBuckets C (parseDoc D) today ddOpt).map Prod.fst) = false ∧
        hasSubst (blockParse (splitNL D) (fileDate c today (resolveDetection ddOpt today)))
          (fileDate c today (resolveDetection ddOpt today)) c.ctype c.name = true) := by
      cases hmemP : memS (fileDate c today (resolveDetection ddOpt today))
          ((buildBuckets C (parseDoc D) today ddOpt).map Prod.fst) with
      | true =>
        exact Or.inl ⟨rfl, merge_names_of_ex (parseDoc D) _ _ _ _ hrec⟩
      | false =>
        exact Or.inr ⟨rfl, selfContained_spec D hself _ _ _ hrec⟩
    unfold parseDoc
    rw [hlines, parseLinesFrom_append]
    exact reach_flatMap C today ddOpt D hC hren _ hgoodAll _ _ _ hmemAll hcond _
  · have hrecF : hasSubst (parseDoc D)
        (fileDate c today (resolveDetection ddOpt today)) c.ctype c.name = false := by
      cases hx : hasSubst (parseDoc D)
          (fileDate c today (resolveDetection ddOpt today)) c.ctype c.name
      · rfl
      · exact absurd hx hrec
    have hfile := buildBuckets_files C (parseDoc D) today ddOpt c hc hrecF
    obtain ⟨dc, hfind, hmemdc⟩ : ∃ dc, pcFind2 (buildBuckets C (parseDoc D) today ddOpt)
        (fileDate c today (resolveDetection ddOpt today)) = some dc ∧
        memDC c dc = true := by
      unfold bucketsMem at hfile
      cases hf : pcFind2 (buildBuckets C (parseDoc D) today ddOpt)
          (fileDate c today (resolveDetection ddOpt today)) with
      | none => rw [hf] at hfile; cases hfile
      | some dc0 =>
        rw [hf] at hfile
        exact ⟨dc0, rfl, hfile⟩
    have hkeyP : memS (fileDate c today (resolveDetection ddOpt today))
        ((buildBuckets C (parseDoc D) today ddOpt).map Prod.fst) = true := by
      apply pcFind2_isSome_memS
      rw [hfind]
      rfl
    have hmemAll : fileDate c today (resolveDetection ddOpt today) ∈
        sortDesc (dedupS ((buildBuckets C (parseDoc D) today ddOpt).map Prod.fst ++
          (parseDoc D).map Prod.fst)) := by
      rw [mem_sortDesc, mem_dedupS]
      exact List.mem_append.2 (Or.inl ((memS_iff_mem _ _).1 hkeyP))
    have hnamemem : memS c.name ((getSectDC dc c.ctype).map SChange.name) = true := by
      rw [memS_iff_mem]
      exact List.mem_map.2 ⟨c, memDC_getSectDC dc c
        (buildBuckets_find_typed C (parseDoc D) today ddOpt _ dc hfind) hmemdc, rfl⟩
    unfold parseDoc
    rw [hlines, parseLinesFrom_append]
    exact reach_flatMap C today ddOpt D hC hren _ hgoodAll _ _ _ hmemAll
      (Or.inl ⟨hkeyP, merge_names_of_bucket (parseDoc D) _ _ c.ctype c.name
        dc hfind hnamemem⟩) _

/-- Claim C1 (amended): for well-formed incoming changes (renderable
names, no embedded newlines, well-formed dates), a well-formed run date
and detection date, and an existing document whose recorded names are
renderable and whose recorded entries are recoverable from their own date
blocks, merging is idempotent: re-running `update_persistent_changelog`
with the same changes against the document it just wrote performs no
write at all (every (date, type, name) combination is already recorded
and skipped); the unconditional claim is false because a name ending in a
colon is re-recorded with the colon stripped and then duplicated on the
second run (`c1_counterexample`). -/
theorem c1_merge_idempotent (C : List SChange) (today : Str) (ddOpt : Option Str)
    (D D1 : Str)
    (hC : ∀ c ∈ C, goodChange c = true)
    (ht : goodDate today = true)
    (hdd : goodDate (resolveDetection ddOpt today) = true)
    (hren : renderableNames (parseDoc D) = true)
    (hself : selfContained D = true)
    (h : updatePersistentChangelog C today ddOpt D = some D1) :
    updatePersistentChangelog C today ddOpt D1 = none := by
  have hrec := update_records_all C today ddOpt D D1 hC ht hdd hren hself h
  have hskipAdd : ∀ c ∈ C, c.ctype = .added →
      hasSubst (parseDoc D1)
        (if sourceDateTruthy c then c.sourceDate.getD [] else today)
        .added c.name = true := by
    intro c hc hct
    have h2 := hrec c hc
    have hfd : fileDate c today (resolveDetection ddOpt today) =
        (if sourceDateTruthy c then c.sourceDate.getD [] else today) := by
      cases hsrc : sourceDateTruthy c <;> simp [fileDate, hct, hsrc]
    rw [hfd, hct] at h2
    exact h2
  have hskipComp : ∀ c2 ∈ (groupFold (parseDoc D1) today C ⟨[], []⟩).computed,
      hasSubst (parseDoc D1) (resolveDetection ddOpt today) c2.ctype c2.name = true := by
    intro c2 hc2
    rcases groupFold_computed_char (parseDoc D1) today C ⟨[], []⟩ c2 hc2 with h2 | h2
    · simp at h2
    · have h3 := hrec c2 h2.1
      have hfd : fileDate c2 today (resolveDetection ddOpt today) =
          resolveDetection ddOpt today := by
        rcases h2.2 with hct | hct <;> simp [fileDate, hct]
      rw [hfd] at h3
      exact h3
  have hgf : ∀ p ∈ (groupFold (parseDoc D1) today C ⟨[], []⟩).buckets,
      hasChangesDC p.2 = false :=
    groupFold_all_empty (parseDoc D1) today C ⟨[], []⟩ hskipAdd
      (by intro p hp; cases hp)
  have hempty : buildBuckets C (parseDoc D1) today ddOpt = [] := by
    rw [show buildBuckets C (parseDoc D1) today ddOpt = ((if !(groupFold (parseDoc D1) today C ⟨[], []⟩).computed.isEmpty then computedFold (parseDoc D1) (resolveDetection ddOpt today) (groupFold (parseDoc D1) today C ⟨[], []⟩).computed (bEnsure (groupFold (parseDoc D1) today C ⟨[], []⟩).buckets (resolveDetection ddOpt today)) else (groupFold (parseDoc D1) today C ⟨[], []⟩).buckets).filter (fun p => hasChangesDC p.2)) from rfl]
    refine List.filter_eq_nil_iff.2 ?_
    intro a ha
    have hallfalse : hasChangesDC a.2 = false := by
      split at ha
      · exact computedFold_all_empty (parseDoc D1) (resolveDetection ddOpt today)
          _ _ hskipComp (bEnsure_allEmpty _ _ hgf) a ha
      · exact hgf a ha
    simp [hallfalse]
  rw [updatePersistentChangelog_eq, hempty]
  rfl

set_option maxRecDepth 400000 in
/-- Claim C1, counterexample to the unconditional statement: merging a
change named `Foo:` writes the bullet `- **Foo:**`, which parses back as
`Foo`; the second run of the merger with the same change does not skip it
and rewrites the document with a duplicated entry. -/
theorem c1_counterexample :
    updatePersistentChangelog [c1BadChange] (lit "2026-01-02") none defaultHeader =
        some c1BadDoc1 ∧
      updatePersistentChangelog [c1BadChange] (lit "2026-01-02") none c1BadDoc1 =
        some c1BadDoc2 ∧
      c1BadDoc2 ≠ c1BadDoc1 := by
  refine ⟨by decide, by decide, by decide⟩

set_option maxRecDepth 400000 in
/-- Witness for C1: the amended theorem applied to a concrete single-change
merge into a fresh changelog; the second run writes nothing. -/
theorem c1_merge_idempotent_witness :
    updatePersistentChangelog [c1GoodChange] (lit "2026-01-02") none c1GoodDoc1 =
      none :=
  c1_merge_idempotent [c1GoodChange] (lit "2026-01-02") none defaultHeader c1GoodDoc1
    (by decide) (by decide) (by decide) (by decide) (by decide) (by decide)
